import Mathlib

set_option autoImplicit false

/-!
Verification of the `FunctionGraph` container from `aesara/graph/fg.py`.

The embedding is first-order and fully executable.  Variables, apply nodes
and features are identified by natural-number handles.  Immutable attributes
of variables and nodes (type handle, owner, constant-ness, the sentinel null
type, node output lists, the external `Type.filter_variable` coercion, the
feature `on_attach`/`on_detach` behaviour, and well-formedness of the opaque
`Op.view_map`/`destroy_map` attributes) live in an environment `Env`; the
mutable state (the node-input slots of the shared `Apply` objects, and the
container's `inputs`, `outputs`, `variables`, `apply_nodes`, `clients`,
feature list and `execute_callbacks_times` keys) lives in `FunctionGraph`.

Python exceptions are modelled by `Except (Err × FunctionGraph) FunctionGraph`:
an error carries the state at the moment of the raise, so atomicity claims
("the graph is unchanged when the exception is raised") are expressible.
Feature callbacks are modelled from the spec as pure observers (the spec states
that features may read but must not mutate the graph): `execute_callbacks`
appends one `Event` to an event log.  Timing, `reason` strings and the
`tag.imported_by`/`tag.removed_by` audit lists are metadata with no structural
effect and are not modelled.  The process-wide config is modelled with
`compute_test_value = "off"` (its default) and `optimizer_verbose = False`.
-/

namespace AesaraFG

/-! ## Association-list and list helpers -/

def alookup {κ α : Type} [DecidableEq κ] : List (κ × α) → κ → Option α
  | [], _ => none
  | (k, a) :: l, k' => if k' = k then some a else alookup l k'

def aset {κ α : Type} [DecidableEq κ] : List (κ × α) → κ → α → List (κ × α)
  | [], k, a => [(k, a)]
  | (k', b) :: l, k, a => if k = k' then (k, a) :: l else (k', b) :: aset l k a

/-- Removes the first occurrence of `a`, like Python `list.remove` (which the
caller guards with a membership test / `ValueError` handler). -/
def lerase {α : Type} [DecidableEq α] : List α → α → List α
  | [], _ => []
  | b :: l, a => if b = a then l else b :: lerase l a

def lcountP {α : Type} (p : α → Prop) [DecidablePred p] : List α → Nat
  | [] => 0
  | a :: l => (if p a then 1 else 0) + lcountP p l

def lcount {α : Type} [DecidableEq α] (l : List α) (a : α) : Nat :=
  lcountP (fun b => b = a) l

/-- Keys of an association list. -/
def akeys {κ α : Type} (l : List (κ × α)) : List κ := l.map Prod.fst

/-- Total indexing into a list, like Python `l[i]` guarded by the caller. -/
def lget {α : Type} : List α → Nat → Option α
  | [], _ => none
  | a :: _, 0 => some a
  | _ :: l, i + 1 => lget l i

/-- Pairs each list element with its index, like Python `enumerate`. -/
def zidx {α : Type} : Nat → List α → List (Nat × α)
  | _, [] => []
  | i, a :: l => (i, a) :: zidx (i + 1) l

/-! ## Data model -/

/-- A client is an `Apply` node of the graph or the sentinel string `"output"`. -/
inductive NodeRef where
  | output : NodeRef
  | node : Nat → NodeRef
deriving DecidableEq

/-- An entry of a `clients` list: a `(node-or-"output", index)` pair. -/
abbrev Client := NodeRef × Nat

/-- One `execute_callbacks` broadcast (or a direct feature hook invocation). -/
inductive Event where
  | onImport : Nat → Event
  | onPrune : Nat → Event
  | onChangeInput : NodeRef → Nat → Nat → Nat → Event
  | onAttach : Nat → Event
  | onDetach : Nat → Event
deriving DecidableEq

/-- The Python exceptions that the modelled code can raise. -/
inductive Err where
  | missingInput : Err
  | typeError : Err
  | nullTypeError : Err
  | valueError : Err
  | keyError : Err
  | indexError : Err
  | assertionError : Err
  | badMaps : Err
  | featureExc : Nat → Err
  | fuelOut : Err
deriving DecidableEq

/-- Modelled from the spec: the observable behaviour of a feature's optional
`on_attach` hook (`aesara.graph.toolbox` is outside the given sources).  It may
succeed, raise `AlreadyThere`, raise any other exception (carried as a code),
or be absent. -/
inductive AttachOutcome where
  | ok : AttachOutcome
  | alreadyThere : AttachOutcome
  | raises : Nat → AttachOutcome
  | noMethod : AttachOutcome
deriving DecidableEq

/-- The immutable surroundings of a graph: variable attributes, node output
lists, and the external collaborators named by the spec (`Type.==`,
`Type.filter_variable`, null types, `Op` map well-formedness, feature hooks). -/
structure Env where
  vtypeL : List (Nat × Nat)
  ownerL : List (Nat × Nat)
  constL : List Nat
  nullL : List Nat
  nodeOutL : List (Nat × List Nat)
  filterL : List ((Nat × Nat) × Nat)
  featAttachL : List (Nat × AttachOutcome)
  featDetachL : List Nat
  badOpL : List Nat
  topoFuel : Nat
deriving DecidableEq

def Env.vtype (E : Env) (v : Nat) : Nat := (alookup E.vtypeL v).getD 0

def Env.owner (E : Env) (v : Nat) : Option Nat := alookup E.ownerL v

def Env.isConst (E : Env) (v : Nat) : Prop := v ∈ E.constL

instance (E : Env) (v : Nat) : Decidable (E.isConst v) :=
  inferInstanceAs (Decidable (v ∈ E.constL))

def Env.isNull (E : Env) (v : Nat) : Prop := v ∈ E.nullL

instance (E : Env) (v : Nat) : Decidable (E.isNull v) :=
  inferInstanceAs (Decidable (v ∈ E.nullL))

/-- The (immutable) output list of an `Apply` node. -/
def Env.nodeOut (E : Env) (n : Nat) : List Nat := (alookup E.nodeOutL n).getD []

/-- Modelled from the spec: `Type.filter_variable(v, allow_convert=True)`, the
external coerce-or-fail hook, keyed by `(type handle, variable)`. -/
def Env.filterVar (E : Env) (t v : Nat) : Option Nat := alookup E.filterL (t, v)

def Env.featAttach (E : Env) (f : Nat) : AttachOutcome :=
  (alookup E.featAttachL f).getD AttachOutcome.noMethod

def Env.hasDetach (E : Env) (f : Nat) : Prop := f ∈ E.featDetachL

instance (E : Env) (f : Nat) : Decidable (E.hasDetach f) :=
  inferInstanceAs (Decidable (f ∈ E.featDetachL))

/-- Nodes whose `Op` has a malformed `view_map`/`destroy_map` (`setup_node`
raises on them). -/
def Env.badOp (E : Env) (n : Nat) : Prop := n ∈ E.badOpL

instance (E : Env) (n : Nat) : Decidable (E.badOp n) :=
  inferInstanceAs (Decidable (n ∈ E.badOpL))

/-- The state: the shared mutable input slots of every `Apply` object
(`nodeIn`), and the container fields of `FunctionGraph.__init__`.
`variables` and `apply_nodes` are Python sets, kept as duplicate-free lists;
`clients` is the Python dict, kept as an association list; `cbTimes` is the
key set of `execute_callbacks_times`; `log` records callback broadcasts;
`warnings` counts `warnings.warn` calls. -/
structure FunctionGraph where
  nodeIn : List (Nat × List Nat)
  inputs : List Nat
  outputs : List Nat
  vars : List Nat
  apply_nodes : List Nat
  clients : List (Nat × List Client)
  features : List Nat
  cbTimes : List Nat
  log : List Event
  warnings : Nat
deriving DecidableEq

/-- Current value of `node.inputs` for the `Apply` object `n`. -/
def nodeInputs (g : FunctionGraph) (n : Nat) : List Nat :=
  (alookup g.nodeIn n).getD []

abbrev Res := Except (Err × FunctionGraph) FunctionGraph

/-! ## Operations (from `fg.py`) -/

/-- `setup_var`: `self.clients.setdefault(var, [])`. -/
def setup_var (g : FunctionGraph) (v : Nat) : FunctionGraph :=
  match alookup g.clients v with
  | some _ => g
  | none => { g with clients := g.clients ++ [(v, [])] }

/-- `self.variables.add(var)` (Python set add). -/
def varAdd (g : FunctionGraph) (v : Nat) : FunctionGraph :=
  if v ∈ g.vars then g else { g with vars := g.vars ++ [v] }

/-- `add_input(var, check)`: appends to `inputs`, seeds the clients list,
adds to `variables`; with `check` it skips variables already in `inputs`. -/
def add_input (g : FunctionGraph) (v : Nat) (check : Bool) : FunctionGraph :=
  if check = true ∧ v ∈ g.inputs then g
  else varAdd (setup_var { g with inputs := g.inputs ++ [v] } v) v

/-- `add_client(var, new_client)`: `self.clients[var].append(new_client)`;
a `KeyError` surfaces if `var` has no clients entry. -/
def add_client (g : FunctionGraph) (v : Nat) (c : Client) : Res :=
  match alookup g.clients v with
  | none => .error (.keyError, g)
  | some cs => .ok { g with clients := aset g.clients v (cs ++ [c]) }

/-- `execute_callbacks(name, *args)` as an observable broadcast. -/
def execCB (g : FunctionGraph) (e : Event) : FunctionGraph :=
  { g with log := g.log ++ [e] }

/-- `attach_feature(feature)`: identical features are ignored, `on_attach`
may abort the attachment with `AlreadyThere` or fail with another exception;
on success the feature gets an `execute_callbacks_times` entry (`setdefault`)
and is appended to the feature list. -/
def registerFeat (g : FunctionGraph) (f : Nat) : FunctionGraph :=
  { g with cbTimes := if f ∈ g.cbTimes then g.cbTimes else g.cbTimes ++ [f],
           features := g.features ++ [f] }

def attach_feature (E : Env) (g : FunctionGraph) (f : Nat) : Res :=
  if f ∈ g.features then .ok g
  else
    match E.featAttach f with
    | .noMethod => .ok (registerFeat g f)
    | .ok => .ok (registerFeat (execCB g (.onAttach f)) f)
    | .alreadyThere => .ok (execCB g (.onAttach f))
    | .raises c => .error (.featureExc c, execCB g (.onAttach f))

/-- `remove_feature(feature)`: absent features are a silent no-op; present
ones are removed and `on_detach` fires if the feature defines it. -/
def remove_feature (E : Env) (g : FunctionGraph) (f : Nat) : FunctionGraph :=
  if f ∈ g.features then
    if E.hasDetach f then
      execCB { g with features := lerase g.features f } (.onDetach f)
    else { g with features := lerase g.features f }
  else g

/-- Modelled from the spec: `io_toposort(self.variables, apply_node.outputs)`
used by `import_node` (`aesara.graph.basic` is outside the given sources).
Depth-first walk upward from a node, stopping at variables the graph already
knows, emitting producers before consumers, deduplicating; `fuel` bounds the
recursion depth through the external node universe. -/
def topoVisit (E : Env) (g : FunctionGraph) : Nat → Nat → List Nat → List Nat
  | 0, _, acc => acc
  | fuel + 1, n, acc =>
    if n ∈ acc then acc
    else
      let deps := (nodeInputs g n).filterMap
        (fun v => if v ∈ g.vars then none else E.owner v)
      let acc := deps.foldl (fun acc m => topoVisit E g fuel m acc) acc
      acc ++ [n]

/-- Modelled from the spec: the list of new nodes an import of `outs` must
pull in, in topological order. -/
def ioToposort (E : Env) (g : FunctionGraph) (outs : List Nat) : List Nat :=
  (outs.filterMap (fun v => if v ∈ g.vars then none else E.owner v)).foldl
    (fun acc m => topoVisit E g E.topoFuel m acc) []

/-- The inner loop of `import_node`'s `check` pass over one node's inputs:
a rootless non-constant not in `inputs` is promoted when `import_missing`
and otherwise raises `MissingInputError`. -/
def checkNodeInputs (E : Env) (im : Bool) : FunctionGraph → List Nat → Res
  | g, [] => .ok g
  | g, v :: rest =>
    if E.owner v = none ∧ ¬ E.isConst v ∧ v ∉ g.inputs then
      if im then checkNodeInputs E im (add_input g v true) rest
      else .error (.missingInput, g)
    else checkNodeInputs E im g rest

/-- The `check` pass of `import_node` over all new nodes. -/
def importCheck (E : Env) (im : Bool) : FunctionGraph → List Nat → Res
  | g, [] => .ok g
  | g, n :: rest =>
    match checkNodeInputs E im g (nodeInputs g n) with
    | .error e => .error e
    | .ok g => importCheck E im g rest

/-- `if input not in self.variables: setup_var(input); variables.add(input)`. -/
def trackVar (g : FunctionGraph) (v : Nat) : FunctionGraph :=
  if v ∈ g.vars then g else varAdd (setup_var g v) v

/-- The per-input half of importing one node: track unknown inputs and append
the `(node, i)` back-edge to each input's clients list. -/
def addClientsLoop : FunctionGraph → Nat → List (Nat × Nat) → Res
  | g, _, [] => .ok g
  | g, n, (i, v) :: rest =>
    match add_client (trackVar g v) v (NodeRef.node n, i) with
    | .error e => .error e
    | .ok g => addClientsLoop g n rest

/-- Registration part of importing one node: add it to `apply_nodes`, then
track every output (`setup_var` plus `variables.add`). -/
def importReg (E : Env) (g : FunctionGraph) (n : Nat) : FunctionGraph :=
  (E.nodeOut n).foldl (fun g o => varAdd (setup_var g o) o)
    { g with apply_nodes := g.apply_nodes ++ [n] }

/-- The body of `import_node`'s main loop for one new node: the
`assert node not in self.apply_nodes`, `setup_node`'s view/destroy-map check,
registration of the node and its outputs, back-edges for its inputs, and the
`on_import` broadcast. -/
def importOneNode (E : Env) (g : FunctionGraph) (n : Nat) : Res :=
  if n ∈ g.apply_nodes then .error (.assertionError, g)
  else if E.badOp n then .error (.badMaps, g)
  else
    match addClientsLoop (importReg E g n) n (zidx 0 (nodeInputs (importReg E g n) n)) with
    | .error e => .error e
    | .ok g => .ok (execCB g (.onImport n))

def importNodesLoop (E : Env) : FunctionGraph → List Nat → Res
  | g, [] => .ok g
  | g, n :: rest =>
    match importOneNode E g n with
    | .error e => .error e
    | .ok g => importNodesLoop E g rest

/-- `import_node(apply_node, check, reason, import_missing)`.  The list of
new nodes is computed up front, from the graph as it is at entry. -/
def importNode (E : Env) (g : FunctionGraph) (n : Nat) (check im : Bool) : Res :=
  match (if check then importCheck E im g (ioToposort E g (E.nodeOut n)) else .ok g) with
  | .error e => .error e
  | .ok g1 => importNodesLoop E g1 (ioToposort E g (E.nodeOut n))

/-- The owner-import / missing-input part of `import_var`. -/
def importVarCore (E : Env) (g : FunctionGraph) (v : Nat) (im : Bool) : Res :=
  match E.owner v with
  | some n => if n ∈ g.apply_nodes then .ok g else importNode E g n true im
  | none =>
    if ¬ E.isConst v ∧ v ∉ g.inputs then
      if E.isNull v then .error (.nullTypeError, g)
      else if im then .ok (add_input g v true)
      else .error (.missingInput, g)
    else .ok g

/-- `import_var(var, reason, import_missing)`: the dispatch above followed by
`setup_var` and `variables.add`. -/
def importVar (E : Env) (g : FunctionGraph) (v : Nat) (im : Bool) : Res :=
  match importVarCore E g v im with
  | .error e => .error e
  | .ok g => .ok (varAdd (setup_var g v) v)

/-- `any(output for output in apply_node.outputs if self.clients[output])`:
scans the outputs until one has a non-empty clients list; a `KeyError`
surfaces for an untracked output. -/
def anyClientful (g : FunctionGraph) : List Nat → Except (Err × FunctionGraph) Bool
  | [] => .ok false
  | o :: rest =>
    match alookup g.clients o with
    | none => .error (.keyError, g)
    | some [] => anyClientful g rest
    | some (_ :: _) => .ok true

/-- The `(in_var, (apply_node, i))` pairs pushed when `apply_node` is pruned,
in the order in which the LIFO worklist will pop them (Python appends
`i = 0, 1, …` to the end of the stack and pops from the end). -/
def pushList (g : FunctionGraph) (p : Nat) : List (Nat × Client) :=
  ((zidx 0 (nodeInputs g p)).map (fun iv => (iv.2, (NodeRef.node p, iv.1)))).reverse

/-- Removes the edge from `clients[v]` when it is present; a missing edge is
swallowed (`ValueError` handler). -/
def eraseClient (g : FunctionGraph) (v : Nat) (e : Client) (cs : List Client) : FunctionGraph :=
  if e ∈ cs then { g with clients := aset g.clients v (lerase cs e) } else g

/-- The state after pruning node `p`: `apply_nodes.remove(p)`,
`variables.difference_update(p.outputs)` and the `on_prune` broadcast. -/
def pruneState (E : Env) (g : FunctionGraph) (p : Nat) : FunctionGraph :=
  execCB { g with apply_nodes := lerase g.apply_nodes p,
                  vars := g.vars.filter (fun w => decide (w ∉ E.nodeOut p)) }
    (.onPrune p)

/-- The worklist loop of `remove_client`.  One iteration pops `(v, e)`,
attempts to remove `e` from `clients[v]` (a missing edge is swallowed: the
`ValueError` handler sets `var_clients = None` and control falls through to
the prune logic), and when the falsy test fires it removes a clientless
ownerless `v` from `variables`, or prunes `v`'s owner when none of the owner's
outputs has a client (firing `on_prune` and pushing the owner's input edges).
Python `set.remove` raises `KeyError` on absent elements; `fuel` is a bound on
the iteration count, pre-computed by `remove_client` below. -/
def removeClientLoop (E : Env) : Nat → FunctionGraph → List (Nat × Client) → Res
  | _, g, [] => .ok g
  | 0, g, _ :: _ => .error (.fuelOut, g)
  | fuel + 1, g, (v, e) :: stack =>
    match alookup g.clients v with
    | none => .error (.keyError, g)
    | some cs =>
      if e ∈ cs ∧ lerase cs e ≠ [] then removeClientLoop E fuel (eraseClient g v e cs) stack
      else
        match E.owner v with
        | none =>
          if v ∈ (eraseClient g v e cs).vars then
            removeClientLoop E fuel
              { eraseClient g v e cs with vars := lerase (eraseClient g v e cs).vars v } stack
          else .error (.keyError, eraseClient g v e cs)
        | some p =>
          match anyClientful (eraseClient g v e cs) (E.nodeOut p) with
          | .error err => .error err
          | .ok true => removeClientLoop E fuel (eraseClient g v e cs) stack
          | .ok false =>
            if p ∈ (eraseClient g v e cs).apply_nodes then
              removeClientLoop E fuel (pruneState E (eraseClient g v e cs) p)
                (pushList (pruneState E (eraseClient g v e cs) p) p ++ stack)
            else .error (.keyError, eraseClient g v e cs)

/-- An upper bound on the number of worklist iterations a `remove_client`
started on `g` with one seed edge can take: each iteration either consumes a
stack entry or prunes a node (pushing that node's input edges once). -/
def pruneWeight (g : FunctionGraph) : Nat :=
  (g.apply_nodes.map (fun p => 1 + (nodeInputs g p).length)).sum

/-- `remove_client(var, client_to_remove, reason)`. -/
def remove_client (E : Env) (g : FunctionGraph) (v : Nat) (e : Client) : Res :=
  removeClientLoop E (2 + pruneWeight g) g [(v, e)]

/-- Reads `node.inputs[i]`, or `outputs[i]` for the `"output"` sentinel. -/
def slotGet (g : FunctionGraph) (r : NodeRef) (i : Nat) : Option Nat :=
  match r with
  | .output => lget g.outputs i
  | .node n => lget (nodeInputs g n) i

/-- Writes `node.inputs[i] = v`, or `outputs[i] = v` for `"output"`. -/
def slotSet (g : FunctionGraph) (r : NodeRef) (i : Nat) (v : Nat) : FunctionGraph :=
  match r with
  | .output => { g with outputs := g.outputs.set i v }
  | .node n => { g with nodeIn := aset g.nodeIn n ((nodeInputs g n).set i v) }

/-- `change_input(node, i, new_var, reason, import_missing)`: reads the slot
(an out-of-range index raises), requires structural type equality, performs
the slot mutation, returns early when the old value is the new one, then
imports `new_var`, appends the new back-edge, removes the old one (possibly
cascading a prune) and broadcasts `on_change_input`. -/
def change_input (E : Env) (g : FunctionGraph) (ref : NodeRef) (i : Nat)
    (newv : Nat) (im : Bool) : Res :=
  match slotGet g ref i with
  | none => .error (.indexError, g)
  | some r =>
    if E.vtype r ≠ E.vtype newv then .error (.typeError, g)
    else if r = newv then .ok (slotSet g ref i newv)
    else
      match importVar E (slotSet g ref i newv) newv im with
      | .error e => .error e
      | .ok g =>
        match add_client g newv (ref, i) with
        | .error e => .error e
        | .ok g =>
          match remove_client E g r (ref, i) with
          | .error e => .error e
          | .ok g => .ok (execCB g (.onChangeInput ref i r newv))

/-- The loop of `replace` over the snapshot of `clients[var]`: each entry is
re-checked by the `assert` against the live graph, then rewired via
`change_input`. -/
def replaceLoop (E : Env) (va nv : Nat) (im : Bool) : FunctionGraph → List Client → Res
  | g, [] => .ok g
  | g, (ref, i) :: rest =>
    if slotGet g ref i = some va then
      match change_input E g ref i nv im with
      | .error e => .error e
      | .ok g => replaceLoop E va nv im g rest
    else .error (.assertionError, g)

/-- `replace(var, new_var, reason, verbose, import_missing)`: coerces
`new_var` through `var.type.filter_variable`, warns and returns when `var`
is not in the graph, and otherwise rewires every client of `var`
(`compute_test_value` is modelled as `"off"`, its default). -/
def replace (E : Env) (g : FunctionGraph) (va newv : Nat) (im : Bool) : Res :=
  match E.filterVar (E.vtype va) newv with
  | none => .error (.typeError, g)
  | some nv =>
    if va ∉ g.vars then .ok { g with warnings := g.warnings + 1 }
    else
      match alookup g.clients va with
      | none => .error (.keyError, g)
      | some snapshot => replaceLoop E va nv im g snapshot

def attachAll (E : Env) : FunctionGraph → List Nat → Res
  | g, [] => .ok g
  | g, f :: rest =>
    match attach_feature E g f with
    | .error e => .error e
    | .ok g => attachAll E g rest

/-- The constructor's input loop: `ValueError` for an input with an owner,
otherwise `add_input(in_var, check=False)`. -/
def mkInputs (E : Env) : FunctionGraph → List Nat → Res
  | g, [] => .ok g
  | g, v :: rest =>
    match E.owner v with
    | some _ => .error (.valueError, g)
    | none => mkInputs E (add_input g v false) rest

def importOutputs (E : Env) : FunctionGraph → List Nat → Res
  | g, [] => .ok g
  | g, v :: rest =>
    match importVar E g v false with
    | .error e => .error e
    | .ok g => importOutputs E g rest

/-- The constructor's final loop: `self.clients[output].append(("output", i))`. -/
def outputClients : FunctionGraph → List (Nat × Nat) → Res
  | g, [] => .ok g
  | g, (i, o) :: rest =>
    match add_client g o (NodeRef.output, i) with
    | .error e => .error e
    | .ok g => outputClients g rest

/-- `FunctionGraph.__init__` on explicitly given inputs and outputs with
`clone=False` (cloning first deep-copies through the external
`clone_get_equiv` and then runs this same code on the copies).  `h` is the
initial state of the shared `Apply` objects' input slots; `rv` is the
`ReplaceValidate` feature instance the constructor always attaches after the
user-supplied ones. -/
def initState (h : List (Nat × List Nat)) (outs : List Nat) : FunctionGraph :=
  { nodeIn := h, inputs := [], outputs := outs, vars := [],
    apply_nodes := [], clients := [], features := [], cbTimes := [],
    log := [], warnings := 0 }

def mkFunctionGraph (E : Env) (h : List (Nat × List Nat))
    (inps outs feats : List Nat) (rv : Nat) : Res :=
  match attachAll E (initState h outs) feats with
  | .error e => .error e
  | .ok g =>
    match attach_feature E g rv with
    | .error e => .error e
    | .ok g =>
      match mkInputs E g inps with
      | .error e => .error e
      | .ok g =>
        match importOutputs E g outs with
        | .error e => .error e
        | .ok g => outputClients g (zidx 0 outs)


/-- The state after `import_var` promotes a fresh missing variable to an
input: appended to `inputs`, seeded in `clients`, added to `variables`. -/
def promoteInput (g : FunctionGraph) (v : Nat) : FunctionGraph :=
  { g with inputs := g.inputs ++ [v], clients := g.clients ++ [(v, [])],
           vars := g.vars ++ [v] }

/-! ## Invariants and auxiliary predicates -/

/-- Projection of an `ok` result. -/
def okState : Res → Option FunctionGraph
  | .ok g => some g
  | .error _ => none

/-- Projection of an `error` result. -/
def errState : Res → Option (Err × FunctionGraph)
  | .error e => some e
  | .ok _ => none

/-- The forward condition of one client entry `(c, i)` of variable `v`:
`c = "output" ∧ outputs[i] is v`, or `c.inputs[i] is v`. -/
def ForwardEdge (g : FunctionGraph) (v : Nat) (c : Client) : Prop :=
  match c with
  | (NodeRef.output, i) => lget g.outputs i = some v
  | (NodeRef.node n, i) => lget (nodeInputs g n) i = some v

instance (g : FunctionGraph) (v : Nat) (c : Client) : Decidable (ForwardEdge g v c) :=
  match c with
  | (NodeRef.output, i) => inferInstanceAs (Decidable (lget g.outputs i = some v))
  | (NodeRef.node n, i) => inferInstanceAs (Decidable (lget (nodeInputs g n) i = some v))

/-- The number of entries a clients list holds for the apply node `n`. -/
def nodeClientCount (cs : List Client) (n : Nat) : Nat :=
  lcountP (fun c => c.1 = NodeRef.node n) cs

/-- Claim C1's invariant, exactly as stated: every tracked client entry is a
sound back-edge, and for every node of the graph the client list of `v` has
exactly as many entries for that node as `v` has occurrences among its
inputs. -/
def ClientsSoundMult (g : FunctionGraph) : Prop :=
  ∀ p ∈ g.clients,
    (∀ c ∈ p.2, ForwardEdge g p.1 c) ∧
    ∀ n ∈ g.apply_nodes, nodeClientCount p.2 n = lcount (nodeInputs g n) p.1

instance clientsSoundMultDec (g : FunctionGraph) : Decidable (ClientsSoundMult g) :=
  inferInstanceAs (Decidable (∀ p ∈ g.clients,
    (∀ c ∈ p.2, ForwardEdge g p.1 c) ∧
    ∀ n ∈ g.apply_nodes, nodeClientCount p.2 n = lcount (nodeInputs g n) p.1))

/-- The inductive invariant.  `P` lists slots whose back-edge is pending
insertion (used mid-`change_input` and mid-construction), `S` lists worklist
entries of a running `remove_client` whose removal compensates a missing
forward edge or a pruned node. -/
structure LoopInv (g : FunctionGraph) (P : List Client) (S : List (Nat × Client)) : Prop where
  sound : ∀ p ∈ g.clients, ∀ c ∈ p.2, ForwardEdge g p.1 c ∨ (p.1, c) ∈ S
  complete : ∀ n ∈ g.apply_nodes, ∀ i v, lget (nodeInputs g n) i = some v →
    (NodeRef.node n, i) ∈ P ∨
      ∃ cs, alookup g.clients v = some cs ∧ (NodeRef.node n, i) ∈ cs
  outComplete : ∀ i v, lget g.outputs i = some v →
    (NodeRef.output, i) ∈ P ∨
      ∃ cs, alookup g.clients v = some cs ∧ (NodeRef.output, i) ∈ cs
  csNodup : ∀ p ∈ g.clients, p.2.Nodup
  keysNodup : (akeys g.clients).Nodup
  nodesNodup : g.apply_nodes.Nodup
  varsNodup : g.vars.Nodup
  varsTracked : ∀ v ∈ g.vars, v ∈ akeys g.clients
  stale : ∀ p ∈ g.clients, ∀ c ∈ p.2, ∀ m j, c = (NodeRef.node m, j) →
    m ∈ g.apply_nodes ∨ (p.1, c) ∈ S
  fresh : ∀ c ∈ P, ∀ p ∈ g.clients, c ∈ p.2 → ¬ ForwardEdge g p.1 c

/-- Entries of a worklist all compensate a missing forward edge. -/
def StackStale (g : FunctionGraph) (S : List (Nat × Client)) : Prop :=
  ∀ s ∈ S, ¬ ForwardEdge g s.1 s.2

/-- Worklist entries either compensate a missing forward edge or belong to an
already-pruned node. -/
def StackOk (g : FunctionGraph) (S : List (Nat × Client)) : Prop :=
  ∀ s ∈ S,
    (∀ m j, s.2 = (NodeRef.node m, j) → m ∉ g.apply_nodes ∨ ¬ ForwardEdge g s.1 s.2) ∧
    (∀ j, s.2 = (NodeRef.output, j) → ¬ ForwardEdge g s.1 s.2)

/-- Quiescent well-formedness: the inductive invariant with no pending slots
and no running worklist. -/
def WF (g : FunctionGraph) : Prop := LoopInv g [] []

/-- One public mutating operation, with arbitrary arguments, succeeding. -/
inductive Step (E : Env) : FunctionGraph → FunctionGraph → Prop where
  | impVar : ∀ g g' v im, importVar E g v im = .ok g' → Step E g g'
  | impNode : ∀ g g' n check im, importNode E g n check im = .ok g' → Step E g g'
  | chgInput : ∀ g g' ref i w im, change_input E g ref i w im = .ok g' → Step E g g'
  | repl : ∀ g g' va w im, replace E g va w im = .ok g' → Step E g g'
  | remCli : ∀ g g' v e, remove_client E g v e = .ok g' → Step E g g'

/-- One public mutating operation, succeeding, where `change_input` is applied
to a slot of the graph (`"output"` or a node in `apply_nodes` — the only way
`change_input` is reached from `replace`), and the internal `remove_client`
is not called directly. -/
inductive SafeStep (E : Env) : FunctionGraph → FunctionGraph → Prop where
  | impVar : ∀ g g' v im, importVar E g v im = .ok g' → SafeStep E g g'
  | impNode : ∀ g g' n check im, importNode E g n check im = .ok g' → SafeStep E g g'
  | chgInput : ∀ g g' ref i w im, (∀ n, ref = NodeRef.node n → n ∈ g.apply_nodes) →
      change_input E g ref i w im = .ok g' → SafeStep E g g'
  | repl : ∀ g g' va w im, replace E g va w im = .ok g' → SafeStep E g g'

/-- States reachable from a successful construction through arbitrary
successful public operations (including direct `remove_client`). -/
inductive Reachable (E : Env) : FunctionGraph → Prop where
  | init : ∀ h inps outs feats rv g, mkFunctionGraph E h inps outs feats rv = .ok g →
      Reachable E g
  | step : ∀ g g', Reachable E g → Step E g g' → Reachable E g'

/-- States reachable from a successful construction through successful
`import_var`, `import_node`, in-graph `change_input` and `replace` calls. -/
inductive SafeReachable (E : Env) : FunctionGraph → Prop where
  | init : ∀ h inps outs feats rv g, mkFunctionGraph E h inps outs feats rv = .ok g →
      SafeReachable E g
  | step : ∀ g g', SafeReachable E g → SafeStep E g g' → SafeReachable E g'

/-- States reachable from a given state through successful public operations. -/
inductive ReachableFrom (E : Env) (g0 : FunctionGraph) : FunctionGraph → Prop where
  | refl : ReachableFrom E g0 g0
  | step : ∀ g g', ReachableFrom E g0 g → Step E g g' → ReachableFrom E g0 g'

/-- Input purity: every graph input is ownerless and non-constant, and the
input list has no duplicates. -/
def InputsPure (E : Env) (g : FunctionGraph) : Prop :=
  (∀ v ∈ g.inputs, E.owner v = none ∧ ¬ E.isConst v) ∧ g.inputs.Nodup

/-- The part of input purity the code enforces unconditionally. -/
def InputsOwnerless (E : Env) (g : FunctionGraph) : Prop :=
  ∀ v ∈ g.inputs, E.owner v = none

/-- Growth contract for the `inputs` list across one operation: only fresh
ownerless non-constants can be appended, and freedom from duplicates is
preserved. -/
def InputsGrowth (E : Env) (g g' : FunctionGraph) : Prop :=
  ∃ add : List Nat, g'.inputs = g.inputs ++ add ∧
    (∀ v ∈ add, E.owner v = none ∧ ¬ E.isConst v) ∧
    (g.inputs.Nodup → g'.inputs.Nodup)

/-- Growth contract of the import family: the shared slots and the output
list are untouched, the node set, the variable set and every tracked clients
list only grow. -/
def GrowOk (g g' : FunctionGraph) : Prop :=
  g'.nodeIn = g.nodeIn ∧ g'.outputs = g.outputs ∧
  (∀ m ∈ g.apply_nodes, m ∈ g'.apply_nodes) ∧
  (∀ v ∈ g.vars, v ∈ g'.vars) ∧
  (∀ v cs, alookup g.clients v = some cs →
    ∃ cs', alookup g'.clients v = some cs' ∧ ∀ c ∈ cs, c ∈ cs')

/-- Every pending node back-edge names a node of the graph. -/
def PendOk (g : FunctionGraph) (P : List Client) : Prop :=
  ∀ m j, (NodeRef.node m, j) ∈ P → m ∈ g.apply_nodes

/-- Every worklist node back-edge names a node of the graph. -/
def StackNodes (g : FunctionGraph) (S : List (Nat × Client)) : Prop :=
  ∀ w m j, (w, (NodeRef.node m, j)) ∈ S → m ∈ g.apply_nodes

/-! ## Concrete instances used by witnesses and counterexamples -/

/-- An environment with no nodes: every variable is ownerless, non-constant,
of type `0`, and `filter_variable` coerces `1` and `2` to themselves. -/
def envA : Env :=
  { vtypeL := [], ownerL := [], constL := [], nullL := [],
    nodeOutL := [], filterL := [((0, 1), 1), ((0, 2), 2)],
    featAttachL := [(3, AttachOutcome.alreadyThere), (4, AttachOutcome.raises 17),
                    (5, AttachOutcome.ok)],
    featDetachL := [5], badOpL := [], topoFuel := 3 }

/-- An environment where variable `5` is a `Constant`. -/
def envConst : Env :=
  { vtypeL := [], ownerL := [], constL := [5], nullL := [],
    nodeOutL := [], filterL := [], featAttachL := [], featDetachL := [],
    badOpL := [], topoFuel := 3 }

/-- The spec's scenario S1: inputs `x = 0`, `y = 1`, nodes `10 = Add(x, y)`
with output `2` and `11 = Mul(2, x)` with output `3`. -/
def envS1 : Env :=
  { vtypeL := [], ownerL := [(2, 10), (3, 11)], constL := [], nullL := [],
    nodeOutL := [(10, [2]), (11, [3])],
    filterL := [((0, 1), 1), ((0, 2), 2)],
    featAttachL := [], featDetachL := [], badOpL := [], topoFuel := 5 }

def heapS1 : List (Nat × List Nat) := [(10, [0, 1]), (11, [2, 0])]

/-- A small graph used by the missing-edge counterexample: one input `0`
(also tracked with a live client entry) and one output `1`. -/
def gMiss : FunctionGraph :=
  { nodeIn := [], inputs := [0, 1], outputs := [1], vars := [0, 1],
    apply_nodes := [], clients := [(0, [(NodeRef.node 7, 0)]), (1, [(NodeRef.output, 0)])],
    features := [], cbTimes := [], log := [], warnings := 0 }

/-- A graph with a type mismatch waiting to happen: output `1` has type `0`,
variable `2` has type `9`. -/
def envTy : Env :=
  { vtypeL := [(2, 9)], ownerL := [], constL := [], nullL := [],
    nodeOutL := [], filterL := [], featAttachL := [], featDetachL := [],
    badOpL := [], topoFuel := 3 }

/-- The graph the constructor builds for `inputs = [5]`, `outputs = [5]`
over `envConst` (where `5` is a Constant). -/
def gConst : FunctionGraph :=
  { nodeIn := [], inputs := [5], outputs := [5], vars := [5],
    apply_nodes := [], clients := [(5, [(NodeRef.output, 0)])],
    features := [9], cbTimes := [9], log := [], warnings := 0 }

/-- The graph the constructor builds for `inputs = [1]`, `outputs = [1]`
over `envA`. -/
def gC4 : FunctionGraph :=
  { nodeIn := [], inputs := [1], outputs := [1], vars := [1],
    apply_nodes := [], clients := [(1, [(NodeRef.output, 0)])],
    features := [9], cbTimes := [9], log := [], warnings := 0 }

def gTy : FunctionGraph :=
  { nodeIn := [], inputs := [1], outputs := [1], vars := [1],
    apply_nodes := [], clients := [(1, [(NodeRef.output, 0)])],
    features := [], cbTimes := [], log := [], warnings := 0 }

/-- The graph scenario S1 produces (checked against the construction in the
witness of C1): `Add = 10`, `Mul = 11`, `ReplaceValidate` instance `9`. -/
def gS1 : FunctionGraph :=
  { nodeIn := [(10, [0, 1]), (11, [2, 0])], inputs := [0, 1], outputs := [3],
    vars := [0, 1, 2, 3], apply_nodes := [10, 11],
    clients := [(0, [(NodeRef.node 10, 0), (NodeRef.node 11, 1)]),
                (1, [(NodeRef.node 10, 1)]),
                (2, [(NodeRef.node 11, 0)]),
                (3, [(NodeRef.output, 0)])],
    features := [9], cbTimes := [9],
    log := [Event.onImport 10, Event.onImport 11], warnings := 0 }

/-- A one-input graph that does not contain variable `2`. -/
def gW8 : FunctionGraph :=
  { nodeIn := [], inputs := [1], outputs := [1], vars := [1],
    apply_nodes := [], clients := [(1, [(NodeRef.output, 0)])],
    features := [], cbTimes := [], log := [], warnings := 0 }

/-- `gS1` after a bare `remove_client(x, (Add, 0))`: the live back-edge is
gone while `Add` still holds `x` in its input slot `0`. -/
def gS1bad : FunctionGraph :=
  { nodeIn := [(10, [0, 1]), (11, [2, 0])], inputs := [0, 1], outputs := [3],
    vars := [0, 1, 2, 3], apply_nodes := [10, 11],
    clients := [(0, [(NodeRef.node 11, 1)]),
                (1, [(NodeRef.node 10, 1)]),
                (2, [(NodeRef.node 11, 0)]),
                (3, [(NodeRef.output, 0)])],
    features := [9], cbTimes := [9],
    log := [Event.onImport 10, Event.onImport 11], warnings := 0 }

/-- The graph the constructor builds over `envS1` for `inputs = [0, 1]`,
`outputs = [1]` and no `Apply` nodes: variable `0` is tracked with an empty
clients list. -/
def gC2 : FunctionGraph :=
  { nodeIn := [], inputs := [0, 1], outputs := [1], vars := [0, 1],
    apply_nodes := [], clients := [(0, []), (1, [(NodeRef.output, 0)])],
    features := [9], cbTimes := [9], log := [], warnings := 0 }

/-- `gS1` after `remove_client(a, (Mul, 0))`: the cascade prunes `Add`,
fires `on_prune 10` once, and drops `Add`'s output `2` (and the clientless
ownerless `1`) from `variables`. -/
def gC2r : FunctionGraph :=
  { nodeIn := [(10, [0, 1]), (11, [2, 0])], inputs := [0, 1], outputs := [3],
    vars := [0, 3], apply_nodes := [11],
    clients := [(0, [(NodeRef.node 11, 1)]), (1, []), (2, []),
                (3, [(NodeRef.output, 0)])],
    features := [9], cbTimes := [9],
    log := [Event.onImport 10, Event.onImport 11, Event.onPrune 10], warnings := 0 }

/-- An empty graph with feature `5` attached. -/
def gF : FunctionGraph :=
  { nodeIn := [], inputs := [], outputs := [], vars := [], apply_nodes := [],
    clients := [], features := [5], cbTimes := [5], log := [], warnings := 0 }

/-! ## Foundation lemmas -/

theorem alookup_append_of_some {κ α : Type} [DecidableEq κ] {l : List (κ × α)}
    (m : List (κ × α)) {k : κ} {a : α} (h : alookup l k = some a) :
    alookup (l ++ m) k = some a := by
  induction l with
  | nil => simp [alookup] at h
  | cons p l ih =>
    obtain ⟨q, b⟩ := p
    rw [List.cons_append]
    rw [alookup] at h ⊢
    by_cases hk : k = q
    · simpa [hk] using h
    · simp only [hk, if_false] at h ⊢
      exact ih h

theorem alookup_append_of_none {κ α : Type} [DecidableEq κ] {l : List (κ × α)}
    (m : List (κ × α)) {k : κ} (h : alookup l k = none) :
    alookup (l ++ m) k = alookup m k := by
  induction l with
  | nil => simp [alookup]
  | cons p l ih =>
    obtain ⟨q, b⟩ := p
    rw [List.cons_append]
    rw [alookup] at h ⊢
    by_cases hk : k = q
    · simp [hk] at h
    · simp only [hk, if_false] at h ⊢
      exact ih h

theorem alookup_aset_self {κ α : Type} [DecidableEq κ] (l : List (κ × α)) (k : κ) (a : α) :
    alookup (aset l k a) k = some a := by
  induction l with
  | nil => simp [aset, alookup]
  | cons p l ih =>
    obtain ⟨q, b⟩ := p
    rw [aset]
    by_cases hk : k = q
    · simp [hk, alookup]
    · simp only [hk, if_false]
      rw [alookup, if_neg hk]
      exact ih

theorem alookup_aset_ne {κ α : Type} [DecidableEq κ] (l : List (κ × α)) (k k' : κ) (a : α)
    (h : k' ≠ k) : alookup (aset l k a) k' = alookup l k' := by
  induction l with
  | nil => simp [aset, alookup, h]
  | cons p l ih =>
    obtain ⟨q, b⟩ := p
    rw [aset]
    by_cases hk : k = q
    · subst hk
      rw [if_pos rfl]
      rw [alookup, alookup, if_neg h, if_neg h]
    · rw [if_neg hk]
      rw [alookup, alookup]
      by_cases hk' : k' = q
      · simp [hk']
      · simp only [hk', if_false]
        exact ih

theorem aset_self {κ α : Type} [DecidableEq κ] {l : List (κ × α)} {k : κ} {a : α}
    (h : alookup l k = some a) : aset l k a = l := by
  induction l with
  | nil => simp [alookup] at h
  | cons p l ih =>
    obtain ⟨q, b⟩ := p
    rw [alookup] at h
    rw [aset]
    by_cases hk : k = q
    · rw [if_pos hk]
      rw [if_pos hk] at h
      injection h with h
      subst hk
      rw [h]
    · rw [if_neg hk]
      rw [if_neg hk] at h
      rw [ih h]

theorem alookup_none_iff {κ α : Type} [DecidableEq κ] (l : List (κ × α)) (k : κ) :
    alookup l k = none ↔ k ∉ akeys l := by
  induction l with
  | nil => simp [alookup, akeys]
  | cons p l ih =>
    obtain ⟨q, b⟩ := p
    rw [alookup, akeys, List.map_cons, List.mem_cons]
    by_cases hk : k = q
    · simp [hk]
    · simp [hk, ih, akeys]

theorem alookup_isSome_iff {κ α : Type} [DecidableEq κ] (l : List (κ × α)) (k : κ) :
    (alookup l k).isSome = true ↔ k ∈ akeys l := by
  rcases h : alookup l k with _ | a
  · simp [(alookup_none_iff l k).mp h]
  · simp only [Option.isSome_some, true_iff]
    by_contra hmem
    rw [← alookup_none_iff l k] at hmem
    rw [h] at hmem
    cases hmem

theorem alookup_mem {κ α : Type} [DecidableEq κ] {l : List (κ × α)} {k : κ} {a : α}
    (h : alookup l k = some a) : (k, a) ∈ l := by
  induction l with
  | nil => simp [alookup] at h
  | cons p l ih =>
    obtain ⟨q, b⟩ := p
    rw [alookup] at h
    by_cases hk : k = q
    · simp only [hk, if_true] at h
      injection h with h
      subst hk
      subst h
      exact List.mem_cons_self _ _
    · simp only [hk, if_false] at h
      exact List.mem_cons_of_mem _ (ih h)

theorem mem_alookup {κ α : Type} [DecidableEq κ] {l : List (κ × α)} {k : κ} {a : α}
    (hnd : (akeys l).Nodup) (h : (k, a) ∈ l) : alookup l k = some a := by
  induction l with
  | nil => cases h
  | cons p l ih =>
    obtain ⟨q, b⟩ := p
    rw [akeys, List.map_cons, List.nodup_cons] at hnd
    rcases List.mem_cons.mp h with hm | hm
    · injection hm with h1 h2
      subst h1; subst h2
      simp [alookup]
    · rw [alookup]
      by_cases hk : k = q
      · exfalso
        subst hk
        exact hnd.1 (show ((k, a).1 ∈ List.map Prod.fst l) from
          List.mem_map_of_mem Prod.fst hm)
      · simp only [hk, if_false]
        exact ih hnd.2 hm

theorem akeys_aset_of_mem {κ α : Type} [DecidableEq κ] {l : List (κ × α)} {k : κ} (a : α)
    (h : k ∈ akeys l) : akeys (aset l k a) = akeys l := by
  induction l with
  | nil => simp [akeys] at h
  | cons p l ih =>
    obtain ⟨q, b⟩ := p
    rw [aset]
    by_cases hk : k = q
    · simp [akeys, hk]
    · rw [if_neg hk]
      rw [akeys, List.map_cons] at h
      simp only [List.mem_cons] at h
      rcases h with h | h
      · exact absurd h hk
      · rw [akeys, List.map_cons, akeys, List.map_cons]
        rw [show List.map Prod.fst (aset l k a) = akeys (aset l k a) from rfl, ih h]
        rfl

theorem akeys_aset_of_none {κ α : Type} [DecidableEq κ] {l : List (κ × α)} {k : κ} (a : α)
    (h : alookup l k = none) : akeys (aset l k a) = akeys l ++ [k] := by
  induction l with
  | nil => simp [aset, akeys]
  | cons p l ih =>
    obtain ⟨q, b⟩ := p
    rw [alookup] at h
    rw [aset]
    by_cases hk : k = q
    · simp [hk] at h
    · simp only [hk, if_false] at h ⊢
      rw [akeys, List.map_cons, akeys, List.map_cons]
      rw [show List.map Prod.fst (aset l k a) = akeys (aset l k a) from rfl, ih h]
      rfl

theorem akeys_append {κ α : Type} (l m : List (κ × α)) :
    akeys (l ++ m) = akeys l ++ akeys m := by
  simp [akeys]

theorem lerase_of_not_mem {α : Type} [DecidableEq α] {l : List α} {a : α}
    (h : a ∉ l) : lerase l a = l := by
  induction l with
  | nil => rfl
  | cons b l ih =>
    rw [lerase]
    rw [List.mem_cons] at h
    push_neg at h
    rw [if_neg (fun hba => h.1 hba.symm), ih h.2]

theorem mem_of_mem_lerase {α : Type} [DecidableEq α] {l : List α} {a b : α}
    (h : b ∈ lerase l a) : b ∈ l := by
  induction l with
  | nil => cases h
  | cons c l ih =>
    rw [lerase] at h
    by_cases hc : c = a
    · simp only [hc, if_true] at h
      exact List.mem_cons_of_mem _ h
    · simp only [hc, if_false] at h
      rcases List.mem_cons.mp h with h | h
      · exact h ▸ List.mem_cons_self _ _
      · exact List.mem_cons_of_mem _ (ih h)

theorem lerase_nodup {α : Type} [DecidableEq α] {l : List α} (a : α)
    (h : l.Nodup) : (lerase l a).Nodup := by
  induction l with
  | nil => exact h
  | cons c l ih =>
    rw [List.nodup_cons] at h
    rw [lerase]
    by_cases hc : c = a
    · simp only [hc, if_true]
      exact h.2
    · simp only [hc, if_false]
      rw [List.nodup_cons]
      exact ⟨fun hmem => h.1 (mem_of_mem_lerase hmem), ih h.2⟩

theorem not_mem_lerase_self {α : Type} [DecidableEq α] {l : List α} {a : α}
    (h : l.Nodup) : a ∉ lerase l a := by
  induction l with
  | nil => simp [lerase]
  | cons c l ih =>
    rw [List.nodup_cons] at h
    rw [lerase]
    by_cases hc : c = a
    · simp only [hc, if_true]
      exact fun hmem => h.1 (hc ▸ hmem)
    · simp only [hc, if_false]
      intro hmem
      rcases List.mem_cons.mp hmem with hh | hh
      · exact hc hh.symm
      · exact ih h.2 hh

theorem mem_lerase_of_ne {α : Type} [DecidableEq α] {l : List α} {a b : α}
    (hne : b ≠ a) (h : b ∈ l) : b ∈ lerase l a := by
  induction l with
  | nil => cases h
  | cons c l ih =>
    rw [lerase]
    by_cases hc : c = a
    · simp only [hc, if_true]
      rcases List.mem_cons.mp h with hh | hh
      · exact absurd (hh.trans hc) hne
      · exact hh
    · simp only [hc, if_false]
      rcases List.mem_cons.mp h with hh | hh
      · exact hh ▸ List.mem_cons_self _ _
      · exact List.mem_cons_of_mem _ (ih hh)

theorem length_lerase_of_mem {α : Type} [DecidableEq α] {l : List α} {a : α}
    (h : a ∈ l) : (lerase l a).length + 1 = l.length := by
  induction l with
  | nil => cases h
  | cons c l ih =>
    rw [lerase]
    by_cases hc : c = a
    · simp [hc]
    · simp only [hc, if_false]
      rcases List.mem_cons.mp h with hh | hh
      · exact absurd hh.symm hc
      · simp only [List.length_cons]
        rw [← ih hh]

theorem zidx_mem {α : Type} (l : List α) (j i : Nat) (a : α) :
    (i, a) ∈ zidx j l ↔ j ≤ i ∧ lget l (i - j) = some a := by
  induction l generalizing j with
  | nil => simp [zidx, lget]
  | cons b l ih =>
    rw [zidx, List.mem_cons, ih]
    constructor
    · rintro (h | ⟨hj, hg⟩)
      · injection h with h1 h2
        subst h1; subst h2
        simp [lget]
      · refine ⟨by omega, ?_⟩
        rw [show i - j = (i - (j + 1)) + 1 by omega]
        simpa [lget] using hg
    · rintro ⟨hj, hg⟩
      by_cases hij : i = j
      · subst hij
        simp only [Nat.sub_self, lget] at hg
        injection hg with hg
        subst hg
        exact Or.inl rfl
      · right
        refine ⟨by omega, ?_⟩
        rw [show i - j = (i - (j + 1)) + 1 by omega] at hg
        simpa [lget] using hg

theorem lget_some_lt {α : Type} {l : List α} {i : Nat} {a : α}
    (h : lget l i = some a) : i < l.length := by
  induction l generalizing i with
  | nil => simp [lget] at h
  | cons b l ih =>
    cases i with
    | zero => simp
    | succ i =>
      simp only [lget] at h
      simpa using Nat.succ_lt_succ (ih h)

theorem lget_set_self {α : Type} {l : List α} {i : Nat} {a b : α}
    (h : lget l i = some b) : lget (l.set i a) i = some a := by
  induction l generalizing i with
  | nil => simp [lget] at h
  | cons c l ih =>
    cases i with
    | zero => rfl
    | succ i =>
      simp only [lget] at h
      exact ih h

theorem lget_set_ne {α : Type} (l : List α) (i j : Nat) (a : α)
    (h : j ≠ i) : lget (l.set i a) j = lget l j := by
  induction l generalizing i j with
  | nil => rfl
  | cons c l ih =>
    cases i with
    | zero =>
      cases j with
      | zero => exact absurd rfl h
      | succ j => rfl
    | succ i =>
      cases j with
      | zero => rfl
      | succ j =>
        exact ih i j (fun hji => h (by rw [hji]))

theorem lset_self {α : Type} {l : List α} {i : Nat} {a : α}
    (h : lget l i = some a) : l.set i a = l := by
  induction l generalizing i with
  | nil => rfl
  | cons c l ih =>
    cases i with
    | zero =>
      simp only [lget] at h
      injection h with h
      rw [List.set, h]
    | succ i =>
      simp only [lget] at h
      rw [List.set, ih h]


/-! ## Shape lemmas for the operations -/

theorem removeClientLoop_nil (E : Env) (fuel : Nat) (g : FunctionGraph) :
    removeClientLoop E fuel g [] = .ok g := by
  cases fuel <;> rfl

theorem slotSet_self {g : FunctionGraph} {ref : NodeRef} {i w : Nat}
    (h : slotGet g ref i = some w) : slotSet g ref i w = g := by
  cases ref with
  | output =>
    rw [slotGet] at h
    rw [slotSet, lset_self h]
  | node n =>
    rw [slotGet] at h
    rw [slotSet]
    rcases hl : alookup g.nodeIn n with _ | l
    · rw [nodeInputs, hl, Option.getD_none] at h
      simp [lget] at h
    · have hni : nodeInputs g n = l := by rw [nodeInputs, hl, Option.getD_some]
      rw [hni] at h
      rw [hni, lset_self h, aset_self hl]

theorem change_input_same {E : Env} {g : FunctionGraph} {ref : NodeRef} {i w : Nat}
    {im : Bool} (h : slotGet g ref i = some w) :
    change_input E g ref i w im = .ok g := by
  simp only [change_input]
  rw [h]
  simp [slotSet_self h]

theorem replaceLoop_self (E : Env) (v : Nat) (im : Bool) :
    ∀ (cs : List Client) (g : FunctionGraph),
      (∀ c ∈ cs, slotGet g c.1 c.2 = some v) → replaceLoop E v v im g cs = .ok g
  | [], _, _ => rfl
  | (ref, i) :: rest, g, hs => by
    have h1 : slotGet g ref i = some v := hs (ref, i) (List.mem_cons_self _ _)
    rw [replaceLoop, if_pos h1, change_input_same h1]
    exact replaceLoop_self E v im rest g (fun c hc => hs c (List.mem_cons_of_mem _ hc))

/-! ## Claims -/

/-- C3: for every node-or-"output" slot `(n, i)` holding `r` and every
`new_var` whose type differs from `r`'s, `change_input` raises a `TypeError`
and the carried state is the unmodified graph `g` — no field (slots, inputs,
outputs, variables, apply_nodes, clients) changes and no feature callback
fires (the log of `g` is untouched). -/
theorem C3_change_input_type_mismatch (E : Env) (g : FunctionGraph) (ref : NodeRef)
    (i newv r : Nat) (im : Bool) (hslot : slotGet g ref i = some r)
    (hty : E.vtype r ≠ E.vtype newv) :
    change_input E g ref i newv im = .error (.typeError, g) := by
  simp only [change_input]
  rw [hslot]
  simp only [if_pos hty]

theorem C3_witness :
    slotGet gTy NodeRef.output 0 = some 1 ∧ envTy.vtype 1 ≠ envTy.vtype 2 ∧
    change_input envTy gTy NodeRef.output 0 2 false = .error (.typeError, gTy) :=
  ⟨rfl, by decide, C3_change_input_type_mismatch envTy gTy NodeRef.output 0 2 1 false rfl (by decide)⟩

/-- C8: when `var` is not in the graph (after the `filter_variable` coercion
of `new_var` succeeds), `replace` warns and returns: no exception, no state
change apart from the warning counter, no callback. -/
theorem C8_replace_silent_noop (E : Env) (g : FunctionGraph) (va newv nv : Nat) (im : Bool)
    (hf : E.filterVar (E.vtype va) newv = some nv) (hnv : va ∉ g.vars) :
    replace E g va newv im = .ok { g with warnings := g.warnings + 1 } := by
  simp only [replace]
  rw [hf]
  simp only [if_pos hnv]

theorem C8_witness :
    (2 ∉ gW8.vars) ∧ envA.filterVar (envA.vtype 2) 1 = some 1 ∧
    replace envA gW8 2 1 false = .ok { gW8 with warnings := 1 } :=
  ⟨by decide, by decide, C8_replace_silent_noop envA gW8 2 1 1 false (by decide) (by decide)⟩

/-- C9: attaching an already-attached feature instance is a no-op that does
not call `on_attach` again; an `on_attach` raising `AlreadyThere` is
swallowed and the feature is not added; removing an absent feature is a
no-op without `on_detach`; removing a present one erases it and fires
`on_detach` exactly when the feature defines it. -/
theorem C9_feature_attach_remove (E : Env) (g : FunctionGraph) (f : Nat) :
    (f ∈ g.features → attach_feature E g f = .ok g) ∧
    (f ∉ g.features → E.featAttach f = .alreadyThere →
      attach_feature E g f = .ok (execCB g (.onAttach f)) ∧
      (execCB g (.onAttach f)).features = g.features) ∧
    (f ∉ g.features → remove_feature E g f = g) ∧
    (f ∈ g.features → E.hasDetach f →
      remove_feature E g f = execCB { g with features := lerase g.features f } (.onDetach f)) ∧
    (f ∈ g.features → ¬ E.hasDetach f →
      remove_feature E g f = { g with features := lerase g.features f }) := by
  refine ⟨fun h => ?_, fun h ha => ⟨?_, rfl⟩, fun h => ?_, fun h hd => ?_, fun h hd => ?_⟩
  · simp [attach_feature, h]
  · simp [attach_feature, h, ha]
  · simp [remove_feature, h]
  · simp [remove_feature, h, hd]
  · simp [remove_feature, h, hd]

theorem C9_witness :
    (5 ∈ gF.features) ∧ attach_feature envA gF 5 = .ok gF ∧
    (3 ∉ gF.features) ∧ attach_feature envA gF 3 = .ok (execCB gF (.onAttach 3)) ∧
    remove_feature envA gF 5 = execCB { gF with features := [] } (.onDetach 5) ∧
    remove_feature envA gF 3 = gF :=
  ⟨by decide,
   (C9_feature_attach_remove envA gF 5).1 (by decide),
   by decide,
   ((C9_feature_attach_remove envA gF 3).2.1 (by decide) (by decide)).1,
   (C9_feature_attach_remove envA gF 5).2.2.2.1 (by decide) (by decide),
   (C9_feature_attach_remove envA gF 3).2.2.1 (by decide)⟩

/-- C10: when a fresh feature's `on_attach` raises anything other than
`AlreadyThere`, `attach_feature` propagates the exception; in the carried
state the feature list and the `execute_callbacks_times` key set are the
ones of `g` — the feature was neither appended nor given a times entry. -/
theorem C10_attach_feature_atomic (E : Env) (g : FunctionGraph) (f c : Nat)
    (hnot : f ∉ g.features) (hr : E.featAttach f = .raises c) :
    attach_feature E g f = .error (.featureExc c, execCB g (.onAttach f)) ∧
    (execCB g (.onAttach f)).features = g.features ∧
    (execCB g (.onAttach f)).cbTimes = g.cbTimes := by
  refine ⟨?_, rfl, rfl⟩
  simp [attach_feature, hnot, hr]

theorem C10_witness :
    (4 ∉ gF.features) ∧ envA.featAttach 4 = .raises 17 ∧
    attach_feature envA gF 4 = .error (.featureExc 17, execCB gF (.onAttach 4)) :=
  ⟨by decide, by decide, (C10_attach_feature_atomic envA gF 4 17 (by decide) (by decide)).1⟩

/-- C5 counterexample: the edge `(node 9, 5)` is absent from `clients[0]`,
yet `remove_client` does not simply continue — because `var_clients` is set
to `None` and `if var_clients:` is falsy, control falls through to the prune
logic and the ownerless variable `0` is removed from `variables` even though
it still has a client. -/
theorem C5_counterexample :
    (NodeRef.node 9, 5) ∉ [(NodeRef.node 7, 0)] ∧
    alookup gMiss.clients 0 = some [(NodeRef.node 7, 0)] ∧
    0 ∈ gMiss.vars ∧
    okState (remove_client envA gMiss 0 (NodeRef.node 9, 5)) =
      some { gMiss with vars := [1] } := by decide

/-- C5 amended: a missing edge is swallowed silently (no exception from the
failed removal) but control proceeds as though the clients list were just
emptied: when `v` has an owner one of whose outputs still has a client, the
worklist entry is indeed dropped with no removal and no `on_prune`; when `v`
has no owner, however, `v` is removed from `variables` even if clients
remain. -/
theorem C5_remove_client_missing_edge (E : Env) (g : FunctionGraph) (v : Nat) (e : Client)
    (cs : List Client) (hcs : alookup g.clients v = some cs) (habs : e ∉ cs) :
    (E.owner v = none → v ∈ g.vars →
      remove_client E g v e = .ok { g with vars := lerase g.vars v }) ∧
    (∀ p, E.owner v = some p → anyClientful g (E.nodeOut p) = .ok true →
      remove_client E g v e = .ok g) := by
  have hfuel : 2 + pruneWeight g = (1 + pruneWeight g) + 1 := by omega
  have her : eraseClient g v e cs = g := by rw [eraseClient, if_neg habs]
  constructor
  · intro hro hv
    rw [remove_client, hfuel, removeClientLoop]
    rw [hcs]
    simp only [if_neg (fun hh : e ∈ cs ∧ lerase cs e ≠ [] => habs hh.1), hro, her,
      if_pos hv]
    exact removeClientLoop_nil E _ _
  · intro p hp hany
    rw [remove_client, hfuel, removeClientLoop]
    rw [hcs]
    simp only [if_neg (fun hh : e ∈ cs ∧ lerase cs e ≠ [] => habs hh.1), hp, her, hany]
    exact removeClientLoop_nil E _ _

theorem C5_witness :
    remove_client envA gMiss 0 (NodeRef.node 9, 5) =
      .ok { gMiss with vars := lerase gMiss.vars 0 } :=
  (C5_remove_client_missing_edge envA gMiss 0 (NodeRef.node 9, 5) [(NodeRef.node 7, 0)]
    (by decide) (by decide)).1 (by decide) (by decide)

/-- C6: `replace(v, v)` (with `filter_variable` returning `v` itself) is a
complete no-op — the result is the very same state, so no membership set
changes and no `on_change_input`, `on_import` or `on_prune` fires; likewise
`change_input` on a slot that already holds the new variable returns without
importing, rewiring or broadcasting. -/
theorem C6_replace_idempotent (E : Env) (g : FunctionGraph) (v : Nat) (cs : List Client)
    (hv : v ∈ g.vars) (hf : E.filterVar (E.vtype v) v = some v)
    (hcs : alookup g.clients v = some cs)
    (hsound : ∀ c ∈ cs, slotGet g c.1 c.2 = some v) :
    replace E g v v false = .ok g ∧
    ∀ ref i w im, slotGet g ref i = some w → change_input E g ref i w im = .ok g := by
  constructor
  · have hnn : ¬ (v ∉ g.vars) := not_not_intro hv
    simp only [replace, hf, hnn, if_false, hcs]
    exact replaceLoop_self E v false cs g hsound
  · intro ref i w im h
    exact change_input_same h

theorem C6_witness :
    (2 ∈ gS1.vars) ∧ replace envS1 gS1 2 2 false = .ok gS1 :=
  ⟨by decide,
   (C6_replace_idempotent envS1 gS1 2 [(NodeRef.node 11, 0)] (by decide) (by decide)
     (by decide) (by decide)).1⟩


/-! ## Field-preservation lemmas -/
@[simp] theorem setup_var_nodeIn (g : FunctionGraph) (v : Nat) :
    (setup_var g v).nodeIn = g.nodeIn := by
  rw [setup_var]; split <;> rfl
@[simp] theorem setup_var_inputs (g : FunctionGraph) (v : Nat) :
    (setup_var g v).inputs = g.inputs := by
  rw [setup_var]; split <;> rfl
@[simp] theorem setup_var_outputs (g : FunctionGraph) (v : Nat) :
    (setup_var g v).outputs = g.outputs := by
  rw [setup_var]; split <;> rfl
@[simp] theorem setup_var_vars (g : FunctionGraph) (v : Nat) :
    (setup_var g v).vars = g.vars := by
  rw [setup_var]; split <;> rfl
@[simp] theorem setup_var_apply_nodes (g : FunctionGraph) (v : Nat) :
    (setup_var g v).apply_nodes = g.apply_nodes := by
  rw [setup_var]; split <;> rfl
@[simp] theorem setup_var_features (g : FunctionGraph) (v : Nat) :
    (setup_var g v).features = g.features := by
  rw [setup_var]; split <;> rfl
@[simp] theorem setup_var_cbTimes (g : FunctionGraph) (v : Nat) :
    (setup_var g v).cbTimes = g.cbTimes := by
  rw [setup_var]; split <;> rfl
@[simp] theorem setup_var_log (g : FunctionGraph) (v : Nat) :
    (setup_var g v).log = g.log := by
  rw [setup_var]; split <;> rfl
@[simp] theorem setup_var_warnings (g : FunctionGraph) (v : Nat) :
    (setup_var g v).warnings = g.warnings := by
  rw [setup_var]; split <;> rfl
@[simp] theorem varAdd_nodeIn (g : FunctionGraph) (v : Nat) :
    (varAdd g v).nodeIn = g.nodeIn := by
  rw [varAdd]; split <;> rfl
@[simp] theorem varAdd_inputs (g : FunctionGraph) (v : Nat) :
    (varAdd g v).inputs = g.inputs := by
  rw [varAdd]; split <;> rfl
@[simp] theorem varAdd_outputs (g : FunctionGraph) (v : Nat) :
    (varAdd g v).outputs = g.outputs := by
  rw [varAdd]; split <;> rfl
@[simp] theorem varAdd_apply_nodes (g : FunctionGraph) (v : Nat) :
    (varAdd g v).apply_nodes = g.apply_nodes := by
  rw [varAdd]; split <;> rfl
@[simp] theorem varAdd_clients (g : FunctionGraph) (v : Nat) :
    (varAdd g v).clients = g.clients := by
  rw [varAdd]; split <;> rfl
@[simp] theorem varAdd_features (g : FunctionGraph) (v : Nat) :
    (varAdd g v).features = g.features := by
  rw [varAdd]; split <;> rfl
@[simp] theorem varAdd_cbTimes (g : FunctionGraph) (v : Nat) :
    (varAdd g v).cbTimes = g.cbTimes := by
  rw [varAdd]; split <;> rfl
@[simp] theorem varAdd_log (g : FunctionGraph) (v : Nat) :
    (varAdd g v).log = g.log := by
  rw [varAdd]; split <;> rfl
@[simp] theorem varAdd_warnings (g : FunctionGraph) (v : Nat) :
    (varAdd g v).warnings = g.warnings := by
  rw [varAdd]; split <;> rfl
@[simp] theorem execCB_nodeIn (g : FunctionGraph) (e : Event) :
    (execCB g e).nodeIn = g.nodeIn := by
  rfl
@[simp] theorem execCB_inputs (g : FunctionGraph) (e : Event) :
    (execCB g e).inputs = g.inputs := by
  rfl
@[simp] theorem execCB_outputs (g : FunctionGraph) (e : Event) :
    (execCB g e).outputs = g.outputs := by
  rfl
@[simp] theorem execCB_vars (g : FunctionGraph) (e : Event) :
    (execCB g e).vars = g.vars := by
  rfl
@[simp] theorem execCB_apply_nodes (g : FunctionGraph) (e : Event) :
    (execCB g e).apply_nodes = g.apply_nodes := by
  rfl
@[simp] theorem execCB_clients (g : FunctionGraph) (e : Event) :
    (execCB g e).clients = g.clients := by
  rfl
@[simp] theorem execCB_features (g : FunctionGraph) (e : Event) :
    (execCB g e).features = g.features := by
  rfl
@[simp] theorem execCB_cbTimes (g : FunctionGraph) (e : Event) :
    (execCB g e).cbTimes = g.cbTimes := by
  rfl
@[simp] theorem execCB_warnings (g : FunctionGraph) (e : Event) :
    (execCB g e).warnings = g.warnings := by
  rfl
@[simp] theorem add_input_nodeIn (g : FunctionGraph) (v : Nat) (c : Bool) :
    (add_input g v c).nodeIn = g.nodeIn := by
  rw [add_input]; split <;> simp
@[simp] theorem add_input_outputs (g : FunctionGraph) (v : Nat) (c : Bool) :
    (add_input g v c).outputs = g.outputs := by
  rw [add_input]; split <;> simp
@[simp] theorem add_input_apply_nodes (g : FunctionGraph) (v : Nat) (c : Bool) :
    (add_input g v c).apply_nodes = g.apply_nodes := by
  rw [add_input]; split <;> simp
@[simp] theorem add_input_features (g : FunctionGraph) (v : Nat) (c : Bool) :
    (add_input g v c).features = g.features := by
  rw [add_input]; split <;> simp
@[simp] theorem add_input_cbTimes (g : FunctionGraph) (v : Nat) (c : Bool) :
    (add_input g v c).cbTimes = g.cbTimes := by
  rw [add_input]; split <;> simp
@[simp] theorem add_input_log (g : FunctionGraph) (v : Nat) (c : Bool) :
    (add_input g v c).log = g.log := by
  rw [add_input]; split <;> simp
@[simp] theorem add_input_warnings (g : FunctionGraph) (v : Nat) (c : Bool) :
    (add_input g v c).warnings = g.warnings := by
  rw [add_input]; split <;> simp

@[simp] theorem execCB_log (g : FunctionGraph) (e : Event) :
    (execCB g e).log = g.log ++ [e] := rfl

theorem add_client_ok {g g' : FunctionGraph} {v : Nat} {c : Client}
    (h : add_client g v c = .ok g') :
    ∃ cs, alookup g.clients v = some cs ∧
      g' = { g with clients := aset g.clients v (cs ++ [c]) } := by
  rw [add_client] at h
  rcases hl : alookup g.clients v with _ | cs
  · rw [hl] at h
    cases h
  · rw [hl] at h
    injection h with h
    exact ⟨cs, rfl, h.symm⟩

theorem mem_varAdd_vars (g : FunctionGraph) (v : Nat) : v ∈ (varAdd g v).vars := by
  rw [varAdd]; split
  · assumption
  · simp

theorem mem_varAdd_of_mem (g : FunctionGraph) (v w : Nat) (h : w ∈ g.vars) :
    w ∈ (varAdd g v).vars := by
  rw [varAdd]; split
  · exact h
  · simp [h]

theorem add_input_inputs_false (g : FunctionGraph) (v : Nat) :
    (add_input g v false).inputs = g.inputs ++ [v] := by
  rw [add_input]
  rw [if_neg (by simp)]
  simp

theorem add_input_inputs_true (g : FunctionGraph) (v : Nat) (h : v ∉ g.inputs) :
    (add_input g v true).inputs = g.inputs ++ [v] := by
  rw [add_input]
  rw [if_neg (by simp [h])]
  simp

theorem add_input_inputs_mono (g : FunctionGraph) (v : Nat) (c : Bool) (w : Nat)
    (h : w ∈ g.inputs) : w ∈ (add_input g v c).inputs := by
  rw [add_input]; split
  · exact h
  · simp [h]

theorem mem_add_input_true (g : FunctionGraph) (v : Nat) : v ∈ (add_input g v true).inputs := by
  rw [add_input]; split
  · rename_i hc
    exact hc.2
  · simp

/-! ## Import check pass (claim C7) -/

theorem checkNodeInputs_ok_off (E : Env) :
    ∀ (vs : List Nat) (g : FunctionGraph),
      (∀ w ∈ vs, ¬ (E.owner w = none ∧ ¬ E.isConst w ∧ w ∉ g.inputs)) →
      checkNodeInputs E false g vs = .ok g
  | [], _, _ => rfl
  | v :: rest, g, hno => by
    rw [checkNodeInputs]
    rw [if_neg (hno v (List.mem_cons_self _ _))]
    exact checkNodeInputs_ok_off E rest g (fun w hw => hno w (List.mem_cons_of_mem _ hw))

theorem checkNodeInputs_err (E : Env) :
    ∀ (vs : List Nat) (g : FunctionGraph),
      (∃ w ∈ vs, E.owner w = none ∧ ¬ E.isConst w ∧ w ∉ g.inputs) →
      checkNodeInputs E false g vs = .error (.missingInput, g)
  | [], _, h => by simp at h
  | v :: rest, g, h => by
    rw [checkNodeInputs]
    by_cases hv : E.owner v = none ∧ ¬ E.isConst v ∧ v ∉ g.inputs
    · rw [if_pos hv]
      rfl
    · rw [if_neg hv]
      obtain ⟨w, hw, hoff⟩ := h
      rcases List.mem_cons.mp hw with rfl | hw
      · exact absurd hoff hv
      · exact checkNodeInputs_err E rest g ⟨w, hw, hoff⟩

theorem importCheck_err (E : Env) :
    ∀ (ns : List Nat) (g : FunctionGraph),
      (∃ m ∈ ns, ∃ w ∈ nodeInputs g m, E.owner w = none ∧ ¬ E.isConst w ∧ w ∉ g.inputs) →
      importCheck E false g ns = .error (.missingInput, g)
  | [], _, h => by simp at h
  | n :: rest, g, h => by
    rw [importCheck]
    by_cases hn : ∃ w ∈ nodeInputs g n, E.owner w = none ∧ ¬ E.isConst w ∧ w ∉ g.inputs
    · rw [checkNodeInputs_err E _ g hn]
    · rw [checkNodeInputs_ok_off E _ g (fun w hw hoff => hn ⟨w, hw, hoff⟩)]
      obtain ⟨m, hm, w, hw, hoff⟩ := h
      rcases List.mem_cons.mp hm with rfl | hm
      · exact absurd ⟨w, hw, hoff⟩ hn
      · exact importCheck_err E rest g ⟨m, hm, w, hw, hoff⟩

theorem checkNodeInputs_true_ok (E : Env) :
    ∀ (vs : List Nat) (g g' : FunctionGraph),
      checkNodeInputs E true g vs = .ok g' →
      g'.nodeIn = g.nodeIn ∧ (∀ x ∈ g.inputs, x ∈ g'.inputs) ∧
      (∀ w ∈ vs, E.owner w = none → ¬ E.isConst w → w ∈ g'.inputs)
  | [], g, g', h => by
    injection h with h
    subst h
    exact ⟨rfl, fun x hx => hx, by simp⟩
  | v :: rest, g, g', h => by
    rw [checkNodeInputs] at h
    by_cases hv : E.owner v = none ∧ ¬ E.isConst v ∧ v ∉ g.inputs
    · rw [if_pos hv] at h
      simp only [if_pos rfl] at h
      obtain ⟨h1, h2, h3⟩ := checkNodeInputs_true_ok E rest (add_input g v true) g' h
      refine ⟨by simp [h1], fun x hx => h2 x (add_input_inputs_mono g v true x hx), ?_⟩
      intro w hw hro hnc
      rcases List.mem_cons.mp hw with rfl | hw
      · exact h2 w (mem_add_input_true g w)
      · exact h3 w hw hro hnc
    · rw [if_neg hv] at h
      obtain ⟨h1, h2, h3⟩ := checkNodeInputs_true_ok E rest g g' h
      refine ⟨h1, h2, ?_⟩
      intro w hw hro hnc
      rcases List.mem_cons.mp hw with rfl | hw
      · by_cases hmem : w ∈ g.inputs
        · exact h2 w hmem
        · exact absurd ⟨hro, hnc, hmem⟩ hv
      · exact h3 w hw hro hnc

theorem importCheck_true_ok (E : Env) :
    ∀ (ns : List Nat) (g g' : FunctionGraph),
      importCheck E true g ns = .ok g' →
      g'.nodeIn = g.nodeIn ∧ (∀ x ∈ g.inputs, x ∈ g'.inputs) ∧
      (∀ m ∈ ns, ∀ w ∈ nodeInputs g m, E.owner w = none → ¬ E.isConst w → w ∈ g'.inputs)
  | [], g, g', h => by
    injection h with h
    subst h
    exact ⟨rfl, fun x hx => hx, by simp⟩
  | n :: rest, g, g', h => by
    rw [importCheck] at h
    rcases hc : checkNodeInputs E true g (nodeInputs g n) with e | g1
    · rw [hc] at h
      cases h
    · rw [hc] at h
      obtain ⟨h1, h2, h3⟩ := checkNodeInputs_true_ok E _ g g1 hc
      obtain ⟨h1', h2', h3'⟩ := importCheck_true_ok E rest g1 g' h
      refine ⟨h1'.trans h1, fun x hx => h2' x (h2 x hx), ?_⟩
      intro m hm w hw hro hnc
      rcases List.mem_cons.mp hm with rfl | hm
      · exact h2' w (h3 w hw hro hnc)
      · have hni : nodeInputs g1 m = nodeInputs g m := by rw [nodeInputs, nodeInputs, h1]
        exact h3' m hm w (by rw [hni]; exact hw) hro hnc

theorem foldSetup_frame (os : List Nat) :
    ∀ (g0 : FunctionGraph),
      (os.foldl (fun g o => varAdd (setup_var g o) o) g0).nodeIn = g0.nodeIn ∧
      (os.foldl (fun g o => varAdd (setup_var g o) o) g0).inputs = g0.inputs ∧
      (os.foldl (fun g o => varAdd (setup_var g o) o) g0).outputs = g0.outputs := by
  induction os with
  | nil => exact fun g0 => ⟨rfl, rfl, rfl⟩
  | cons o os ih =>
    intro g0
    obtain ⟨i1, i2, i3⟩ := ih (varAdd (setup_var g0 o) o)
    exact ⟨by simp [List.foldl_cons, i1], by simp [List.foldl_cons, i2],
           by simp [List.foldl_cons, i3]⟩

theorem addClientsLoop_frame :
    ∀ (ivs : List (Nat × Nat)) (g g' : FunctionGraph) (n : Nat),
      addClientsLoop g n ivs = .ok g' →
      g'.nodeIn = g.nodeIn ∧ g'.inputs = g.inputs ∧ g'.outputs = g.outputs
  | [], g, g', n, h => by
    injection h with h
    subst h
    exact ⟨rfl, rfl, rfl⟩
  | (i, v) :: rest, g, g', n, h => by
    rw [addClientsLoop] at h
    rcases hac : add_client (trackVar g v) v (NodeRef.node n, i) with e | g1
    · rw [hac] at h
      cases h
    · rw [hac] at h
      obtain ⟨cs, _, hg1⟩ := add_client_ok hac
      obtain ⟨h1, h2, h3⟩ := addClientsLoop_frame rest g1 g' n h
      subst hg1
      refine ⟨?_, ?_, ?_⟩
      · rw [h1]; simp [trackVar]; split <;> simp
      · rw [h2]; simp [trackVar]; split <;> simp
      · rw [h3]; simp [trackVar]; split <;> simp

theorem importReg_frame (E : Env) (g : FunctionGraph) (n : Nat) :
    (importReg E g n).nodeIn = g.nodeIn ∧ (importReg E g n).inputs = g.inputs ∧
    (importReg E g n).outputs = g.outputs := by
  rw [importReg]
  obtain ⟨h1, h2, h3⟩ := foldSetup_frame (E.nodeOut n)
    { g with apply_nodes := g.apply_nodes ++ [n] }
  exact ⟨h1, h2, h3⟩

theorem importOneNode_frame {E : Env} {g g' : FunctionGraph} {n : Nat}
    (h : importOneNode E g n = .ok g') :
    g'.nodeIn = g.nodeIn ∧ g'.inputs = g.inputs ∧ g'.outputs = g.outputs := by
  rw [importOneNode] at h
  by_cases h1 : n ∈ g.apply_nodes
  · rw [if_pos h1] at h
    cases h
  · rw [if_neg h1] at h
    by_cases h2 : E.badOp n
    · rw [if_pos h2] at h
      cases h
    · rw [if_neg h2] at h
      rcases hal : addClientsLoop (importReg E g n) n
          (zidx 0 (nodeInputs (importReg E g n) n)) with e | g2
      · rw [hal] at h
        cases h
      · rw [hal] at h
        injection h with h
        subst h
        obtain ⟨f1, f2, f3⟩ := addClientsLoop_frame _ _ _ _ hal
        obtain ⟨k1, k2, k3⟩ := importReg_frame E g n
        exact ⟨by simp [execCB]; rw [f1, k1], by simp [execCB]; rw [f2, k2],
               by simp [execCB]; rw [f3, k3]⟩

theorem importNodesLoop_frame (E : Env) :
    ∀ (ns : List Nat) (g g' : FunctionGraph),
      importNodesLoop E g ns = .ok g' →
      g'.nodeIn = g.nodeIn ∧ g'.inputs = g.inputs ∧ g'.outputs = g.outputs
  | [], g, g', h => by
    injection h with h
    subst h
    exact ⟨rfl, rfl, rfl⟩
  | n :: rest, g, g', h => by
    rw [importNodesLoop] at h
    rcases hon : importOneNode E g n with e | g1
    · rw [hon] at h
      cases h
    · rw [hon] at h
      obtain ⟨h1, h2, h3⟩ := importOneNode_frame hon
      obtain ⟨h1', h2', h3'⟩ := importNodesLoop_frame E rest g1 g' h
      exact ⟨h1'.trans h1, h2'.trans h2, h3'.trans h3⟩

/-- C7: a rootless non-constant non-null variable that is not an input makes
`import_var` raise `MissingInputError` with the graph untouched when
`import_missing = False`, and promotes it to an input (appended to `inputs`,
`variables` and `clients`) when `import_missing = True`; `import_node` with
`check = True` applies the same rule to every input of every node it is
about to import: with `import_missing = False` an offending input aborts the
whole import with `MissingInputError` before anything is mutated, and with
`import_missing = True` every rootless non-constant input of a new node ends
up in `inputs`. -/
theorem C7_import_missing_inputs (E : Env) (g : FunctionGraph) (v : Nat)
    (hro : E.owner v = none) (hnc : ¬ E.isConst v) (hni : v ∉ g.inputs)
    (hnn : ¬ E.isNull v) (hncl : alookup g.clients v = none) (hnv : v ∉ g.vars) :
    importVar E g v false = .error (.missingInput, g) ∧
    importVar E g v true =
      .ok { g with
            inputs := g.inputs ++ [v],
            clients := g.clients ++ [(v, [])],
            vars := g.vars ++ [v] } ∧
    (∀ n, (∃ m ∈ ioToposort E g (E.nodeOut n), ∃ w ∈ nodeInputs g m,
        E.owner w = none ∧ ¬ E.isConst w ∧ w ∉ g.inputs) →
      importNode E g n true false = .error (.missingInput, g)) ∧
    (∀ n g', importNode E g n true true = .ok g' →
      ∀ m ∈ ioToposort E g (E.nodeOut n), ∀ w ∈ nodeInputs g m,
        E.owner w = none → ¬ E.isConst w → w ∈ g'.inputs) := by
  have hcF : importVarCore E g v false = .error (.missingInput, g) := by
    simp [importVarCore, hro, hnc, hni, hnn]
  have hcT : importVarCore E g v true = .ok (add_input g v true) := by
    simp [importVarCore, hro, hnc, hni, hnn]
  have hai : add_input g v true = promoteInput g v := by
    rw [add_input, if_neg (by simp [hni]), setup_var]
    simp only [show ({ g with inputs := g.inputs ++ [v] } : FunctionGraph).clients = g.clients from rfl, hncl]
    rw [varAdd]
    split
    · rename_i hmem
      exact absurd hmem hnv
    · rfl
  refine ⟨?_, ?_, ?_, ?_⟩
  · rw [importVar, hcF]
  · rw [importVar, hcT, hai]
    show Except.ok (varAdd (setup_var (promoteInput g v) v) v) = _
    have hlk : alookup (promoteInput g v).clients v = some [] := by
      show alookup (g.clients ++ [(v, [])]) v = some []
      rw [alookup_append_of_none _ hncl]
      simp [alookup]
    rw [setup_var, hlk]
    rw [varAdd]
    split
    · rfl
    · rename_i hmem
      exact absurd (show v ∈ (promoteInput g v).vars by simp [promoteInput]) hmem
  · intro n hex
    rw [importNode]
    simp only [if_pos rfl]
    rw [importCheck_err E _ g hex]
    simp
  · intro n g' h m hm w hw hro' hnc'
    rw [importNode] at h
    simp only [if_pos rfl] at h
    rcases hic : importCheck E true g (ioToposort E g (E.nodeOut n)) with e | g1
    · rw [hic] at h
      cases h
    · rw [hic] at h
      obtain ⟨h1, h2, h3⟩ := importCheck_true_ok E _ g g1 hic
      obtain ⟨f1, f2, f3⟩ := importNodesLoop_frame E _ g1 g' h
      rw [f2]
      exact h3 m hm w hw hro' hnc'


/-! ## Field lemmas for the helper operations -/

theorem foldSetupFields (os : List Nat) :
    ∀ (g0 : FunctionGraph),
      (os.foldl (fun g o => varAdd (setup_var g o) o) g0).nodeIn = g0.nodeIn ∧
      (os.foldl (fun g o => varAdd (setup_var g o) o) g0).inputs = g0.inputs ∧
      (os.foldl (fun g o => varAdd (setup_var g o) o) g0).outputs = g0.outputs ∧
      (os.foldl (fun g o => varAdd (setup_var g o) o) g0).apply_nodes = g0.apply_nodes ∧
      (os.foldl (fun g o => varAdd (setup_var g o) o) g0).features = g0.features ∧
      (os.foldl (fun g o => varAdd (setup_var g o) o) g0).cbTimes = g0.cbTimes ∧
      (os.foldl (fun g o => varAdd (setup_var g o) o) g0).log = g0.log ∧
      (os.foldl (fun g o => varAdd (setup_var g o) o) g0).warnings = g0.warnings := by
  induction os with
  | nil => exact fun g0 => ⟨rfl, rfl, rfl, rfl, rfl, rfl, rfl, rfl⟩
  | cons o os ih =>
    intro g0
    obtain ⟨i1, i2, i3, i4, i5, i6, i7, i8⟩ := ih (varAdd (setup_var g0 o) o)
    refine ⟨?_, ?_, ?_, ?_, ?_, ?_, ?_, ?_⟩ <;>
      simp [List.foldl_cons, i1, i2, i3, i4, i5, i6, i7, i8]

@[simp] theorem trackVar_nodeIn (g : FunctionGraph) (v : Nat) :
    (trackVar g v).nodeIn = g.nodeIn := by
  rw [trackVar]; split <;> simp
@[simp] theorem trackVar_inputs (g : FunctionGraph) (v : Nat) :
    (trackVar g v).inputs = g.inputs := by
  rw [trackVar]; split <;> simp
@[simp] theorem trackVar_outputs (g : FunctionGraph) (v : Nat) :
    (trackVar g v).outputs = g.outputs := by
  rw [trackVar]; split <;> simp
@[simp] theorem trackVar_apply_nodes (g : FunctionGraph) (v : Nat) :
    (trackVar g v).apply_nodes = g.apply_nodes := by
  rw [trackVar]; split <;> simp
@[simp] theorem trackVar_features (g : FunctionGraph) (v : Nat) :
    (trackVar g v).features = g.features := by
  rw [trackVar]; split <;> simp
@[simp] theorem trackVar_cbTimes (g : FunctionGraph) (v : Nat) :
    (trackVar g v).cbTimes = g.cbTimes := by
  rw [trackVar]; split <;> simp
@[simp] theorem trackVar_log (g : FunctionGraph) (v : Nat) :
    (trackVar g v).log = g.log := by
  rw [trackVar]; split <;> simp
@[simp] theorem trackVar_warnings (g : FunctionGraph) (v : Nat) :
    (trackVar g v).warnings = g.warnings := by
  rw [trackVar]; split <;> simp
@[simp] theorem eraseClient_nodeIn (g : FunctionGraph) (v : Nat) (e : Client) (cs : List Client) :
    (eraseClient g v e cs).nodeIn = g.nodeIn := by
  rw [eraseClient]; split <;> rfl
@[simp] theorem eraseClient_inputs (g : FunctionGraph) (v : Nat) (e : Client) (cs : List Client) :
    (eraseClient g v e cs).inputs = g.inputs := by
  rw [eraseClient]; split <;> rfl
@[simp] theorem eraseClient_outputs (g : FunctionGraph) (v : Nat) (e : Client) (cs : List Client) :
    (eraseClient g v e cs).outputs = g.outputs := by
  rw [eraseClient]; split <;> rfl
@[simp] theorem eraseClient_vars (g : FunctionGraph) (v : Nat) (e : Client) (cs : List Client) :
    (eraseClient g v e cs).vars = g.vars := by
  rw [eraseClient]; split <;> rfl
@[simp] theorem eraseClient_apply_nodes (g : FunctionGraph) (v : Nat) (e : Client) (cs : List Client) :
    (eraseClient g v e cs).apply_nodes = g.apply_nodes := by
  rw [eraseClient]; split <;> rfl
@[simp] theorem eraseClient_features (g : FunctionGraph) (v : Nat) (e : Client) (cs : List Client) :
    (eraseClient g v e cs).features = g.features := by
  rw [eraseClient]; split <;> rfl
@[simp] theorem eraseClient_cbTimes (g : FunctionGraph) (v : Nat) (e : Client) (cs : List Client) :
    (eraseClient g v e cs).cbTimes = g.cbTimes := by
  rw [eraseClient]; split <;> rfl
@[simp] theorem eraseClient_log (g : FunctionGraph) (v : Nat) (e : Client) (cs : List Client) :
    (eraseClient g v e cs).log = g.log := by
  rw [eraseClient]; split <;> rfl
@[simp] theorem eraseClient_warnings (g : FunctionGraph) (v : Nat) (e : Client) (cs : List Client) :
    (eraseClient g v e cs).warnings = g.warnings := by
  rw [eraseClient]; split <;> rfl
@[simp] theorem pruneState_nodeIn (E : Env) (g : FunctionGraph) (p : Nat) :
    (pruneState E g p).nodeIn = g.nodeIn := by
  rw [pruneState]; rfl
@[simp] theorem pruneState_inputs (E : Env) (g : FunctionGraph) (p : Nat) :
    (pruneState E g p).inputs = g.inputs := by
  rw [pruneState]; rfl
@[simp] theorem pruneState_outputs (E : Env) (g : FunctionGraph) (p : Nat) :
    (pruneState E g p).outputs = g.outputs := by
  rw [pruneState]; rfl
@[simp] theorem pruneState_clients (E : Env) (g : FunctionGraph) (p : Nat) :
    (pruneState E g p).clients = g.clients := by
  rw [pruneState]; rfl
@[simp] theorem pruneState_features (E : Env) (g : FunctionGraph) (p : Nat) :
    (pruneState E g p).features = g.features := by
  rw [pruneState]; rfl
@[simp] theorem pruneState_cbTimes (E : Env) (g : FunctionGraph) (p : Nat) :
    (pruneState E g p).cbTimes = g.cbTimes := by
  rw [pruneState]; rfl
@[simp] theorem pruneState_warnings (E : Env) (g : FunctionGraph) (p : Nat) :
    (pruneState E g p).warnings = g.warnings := by
  rw [pruneState]; rfl
@[simp] theorem registerFeat_nodeIn (g : FunctionGraph) (f : Nat) :
    (registerFeat g f).nodeIn = g.nodeIn := by
  rfl
@[simp] theorem registerFeat_inputs (g : FunctionGraph) (f : Nat) :
    (registerFeat g f).inputs = g.inputs := by
  rfl
@[simp] theorem registerFeat_outputs (g : FunctionGraph) (f : Nat) :
    (registerFeat g f).outputs = g.outputs := by
  rfl
@[simp] theorem registerFeat_vars (g : FunctionGraph) (f : Nat) :
    (registerFeat g f).vars = g.vars := by
  rfl
@[simp] theorem registerFeat_apply_nodes (g : FunctionGraph) (f : Nat) :
    (registerFeat g f).apply_nodes = g.apply_nodes := by
  rfl
@[simp] theorem registerFeat_clients (g : FunctionGraph) (f : Nat) :
    (registerFeat g f).clients = g.clients := by
  rfl
@[simp] theorem registerFeat_log (g : FunctionGraph) (f : Nat) :
    (registerFeat g f).log = g.log := by
  rfl
@[simp] theorem registerFeat_warnings (g : FunctionGraph) (f : Nat) :
    (registerFeat g f).warnings = g.warnings := by
  rfl
@[simp] theorem slotSet_inputs (g : FunctionGraph) (r : NodeRef) (i v : Nat) :
    (slotSet g r i v).inputs = g.inputs := by
  cases r <;> rfl
@[simp] theorem slotSet_vars (g : FunctionGraph) (r : NodeRef) (i v : Nat) :
    (slotSet g r i v).vars = g.vars := by
  cases r <;> rfl
@[simp] theorem slotSet_apply_nodes (g : FunctionGraph) (r : NodeRef) (i v : Nat) :
    (slotSet g r i v).apply_nodes = g.apply_nodes := by
  cases r <;> rfl
@[simp] theorem slotSet_clients (g : FunctionGraph) (r : NodeRef) (i v : Nat) :
    (slotSet g r i v).clients = g.clients := by
  cases r <;> rfl
@[simp] theorem slotSet_features (g : FunctionGraph) (r : NodeRef) (i v : Nat) :
    (slotSet g r i v).features = g.features := by
  cases r <;> rfl
@[simp] theorem slotSet_cbTimes (g : FunctionGraph) (r : NodeRef) (i v : Nat) :
    (slotSet g r i v).cbTimes = g.cbTimes := by
  cases r <;> rfl
@[simp] theorem slotSet_log (g : FunctionGraph) (r : NodeRef) (i v : Nat) :
    (slotSet g r i v).log = g.log := by
  cases r <;> rfl
@[simp] theorem slotSet_warnings (g : FunctionGraph) (r : NodeRef) (i v : Nat) :
    (slotSet g r i v).warnings = g.warnings := by
  cases r <;> rfl

@[simp] theorem importReg_nodeIn (E : Env) (g : FunctionGraph) (n : Nat) :
    (importReg E g n).nodeIn = g.nodeIn := by
  rw [importReg]
  exact (foldSetupFields (E.nodeOut n) _).1

@[simp] theorem importReg_inputs (E : Env) (g : FunctionGraph) (n : Nat) :
    (importReg E g n).inputs = g.inputs := by
  rw [importReg]
  exact (foldSetupFields (E.nodeOut n) _).2.1

@[simp] theorem importReg_outputs (E : Env) (g : FunctionGraph) (n : Nat) :
    (importReg E g n).outputs = g.outputs := by
  rw [importReg]
  exact (foldSetupFields (E.nodeOut n) _).2.2.1

@[simp] theorem importReg_apply_nodes (E : Env) (g : FunctionGraph) (n : Nat) :
    (importReg E g n).apply_nodes = g.apply_nodes ++ [n] := by
  rw [importReg]
  exact (foldSetupFields (E.nodeOut n) _).2.2.2.1

@[simp] theorem importReg_features (E : Env) (g : FunctionGraph) (n : Nat) :
    (importReg E g n).features = g.features := by
  rw [importReg]
  exact (foldSetupFields (E.nodeOut n) _).2.2.2.2.1

@[simp] theorem importReg_cbTimes (E : Env) (g : FunctionGraph) (n : Nat) :
    (importReg E g n).cbTimes = g.cbTimes := by
  rw [importReg]
  exact (foldSetupFields (E.nodeOut n) _).2.2.2.2.2.1

@[simp] theorem importReg_log (E : Env) (g : FunctionGraph) (n : Nat) :
    (importReg E g n).log = g.log := by
  rw [importReg]
  exact (foldSetupFields (E.nodeOut n) _).2.2.2.2.2.2.1

@[simp] theorem importReg_warnings (E : Env) (g : FunctionGraph) (n : Nat) :
    (importReg E g n).warnings = g.warnings := by
  rw [importReg]
  exact (foldSetupFields (E.nodeOut n) _).2.2.2.2.2.2.2

@[simp] theorem pruneState_apply_nodes (E : Env) (g : FunctionGraph) (p : Nat) :
    (pruneState E g p).apply_nodes = lerase g.apply_nodes p := rfl

@[simp] theorem pruneState_vars (E : Env) (g : FunctionGraph) (p : Nat) :
    (pruneState E g p).vars = g.vars.filter (fun w => decide (w ∉ E.nodeOut p)) := rfl

@[simp] theorem pruneState_log (E : Env) (g : FunctionGraph) (p : Nat) :
    (pruneState E g p).log = g.log ++ [Event.onPrune p] := rfl

@[simp] theorem registerFeat_features (g : FunctionGraph) (f : Nat) :
    (registerFeat g f).features = g.features ++ [f] := rfl

/-! ## Input purity lemmas (claim C4) -/

theorem InputsGrowth_refl (E : Env) (g : FunctionGraph) : InputsGrowth E g g :=
  ⟨[], by simp, by simp, fun h => h⟩

theorem InputsGrowth_of_eq {E : Env} {g g' : FunctionGraph} (h : g'.inputs = g.inputs) :
    InputsGrowth E g g' :=
  ⟨[], by simp [h], by simp, fun hn => h ▸ hn⟩

theorem InputsGrowth_trans {E : Env} {g1 g2 g3 : FunctionGraph}
    (h12 : InputsGrowth E g1 g2) (h23 : InputsGrowth E g2 g3) : InputsGrowth E g1 g3 := by
  obtain ⟨a, ha, hqa, hna⟩ := h12
  obtain ⟨b, hb, hqb, hnb⟩ := h23
  refine ⟨a ++ b, by rw [hb, ha, List.append_assoc], ?_, fun hn => hnb (hna hn)⟩
  intro v hv
  rcases List.mem_append.mp hv with h | h
  · exact hqa v h
  · exact hqb v h

theorem add_input_growth (E : Env) (g : FunctionGraph) (v : Nat)
    (hro : E.owner v = none) (hnc : ¬ E.isConst v) :
    InputsGrowth E g (add_input g v true) := by
  by_cases hv : v ∈ g.inputs
  · exact InputsGrowth_of_eq (by rw [add_input, if_pos ⟨rfl, hv⟩])
  · refine ⟨[v], by rw [add_input_inputs_true g v hv], ?_, ?_⟩
    · intro w hw
      rw [List.mem_singleton] at hw
      subst hw
      exact ⟨hro, hnc⟩
    · intro hn
      rw [add_input_inputs_true g v hv]
      rw [List.nodup_append]
      refine ⟨hn, List.nodup_singleton v, ?_⟩
      intro x hx hx1
      rw [List.mem_singleton] at hx1
      subst hx1
      exact hv hx

theorem checkNodeInputs_growth (E : Env) (im : Bool) :
    ∀ (vs : List Nat) (g g' : FunctionGraph),
      checkNodeInputs E im g vs = .ok g' → InputsGrowth E g g'
  | [], g, g', h => by
    injection h with h
    subst h
    exact InputsGrowth_refl E g
  | v :: rest, g, g', h => by
    rw [checkNodeInputs] at h
    by_cases hv : E.owner v = none ∧ ¬ E.isConst v ∧ v ∉ g.inputs
    · rw [if_pos hv] at h
      cases im with
      | false => simp at h
      | true =>
        simp only [if_pos rfl] at h
        exact InputsGrowth_trans (add_input_growth E g v hv.1 hv.2.1)
          (checkNodeInputs_growth E true rest _ g' h)
    · rw [if_neg hv] at h
      exact checkNodeInputs_growth E im rest g g' h

theorem importCheck_growth (E : Env) (im : Bool) :
    ∀ (ns : List Nat) (g g' : FunctionGraph),
      importCheck E im g ns = .ok g' → InputsGrowth E g g'
  | [], g, g', h => by
    injection h with h
    subst h
    exact InputsGrowth_refl E g
  | n :: rest, g, g', h => by
    rw [importCheck] at h
    rcases hc : checkNodeInputs E im g (nodeInputs g n) with e | g1
    · rw [hc] at h
      cases h
    · rw [hc] at h
      exact InputsGrowth_trans (checkNodeInputs_growth E im _ g g1 hc)
        (importCheck_growth E im rest g1 g' h)

theorem importNode_growth {E : Env} {g g' : FunctionGraph} {n : Nat} {check im : Bool}
    (h : importNode E g n check im = .ok g') : InputsGrowth E g g' := by
  rw [importNode] at h
  rcases hc : (if check then importCheck E im g (ioToposort E g (E.nodeOut n)) else .ok g)
      with e | g1
  · rw [hc] at h
    cases h
  · rw [hc] at h
    have h1 : InputsGrowth E g g1 := by
      cases check with
      | false =>
        simp only [if_neg (by simp : ¬ (false = true))] at hc
        injection hc with hc
        subst hc
        exact InputsGrowth_refl E g
      | true =>
        simp only [if_pos rfl] at hc
        exact importCheck_growth E im _ g g1 hc
    exact InputsGrowth_trans h1
      (InputsGrowth_of_eq (importNodesLoop_frame E _ g1 g' h).2.1)

theorem importVar_growth {E : Env} {g g' : FunctionGraph} {v : Nat} {im : Bool}
    (h : importVar E g v im = .ok g') : InputsGrowth E g g' := by
  rw [importVar] at h
  rcases hc : importVarCore E g v im with e | g1
  · rw [hc] at h
    cases h
  · rw [hc] at h
    injection h with h
    subst h
    have h1 : InputsGrowth E g g1 := by
      rw [importVarCore] at hc
      rcases hro : E.owner v with _ | n
      · simp only [hro] at hc
        by_cases hg : ¬ E.isConst v ∧ v ∉ g.inputs
        · rw [if_pos hg] at hc
          by_cases hnl : E.isNull v
          · rw [if_pos hnl] at hc
            cases hc
          · rw [if_neg hnl] at hc
            cases im with
            | false => simp at hc
            | true =>
              simp only [if_pos rfl] at hc
              injection hc with hc
              subst hc
              exact add_input_growth E g v hro hg.1
        · rw [if_neg hg] at hc
          injection hc with hc
          subst hc
          exact InputsGrowth_refl E g
      · simp only [hro] at hc
        by_cases hn : n ∈ g.apply_nodes
        · rw [if_pos hn] at hc
          injection hc with hc
          subst hc
          exact InputsGrowth_refl E g
        · rw [if_neg hn] at hc
          exact importNode_growth hc
    exact InputsGrowth_trans h1 (InputsGrowth_of_eq (by simp))

theorem removeClientLoop_frame (E : Env) :
    ∀ (fuel : Nat) (stack : List (Nat × Client)) (g g' : FunctionGraph),
      removeClientLoop E fuel g stack = .ok g' →
      g'.nodeIn = g.nodeIn ∧ g'.inputs = g.inputs ∧ g'.outputs = g.outputs ∧
      g'.features = g.features ∧ g'.cbTimes = g.cbTimes ∧ g'.warnings = g.warnings
  | fuel, [], g, g', h => by
    rw [removeClientLoop_nil] at h
    injection h with h
    subst h
    exact ⟨rfl, rfl, rfl, rfl, rfl, rfl⟩
  | 0, (v, e) :: stack, g, g', h => by
    rw [removeClientLoop] at h
    cases h
  | fuel + 1, (v, e) :: stack, g, g', h => by
    rw [removeClientLoop] at h
    rcases hcs : alookup g.clients v with _ | cs
    · rw [hcs] at h
      cases h
    · simp only [hcs] at h
      by_cases hlive : e ∈ cs ∧ lerase cs e ≠ []
      · rw [if_pos hlive] at h
        obtain ⟨f1, f2, f3, f4, f5, f6⟩ := removeClientLoop_frame E fuel stack _ g' h
        exact ⟨by simp [f1], by simp [f2], by simp [f3], by simp [f4], by simp [f5],
               by simp [f6]⟩
      · rw [if_neg hlive] at h
        rcases hro : E.owner v with _ | p
        · simp only [hro] at h
          by_cases hv : v ∈ (eraseClient g v e cs).vars
          · rw [if_pos hv] at h
            obtain ⟨f1, f2, f3, f4, f5, f6⟩ := removeClientLoop_frame E fuel stack _ g' h
            exact ⟨by simp at f1 ⊢; simp [f1], by simp at f2 ⊢; simp [f2],
                   by simp at f3 ⊢; simp [f3], by simp at f4 ⊢; simp [f4],
                   by simp at f5 ⊢; simp [f5], by simp at f6 ⊢; simp [f6]⟩
          · rw [if_neg hv] at h
            cases h
        · simp only [hro] at h
          rcases hany : anyClientful (eraseClient g v e cs) (E.nodeOut p) with err | b
          · rw [hany] at h
            cases h
          · rw [hany] at h
            cases b with
            | true =>
              obtain ⟨f1, f2, f3, f4, f5, f6⟩ := removeClientLoop_frame E fuel stack _ g' h
              exact ⟨by simp [f1], by simp [f2], by simp [f3], by simp [f4], by simp [f5],
                     by simp [f6]⟩
            | false =>
              by_cases hp : p ∈ (eraseClient g v e cs).apply_nodes
              · rw [if_pos hp] at h
                obtain ⟨f1, f2, f3, f4, f5, f6⟩ := removeClientLoop_frame E fuel _ _ g' h
                refine ⟨?_, ?_, ?_, ?_, ?_, ?_⟩ <;>
                  simp_all [pruneState, execCB]
              · rw [if_neg hp] at h
                cases h

theorem remove_client_frame {E : Env} {g g' : FunctionGraph} {v : Nat} {e : Client}
    (h : remove_client E g v e = .ok g') :
    g'.nodeIn = g.nodeIn ∧ g'.inputs = g.inputs ∧ g'.outputs = g.outputs ∧
    g'.features = g.features ∧ g'.cbTimes = g.cbTimes ∧ g'.warnings = g.warnings :=
  removeClientLoop_frame E _ _ g g' h

theorem change_input_growth {E : Env} {g g' : FunctionGraph} {ref : NodeRef} {i w : Nat}
    {im : Bool} (h : change_input E g ref i w im = .ok g') : InputsGrowth E g g' := by
  rw [change_input] at h
  rcases hs : slotGet g ref i with _ | r
  · rw [hs] at h
    cases h
  · rw [hs] at h
    simp only at h
    by_cases hty : E.vtype r ≠ E.vtype w
    · rw [if_pos hty] at h
      cases h
    · rw [if_neg hty] at h
      by_cases heq : r = w
      · rw [if_pos heq] at h
        injection h with h
        subst h
        exact InputsGrowth_of_eq (by simp)
      · rw [if_neg heq] at h
        rcases h1 : importVar E (slotSet g ref i w) w im with e | g1
        · rw [h1] at h
          cases h
        · simp only [h1] at h
          rcases h2 : add_client g1 w (ref, i) with e | g2
          · rw [h2] at h
            cases h
          · simp only [h2] at h
            rcases h3 : remove_client E g2 r (ref, i) with e | g3
            · rw [h3] at h
              cases h
            · simp only [h3] at h
              injection h with h
              subst h
              obtain ⟨cs, _, hg2⟩ := add_client_ok h2
              refine InputsGrowth_trans (InputsGrowth_of_eq (by simp : (slotSet g ref i w).inputs = g.inputs))
                (InputsGrowth_trans (importVar_growth h1)
                  (InputsGrowth_trans (InputsGrowth_of_eq (by rw [hg2]))
                    (InputsGrowth_trans (InputsGrowth_of_eq (remove_client_frame h3).2.1)
                      (InputsGrowth_of_eq (by simp [execCB])))))

theorem replaceLoop_growth (E : Env) (va nv : Nat) (im : Bool) :
    ∀ (cs : List Client) (g g' : FunctionGraph),
      replaceLoop E va nv im g cs = .ok g' → InputsGrowth E g g'
  | [], g, g', h => by
    injection h with h
    subst h
    exact InputsGrowth_refl E g
  | (ref, i) :: rest, g, g', h => by
    rw [replaceLoop] at h
    by_cases ha : slotGet g ref i = some va
    · rw [if_pos ha] at h
      rcases hc : change_input E g ref i nv im with e | g1
      · rw [hc] at h
        cases h
      · rw [hc] at h
        exact InputsGrowth_trans (change_input_growth hc)
          (replaceLoop_growth E va nv im rest g1 g' h)
    · rw [if_neg ha] at h
      cases h

theorem replace_growth {E : Env} {g g' : FunctionGraph} {va w : Nat} {im : Bool}
    (h : replace E g va w im = .ok g') : InputsGrowth E g g' := by
  rw [replace] at h
  rcases hf : E.filterVar (E.vtype va) w with _ | nv
  · rw [hf] at h
    cases h
  · simp only [hf] at h
    by_cases hv : va ∉ g.vars
    · rw [if_pos hv] at h
      injection h with h
      subst h
      exact InputsGrowth_of_eq rfl
    · rw [if_neg hv] at h
      rcases hcs : alookup g.clients va with _ | snap
      · rw [hcs] at h
        cases h
      · rw [hcs] at h
        exact replaceLoop_growth E va nv im snap g g' h

theorem step_growth {E : Env} {g g' : FunctionGraph} (h : Step E g g') :
    InputsGrowth E g g' := by
  cases h with
  | impVar v im h => exact importVar_growth h
  | impNode n check im h => exact importNode_growth h
  | chgInput ref i w im h => exact change_input_growth h
  | repl va w im h => exact replace_growth h
  | remCli v e h => exact InputsGrowth_of_eq (remove_client_frame h).2.1

theorem reachableFrom_growth {E : Env} {g0 g : FunctionGraph}
    (h : ReachableFrom E g0 g) : InputsGrowth E g0 g := by
  induction h with
  | refl => exact InputsGrowth_refl E g0
  | step g1 g2 _ hs ih => exact InputsGrowth_trans ih (step_growth hs)

theorem mkInputs_char (E : Env) :
    ∀ (l : List Nat) (g g' : FunctionGraph),
      mkInputs E g l = .ok g' →
      g'.inputs = g.inputs ++ l ∧ (∀ v ∈ l, E.owner v = none)
  | [], g, g', h => by
    injection h with h
    subst h
    exact ⟨by simp, by simp⟩
  | v :: rest, g, g', h => by
    rw [mkInputs] at h
    rcases hro : E.owner v with _ | n
    · simp only [hro] at h
      obtain ⟨h1, h2⟩ := mkInputs_char E rest (add_input g v false) g' h
      refine ⟨?_, ?_⟩
      · rw [h1, add_input_inputs_false]
        simp
      · intro w hw
        rcases List.mem_cons.mp hw with rfl | hw
        · exact hro
        · exact h2 w hw
    · simp only [hro] at h
      cases h

theorem mkInputs_err (E : Env) :
    ∀ (l : List Nat) (g : FunctionGraph),
      (∃ v ∈ l, E.owner v ≠ none) →
      ∃ gerr, mkInputs E g l = .error (.valueError, gerr)
  | [], g, h => by simp at h
  | v :: rest, g, h => by
    rw [mkInputs]
    rcases hro : E.owner v with _ | n
    · simp only [hro]
      obtain ⟨w, hw, hnw⟩ := h
      rcases List.mem_cons.mp hw with rfl | hw
      · exact absurd hro hnw
      · exact mkInputs_err E rest (add_input g v false) ⟨w, hw, hnw⟩
    · exact ⟨g, by simp only [hro]⟩

theorem attach_feature_inputs {E : Env} {g g' : FunctionGraph} {f : Nat}
    (h : attach_feature E g f = .ok g') : g'.inputs = g.inputs := by
  rw [attach_feature] at h
  by_cases hf : f ∈ g.features
  · rw [if_pos hf] at h
    injection h with h
    subst h
    rfl
  · rw [if_neg hf] at h
    rcases ha : E.featAttach f with _ | _ | c | _ <;> rw [ha] at h <;>
      first
        | (injection h with h; subst h; simp [registerFeat, execCB])
        | cases h

theorem attachAll_inputs (E : Env) :
    ∀ (fs : List Nat) (g g' : FunctionGraph),
      attachAll E g fs = .ok g' → g'.inputs = g.inputs
  | [], g, g', h => by
    injection h with h
    subst h
    rfl
  | f :: rest, g, g', h => by
    rw [attachAll] at h
    rcases ha : attach_feature E g f with e | g1
    · rw [ha] at h
      cases h
    · rw [ha] at h
      exact (attachAll_inputs E rest g1 g' h).trans (attach_feature_inputs ha)

theorem importOutputs_growth (E : Env) :
    ∀ (os : List Nat) (g g' : FunctionGraph),
      importOutputs E g os = .ok g' → InputsGrowth E g g'
  | [], g, g', h => by
    injection h with h
    subst h
    exact InputsGrowth_refl E g
  | o :: rest, g, g', h => by
    rw [importOutputs] at h
    rcases hi : importVar E g o false with e | g1
    · rw [hi] at h
      cases h
    · rw [hi] at h
      exact InputsGrowth_trans (importVar_growth hi) (importOutputs_growth E rest g1 g' h)

theorem outputClients_inputs :
    ∀ (ps : List (Nat × Nat)) (g g' : FunctionGraph),
      outputClients g ps = .ok g' → g'.inputs = g.inputs
  | [], g, g', h => by
    injection h with h
    subst h
    rfl
  | (i, o) :: rest, g, g', h => by
    rw [outputClients] at h
    rcases ha : add_client g o (NodeRef.output, i) with e | g1
    · rw [ha] at h
      cases h
    · rw [ha] at h
      obtain ⟨cs, _, hg1⟩ := add_client_ok ha
      rw [outputClients_inputs rest g1 g' h, hg1]

theorem mk_inputs_char {E : Env} {h : List (Nat × List Nat)}
    {inps outs feats : List Nat} {rv : Nat} {g0 : FunctionGraph}
    (hmk : mkFunctionGraph E h inps outs feats rv = .ok g0) :
    (∀ v ∈ inps, E.owner v = none) ∧
    ∃ add : List Nat, g0.inputs = inps ++ add ∧
      (∀ v ∈ add, E.owner v = none ∧ ¬ E.isConst v) ∧
      (inps.Nodup → g0.inputs.Nodup) := by
  rw [mkFunctionGraph] at hmk
  rcases h1 : attachAll E (initState h outs) feats with e | ga
  · rw [h1] at hmk
    cases hmk
  · simp only [h1] at hmk
    rcases h2 : attach_feature E ga rv with e | gb
    · rw [h2] at hmk
      cases hmk
    · simp only [h2] at hmk
      rcases h3 : mkInputs E gb inps with e | gc
      · rw [h3] at hmk
        cases hmk
      · simp only [h3] at hmk
        rcases h4 : importOutputs E gc outs with e | gd
        · rw [h4] at hmk
          cases hmk
        · simp only [h4] at hmk
          have hga : ga.inputs = [] := by
            rw [attachAll_inputs E feats _ ga h1]
            rfl
          have hgb : gb.inputs = [] := by
            rw [attach_feature_inputs h2, hga]
          obtain ⟨hc1, hc2⟩ := mkInputs_char E inps gb gc h3
          have hgc : gc.inputs = inps := by
            rw [hc1, hgb]
            simp
          obtain ⟨add, hadd, hq, hnd⟩ := importOutputs_growth E outs gc gd h4
          have hout : g0.inputs = gd.inputs := outputClients_inputs _ gd g0 hmk
          refine ⟨hc2, add, ?_, hq, ?_⟩
          · rw [hout, hadd, hgc]
          · intro hn
            rw [hout]
            exact hnd (by rw [hgc]; exact hn)

/-- C4 counterexample: the constructor checks only `owner is not None`; a
`Constant` passed as an input is accepted without error and lands in
`inputs`, contradicting the claimed "is not a Constant" invariant. -/
theorem C4_counterexample :
    envConst.isConst 5 ∧
    okState (mkFunctionGraph envConst [] [5] [5] [] 9) = some gConst ∧
    5 ∈ gConst.inputs := by decide

/-- C4 amended: every element of `inputs` has `owner = none` — the
constructor rejects an owned input with `ValueError` (once the feature
attachment phase has succeeded) and the import paths only ever promote
ownerless non-constants — and the full claimed invariant (ownerless,
non-Constant, pairwise distinct, preserved by every sequence of public
operations) holds provided the constructor was given distinct non-Constant
inputs. -/
theorem C4_input_purity (E : Env) :
    (∀ h inps outs feats rv ga gb, attachAll E (initState h outs) feats = .ok ga →
      attach_feature E ga rv = .ok gb → (∃ v ∈ inps, E.owner v ≠ none) →
      ∃ gerr, mkFunctionGraph E h inps outs feats rv = .error (.valueError, gerr)) ∧
    (∀ h inps outs feats rv g0, mkFunctionGraph E h inps outs feats rv = .ok g0 →
      InputsOwnerless E g0 ∧ (∀ g, ReachableFrom E g0 g → InputsOwnerless E g) ∧
      ((∀ v ∈ inps, ¬ E.isConst v) → inps.Nodup →
        InputsPure E g0 ∧ ∀ g, ReachableFrom E g0 g → InputsPure E g)) := by
  constructor
  · intro h inps outs feats rv ga gb h1 h2 hex
    obtain ⟨gerr, herr⟩ := mkInputs_err E inps gb hex
    refine ⟨gerr, ?_⟩
    rw [mkFunctionGraph]
    simp only [h1, h2, herr]
  · intro h inps outs feats rv g0 hmk
    obtain ⟨howner, add, hadd, hq, hnd⟩ := mk_inputs_char hmk
    have hO0 : InputsOwnerless E g0 := by
      intro v hv
      rw [hadd] at hv
      rcases List.mem_append.mp hv with hv | hv
      · exact howner v hv
      · exact (hq v hv).1
    have hOpres : ∀ {ga gb : FunctionGraph}, InputsGrowth E ga gb →
        InputsOwnerless E ga → InputsOwnerless E gb := by
      intro ga gb hg hown v hv
      obtain ⟨a, hia, hqa, _⟩ := hg
      rw [hia] at hv
      rcases List.mem_append.mp hv with hv | hv
      · exact hown v hv
      · exact (hqa v hv).1
    refine ⟨hO0, fun g hr => hOpres (reachableFrom_growth hr) hO0, ?_⟩
    intro hpure hnodup
    have hP0 : InputsPure E g0 := by
      refine ⟨?_, hnd hnodup⟩
      intro v hv
      rw [hadd] at hv
      rcases List.mem_append.mp hv with hv | hv
      · exact ⟨howner v hv, hpure v hv⟩
      · exact hq v hv
    have hPpres : ∀ {ga gb : FunctionGraph}, InputsGrowth E ga gb →
        InputsPure E ga → InputsPure E gb := by
      intro ga gb hg hpu
      obtain ⟨a, hia, hqa, hna⟩ := hg
      refine ⟨?_, hna hpu.2⟩
      intro v hv
      rw [hia] at hv
      rcases List.mem_append.mp hv with hv | hv
      · exact hpu.1 v hv
      · exact hqa v hv
    exact ⟨hP0, fun g hr => hPpres (reachableFrom_growth hr) hP0⟩

theorem C4_witness :
    InputsPure envA gC4 ∧ InputsOwnerless envA gC4 :=
  have hmk : mkFunctionGraph envA [] [1] [1] [] 9 = .ok gC4 := by rfl
  have hh := (C4_input_purity envA).2 [] [1] [1] [] 9 gC4 hmk
  ⟨(hh.2.2 (by decide) (by decide)).1, hh.1⟩

theorem C7_witness :
    importVar envA gW8 0 false = .error (.missingInput, gW8) ∧
    importVar envA gW8 0 true = .ok (promoteInput gW8 0) :=
  have hh := C7_import_missing_inputs envA gW8 0 (by decide) (by decide) (by decide)
    (by decide) (by decide) (by decide)
  ⟨hh.1, hh.2.1⟩

/-! ## Counting lemmas for the multiplicity invariant -/

theorem lcountP_eq_length_filter {α : Type} (p : α → Prop) [DecidablePred p] (l : List α) :
    lcountP p l = (l.filter (fun a => decide (p a))).length := by
  induction l with
  | nil => rfl
  | cons a l ih =>
    rw [lcountP, List.filter_cons]
    by_cases hp : p a
    · simp [hp, ih, Nat.add_comm]
    · simp [hp, ih]

theorem filter_map_comm {α β : Type} (f : α → β) (p : β → Bool) (l : List α) :
    (l.map f).filter p = (l.filter (fun a => p (f a))).map f := by
  induction l with
  | nil => rfl
  | cons a l ih =>
    rw [List.map_cons, List.filter_cons, List.filter_cons]
    by_cases hp : p (f a) = true
    · simp [hp, ih]
    · simp [hp, ih]

theorem lcount_eq_idx {α : Type} [DecidableEq α] (l : List α) (v : α) :
    lcount l v =
      ((List.range l.length).filter (fun i => decide (lget l i = some v))).length := by
  induction l with
  | nil => rfl
  | cons a l ih =>
    rw [lcount, lcountP]
    rw [List.length_cons, List.range_succ_eq_map, List.filter_cons]
    rw [filter_map_comm Nat.succ (fun i => decide (lget (a :: l) i = some v))
      (List.range l.length)]
    have hs : (List.filter (fun i => decide (lget (a :: l) (Nat.succ i) = some v))
        (List.range l.length)) =
        (List.filter (fun i => decide (lget l i = some v)) (List.range l.length)) := by
      apply List.filter_congr
      intro i _
      rfl
    rw [hs]
    rw [lcount] at ih
    by_cases hva : a = v
    · have hda : (decide (lget (a :: l) 0 = some v)) = true := by
        simp [lget, hva]
      rw [hda, if_pos rfl]
      simp only [List.length_cons, List.length_map]
      rw [ih, if_pos hva]
      omega
    · have hda : (decide (lget (a :: l) 0 = some v)) = false := by
        simp [lget, hva]
      rw [hda]
      simp only [Bool.false_eq_true, if_false, List.length_map]
      rw [ih, if_neg hva]
      omega

theorem nodup_same_mem_length {α : Type} [DecidableEq α] {l1 l2 : List α}
    (h1 : l1.Nodup) (h2 : l2.Nodup) (hm : ∀ a, a ∈ l1 ↔ a ∈ l2) :
    l1.length = l2.length := by
  have hp : l1.Perm l2 := by
    apply List.perm_of_nodup_nodup_toFinset_eq h1 h2
    ext a
    simp only [List.mem_toFinset]
    exact hm a
  exact hp.length_eq

/-- The counting fact behind the multiplicity clause: a duplicate-free
clients list that is sound and complete for node `n` holds exactly one entry
per occurrence of `v` among the node's inputs. -/
theorem count_entries (cs : List Client) (n v : Nat) (l : List Nat)
    (hnd : cs.Nodup)
    (hsound : ∀ i, (NodeRef.node n, i) ∈ cs → lget l i = some v)
    (hcomp : ∀ i, lget l i = some v → (NodeRef.node n, i) ∈ cs) :
    nodeClientCount cs n = lcount l v := by
  rw [nodeClientCount, lcountP_eq_length_filter, lcount_eq_idx]
  have hAnd : (cs.filter (fun c => decide (c.1 = NodeRef.node n))).Nodup :=
    List.Nodup.filter _ hnd
  rw [show (cs.filter (fun c => decide (c.1 = NodeRef.node n))).length =
      ((cs.filter (fun c => decide (c.1 = NodeRef.node n))).map Prod.snd).length from
    (List.length_map _ _).symm]
  apply nodup_same_mem_length
  · apply List.Nodup.map_on ?_ hAnd
    intro x hx y hy hxy
    have hx1 : x.1 = NodeRef.node n := by simpa using (List.mem_filter.mp hx).2
    have hy1 : y.1 = NodeRef.node n := by simpa using (List.mem_filter.mp hy).2
    obtain ⟨x1, x2⟩ := x
    obtain ⟨y1, y2⟩ := y
    simp only at hx1 hy1 hxy
    rw [hx1, hy1, hxy]
  · exact List.Nodup.filter _ (List.nodup_range l.length)
  · intro i
    constructor
    · intro hi
      rw [List.mem_map] at hi
      obtain ⟨c, hc, hci⟩ := hi
      have hc1 : c.1 = NodeRef.node n := by simpa using (List.mem_filter.mp hc).2
      have hcs : c ∈ cs := (List.mem_filter.mp hc).1
      have hmm : (NodeRef.node n, i) ∈ cs := by
        obtain ⟨c1, c2⟩ := c
        simp only at hc1 hci
        rw [hc1, hci] at hcs
        exact hcs
      have hg := hsound i hmm
      rw [List.mem_filter]
      exact ⟨List.mem_range.mpr (lget_some_lt hg), by simpa using hg⟩
    · intro hi
      rw [List.mem_filter] at hi
      have hg : lget l i = some v := by simpa using hi.2
      rw [List.mem_map]
      exact ⟨(NodeRef.node n, i), List.mem_filter.mpr ⟨hcomp i hg, by simp⟩, rfl⟩

/-! ## Association-list membership lemmas -/

theorem mem_aset_elim {κ α : Type} [DecidableEq κ] {l : List (κ × α)} {k : κ} {a : α}
    {p : κ × α} (h : p ∈ aset l k a) : p = (k, a) ∨ (p ∈ l ∧ p.1 ≠ k) ∨ p ∈ l := by
  induction l with
  | nil =>
    rw [aset] at h
    rcases List.mem_singleton.mp h with rfl
    exact Or.inl rfl
  | cons q l ih =>
    obtain ⟨q1, q2⟩ := q
    rw [aset] at h
    by_cases hk : k = q1
    · subst hk
      rw [if_pos rfl] at h
      rcases List.mem_cons.mp h with rfl | hmem
      · exact Or.inl rfl
      · exact Or.inr (Or.inr (List.mem_cons_of_mem _ hmem))
    · rw [if_neg hk] at h
      rcases List.mem_cons.mp h with rfl | hmem
      · exact Or.inr (Or.inr (List.mem_cons_self _ _))
      · rcases ih hmem with h1 | h1 | h1
        · exact Or.inl h1
        · exact Or.inr (Or.inl ⟨List.mem_cons_of_mem _ h1.1, h1.2⟩)
        · exact Or.inr (Or.inr (List.mem_cons_of_mem _ h1))

/-- Over a key-duplicate-free association list, a member of `aset l k a` is
either the new binding or an old binding at another key. -/
theorem mem_aset_nodup {κ α : Type} [DecidableEq κ] {l : List (κ × α)} {k : κ} {a : α}
    {p : κ × α} (hnd : (akeys l).Nodup) (h : p ∈ aset l k a) :
    p = (k, a) ∨ (p ∈ l ∧ p.1 ≠ k) := by
  induction l with
  | nil =>
    rw [aset] at h
    rcases List.mem_singleton.mp h with rfl
    exact Or.inl rfl
  | cons q l ih =>
    obtain ⟨q1, q2⟩ := q
    rw [akeys, List.map_cons, List.nodup_cons] at hnd
    rw [aset] at h
    by_cases hk : k = q1
    · subst hk
      rw [if_pos rfl] at h
      rcases List.mem_cons.mp h with rfl | hmem
      · exact Or.inl rfl
      · refine Or.inr ⟨List.mem_cons_of_mem _ hmem, ?_⟩
        intro hpk
        have hm2 : p.1 ∈ List.map Prod.fst l := List.mem_map_of_mem Prod.fst hmem
        rw [hpk] at hm2
        exact hnd.1 hm2
    · rw [if_neg hk] at h
      rcases List.mem_cons.mp h with rfl | hmem
      · exact Or.inr ⟨List.mem_cons_self _ _, fun hq => hk hq.symm⟩
      · rcases ih hnd.2 hmem with h1 | h1
        · exact Or.inl h1
        · exact Or.inr ⟨List.mem_cons_of_mem _ h1.1, h1.2⟩

theorem mem_aset_of_ne {κ α : Type} [DecidableEq κ] {l : List (κ × α)} {k : κ} (a : α)
    {p : κ × α} (h : p ∈ l) (hne : p.1 ≠ k) : p ∈ aset l k a := by
  induction l with
  | nil => cases h
  | cons q l ih =>
    obtain ⟨q1, q2⟩ := q
    rw [aset]
    by_cases hk : k = q1
    · rw [if_pos hk]
      rcases List.mem_cons.mp h with rfl | hmem
      · exact absurd hk.symm hne
      · exact List.mem_cons_of_mem _ hmem
    · rw [if_neg hk]
      rcases List.mem_cons.mp h with rfl | hmem
      · exact List.mem_cons_self _ _
      · exact List.mem_cons_of_mem _ (ih hmem)

theorem mem_aset_self {κ α : Type} [DecidableEq κ] (l : List (κ × α)) (k : κ) (a : α) :
    (k, a) ∈ aset l k a := by
  induction l with
  | nil => simp [aset]
  | cons q l ih =>
    obtain ⟨q1, q2⟩ := q
    rw [aset]
    by_cases hk : k = q1
    · rw [if_pos hk]
      exact List.mem_cons_self _ _
    · rw [if_neg hk]
      exact List.mem_cons_of_mem _ ih

/-! ## The pushed worklist entries of a prune -/

theorem mem_pushList {g : FunctionGraph} {p : Nat} {w : Nat} {c : Client} :
    (w, c) ∈ pushList g p ↔ ∃ k, c = (NodeRef.node p, k) ∧ lget (nodeInputs g p) k = some w := by
  rw [pushList, List.mem_reverse, List.mem_map]
  constructor
  · rintro ⟨⟨i, v⟩, hmem, heq⟩
    injection heq with h1 h2
    subst h1
    rw [zidx_mem] at hmem
    exact ⟨i, h2.symm, by simpa using hmem.2⟩
  · rintro ⟨k, rfl, hget⟩
    refine ⟨(k, w), ?_, rfl⟩
    rw [zidx_mem]
    exact ⟨Nat.zero_le k, by simpa using hget⟩

/-! ## Transport of the invariant across client-neutral updates -/

theorem ForwardEdge_congr {g g' : FunctionGraph} (h2 : g'.outputs = g.outputs)
    (h3 : g'.nodeIn = g.nodeIn) (v : Nat) (c : Client) :
    ForwardEdge g' v c ↔ ForwardEdge g v c := by
  obtain ⟨r, i⟩ := c
  cases r with
  | output => rw [ForwardEdge, ForwardEdge, h2]
  | node n => rw [ForwardEdge, ForwardEdge, nodeInputs, nodeInputs, h3]

theorem LoopInv_transport {g g' : FunctionGraph} {P : List Client}
    {S : List (Nat × Client)} (hc : g'.clients = g.clients) (ho : g'.outputs = g.outputs)
    (hn : g'.nodeIn = g.nodeIn) (ha : g'.apply_nodes = g.apply_nodes)
    (hv : g'.vars = g.vars) (h : LoopInv g P S) : LoopInv g' P S := by
  refine ⟨?_, ?_, ?_, ?_, ?_, ?_, ?_, ?_, ?_, ?_⟩
  · intro p hp c hcmem
    rw [hc] at hp
    rcases h.sound p hp c hcmem with h1 | h1
    · exact Or.inl ((ForwardEdge_congr ho hn p.1 c).mpr h1)
    · exact Or.inr h1
  · intro n hn2 i v hg
    rw [ha] at hn2
    rw [show nodeInputs g' n = nodeInputs g n from by rw [nodeInputs, nodeInputs, hn]] at hg
    rcases h.complete n hn2 i v hg with h1 | ⟨cs, hcs, hmem⟩
    · exact Or.inl h1
    · exact Or.inr ⟨cs, by rw [hc]; exact hcs, hmem⟩
  · intro i v hg
    rw [ho] at hg
    rcases h.outComplete i v hg with h1 | ⟨cs, hcs, hmem⟩
    · exact Or.inl h1
    · exact Or.inr ⟨cs, by rw [hc]; exact hcs, hmem⟩
  · intro p hp
    rw [hc] at hp
    exact h.csNodup p hp
  · rw [hc]
    exact h.keysNodup
  · rw [ha]
    exact h.nodesNodup
  · rw [hv]
    exact h.varsNodup
  · intro v hvm
    rw [hv] at hvm
    rw [hc]
    exact h.varsTracked v hvm
  · intro p hp c hcmem m j hcj
    rw [hc] at hp
    rcases h.stale p hp c hcmem m j hcj with h1 | h1
    · exact Or.inl (by rw [ha]; exact h1)
    · exact Or.inr h1
  · intro c hcP p hp hcm
    rw [hc] at hp
    rw [ForwardEdge_congr ho hn]
    exact h.fresh c hcP p hp hcm

/-! ## Invariant preservation by the tracking primitives -/

theorem mem_insert_mid {α : Type} {a c : α} {P1 P2 : List α} (h : a ∈ P1 ++ P2) :
    a ∈ P1 ++ c :: P2 := by
  rcases List.mem_append.mp h with h1 | h1
  · exact List.mem_append_left _ h1
  · exact List.mem_append_right _ (List.mem_cons_of_mem _ h1)

theorem mem_remove_mid {α : Type} {a c : α} {P1 P2 : List α} (h : a ∈ P1 ++ c :: P2)
    (hne : a ≠ c) : a ∈ P1 ++ P2 := by
  rcases List.mem_append.mp h with h1 | h1
  · exact List.mem_append_left _ h1
  · rcases List.mem_cons.mp h1 with h2 | h2
    · exact absurd h2 hne
    · exact List.mem_append_right _ h2

theorem forwardEdge_node {g : FunctionGraph} {n i v : Nat} :
    ForwardEdge g v (NodeRef.node n, i) ↔ lget (nodeInputs g n) i = some v := Iff.rfl

theorem forwardEdge_output {g : FunctionGraph} {i v : Nat} :
    ForwardEdge g v (NodeRef.output, i) ↔ lget g.outputs i = some v := Iff.rfl

theorem setup_var_eq_some {g : FunctionGraph} {v : Nat} {cs : List Client}
    (hl : alookup g.clients v = some cs) : setup_var g v = g := by
  rw [setup_var, hl]

theorem setup_var_eq_none {g : FunctionGraph} {v : Nat}
    (hl : alookup g.clients v = none) :
    setup_var g v = { g with clients := g.clients ++ [(v, [])] } := by
  rw [setup_var, hl]

theorem mem_akeys_setup_var (g : FunctionGraph) (v : Nat) :
    v ∈ akeys (setup_var g v).clients := by
  rcases hl : alookup g.clients v with _ | cs
  · rw [setup_var_eq_none hl]
    show v ∈ akeys (g.clients ++ [(v, [])])
    rw [akeys_append]
    exact List.mem_append_right _ (List.mem_singleton.mpr rfl)
  · rw [setup_var_eq_some hl]
    rw [← alookup_isSome_iff, hl]
    rfl

theorem LoopInv_setup_var {g : FunctionGraph} {P : List Client} {S : List (Nat × Client)}
    (v : Nat) (h : LoopInv g P S) : LoopInv (setup_var g v) P S := by
  rcases hl : alookup g.clients v with _ | cs0
  swap
  · rw [setup_var_eq_some hl]
    exact h
  rw [setup_var_eq_none hl]
  have hnk : v ∉ akeys g.clients := (alookup_none_iff _ _).mp hl
  refine ⟨?_, ?_, ?_, ?_, ?_, ?_, ?_, ?_, ?_, ?_⟩
  · intro p hp c hc
    rcases List.mem_append.mp hp with hp1 | hp1
    · exact h.sound p hp1 c hc
    · rcases List.mem_singleton.mp hp1 with rfl
      cases hc
  · intro n hn i w hg
    rcases h.complete n hn i w hg with h1 | ⟨cs, hcs, hm⟩
    · exact Or.inl h1
    · exact Or.inr ⟨cs, alookup_append_of_some _ hcs, hm⟩
  · intro i w hg
    rcases h.outComplete i w hg with h1 | ⟨cs, hcs, hm⟩
    · exact Or.inl h1
    · exact Or.inr ⟨cs, alookup_append_of_some _ hcs, hm⟩
  · intro p hp
    rcases List.mem_append.mp hp with hp1 | hp1
    · exact h.csNodup p hp1
    · rcases List.mem_singleton.mp hp1 with rfl
      exact List.nodup_nil
  · show (akeys (g.clients ++ [(v, [])])).Nodup
    rw [akeys_append]
    refine List.Nodup.append h.keysNodup (List.nodup_singleton v) ?_
    intro a ha hb
    rcases List.mem_singleton.mp hb with rfl
    exact hnk ha
  · exact h.nodesNodup
  · exact h.varsNodup
  · intro w hw
    show w ∈ akeys (g.clients ++ [(v, [])])
    rw [akeys_append]
    exact List.mem_append_left _ (h.varsTracked w hw)
  · intro p hp c hc m j hcj
    rcases List.mem_append.mp hp with hp1 | hp1
    · exact h.stale p hp1 c hc m j hcj
    · rcases List.mem_singleton.mp hp1 with rfl
      cases hc
  · intro c hcP p hp hcm
    rcases List.mem_append.mp hp with hp1 | hp1
    · exact h.fresh c hcP p hp1 hcm
    · rcases List.mem_singleton.mp hp1 with rfl
      cases hcm

theorem LoopInv_varAdd {g : FunctionGraph} {P : List Client} {S : List (Nat × Client)}
    (v : Nat) (hv : v ∈ akeys g.clients) (h : LoopInv g P S) : LoopInv (varAdd g v) P S := by
  rw [varAdd]
  split
  · exact h
  · rename_i hmem
    refine ⟨h.sound, h.complete, h.outComplete, h.csNodup, h.keysNodup, h.nodesNodup,
      ?_, ?_, h.stale, h.fresh⟩
    · refine List.Nodup.append h.varsNodup (List.nodup_singleton v) ?_
      intro a ha hb
      rcases List.mem_singleton.mp hb with rfl
      exact hmem ha
    · intro w hw
      rcases List.mem_append.mp hw with hw1 | hw1
      · exact h.varsTracked w hw1
      · rcases List.mem_singleton.mp hw1 with rfl
        exact hv

theorem LoopInv_track {g : FunctionGraph} {P : List Client} {S : List (Nat × Client)}
    (v : Nat) (h : LoopInv g P S) : LoopInv (varAdd (setup_var g v) v) P S :=
  LoopInv_varAdd v (mem_akeys_setup_var g v) (LoopInv_setup_var v h)

theorem LoopInv_trackVar {g : FunctionGraph} {P : List Client} {S : List (Nat × Client)}
    (v : Nat) (h : LoopInv g P S) : LoopInv (trackVar g v) P S := by
  rw [trackVar]
  split
  · exact h
  · exact LoopInv_track v h

theorem LoopInv_add_input {g : FunctionGraph} {P : List Client} {S : List (Nat × Client)}
    (v : Nat) (chk : Bool) (h : LoopInv g P S) : LoopInv (add_input g v chk) P S := by
  rw [add_input]
  split
  · exact h
  · exact LoopInv_track v
      (@LoopInv_transport g { g with inputs := g.inputs ++ [v] } P S rfl rfl rfl rfl rfl h)

/-! ## The growth contract of the import family -/

theorem GrowOk_refl (g : FunctionGraph) : GrowOk g g :=
  ⟨rfl, rfl, fun _ hm => hm, fun _ hv => hv, fun _ cs h => ⟨cs, h, fun _ hc => hc⟩⟩

theorem GrowOk_trans {g1 g2 g3 : FunctionGraph} (h1 : GrowOk g1 g2) (h2 : GrowOk g2 g3) :
    GrowOk g1 g3 := by
  obtain ⟨a1, a2, a3, a4, a5⟩ := h1
  obtain ⟨b1, b2, b3, b4, b5⟩ := h2
  refine ⟨b1.trans a1, b2.trans a2, fun m hm => b3 m (a3 m hm), fun v hv => b4 v (a4 v hv), ?_⟩
  intro v cs h
  obtain ⟨cs1, hcs1, hsub1⟩ := a5 v cs h
  obtain ⟨cs2, hcs2, hsub2⟩ := b5 v cs1 hcs1
  exact ⟨cs2, hcs2, fun c hc => hsub2 c (hsub1 c hc)⟩

theorem GrowOk_setup_var (g : FunctionGraph) (v : Nat) : GrowOk g (setup_var g v) := by
  rcases hl : alookup g.clients v with _ | cs
  · rw [setup_var_eq_none hl]
    exact ⟨rfl, rfl, fun _ hm => hm, fun _ hw => hw,
      fun _ cs' h => ⟨cs', alookup_append_of_some _ h, fun _ hc => hc⟩⟩
  · rw [setup_var_eq_some hl]
    exact GrowOk_refl g

theorem GrowOk_varAdd (g : FunctionGraph) (v : Nat) : GrowOk g (varAdd g v) := by
  refine ⟨by simp, by simp, fun m hm => by simpa using hm,
    fun w hw => mem_varAdd_of_mem g v w hw, ?_⟩
  intro w cs h
  exact ⟨cs, by simpa using h, fun _ hc => hc⟩

theorem GrowOk_track (g : FunctionGraph) (v : Nat) :
    GrowOk g (varAdd (setup_var g v) v) :=
  GrowOk_trans (GrowOk_setup_var g v) (GrowOk_varAdd (setup_var g v) v)

theorem GrowOk_trackVar (g : FunctionGraph) (v : Nat) : GrowOk g (trackVar g v) := by
  rw [trackVar]
  split
  · exact GrowOk_refl g
  · exact GrowOk_track g v

theorem GrowOk_add_input (g : FunctionGraph) (v : Nat) (chk : Bool) :
    GrowOk g (add_input g v chk) := by
  rw [add_input]
  split
  · exact GrowOk_refl g
  · exact GrowOk_trans
      (show GrowOk g { g with inputs := g.inputs ++ [v] } from
        ⟨rfl, rfl, fun _ hm => hm, fun _ hw => hw, fun _ cs h => ⟨cs, h, fun _ hc => hc⟩⟩)
      (GrowOk_track { g with inputs := g.inputs ++ [v] } v)

theorem GrowOk_add_client {g g' : FunctionGraph} {v : Nat} {c : Client}
    (h : add_client g v c = .ok g') : GrowOk g g' := by
  obtain ⟨cs, hcs, rfl⟩ := add_client_ok h
  refine ⟨rfl, rfl, fun _ hm => hm, fun _ hw => hw, ?_⟩
  intro w cs' h'
  by_cases hw : w = v
  · subst hw
    rw [hcs] at h'
    injection h' with h'
    subst h'
    refine ⟨cs ++ [c], ?_, fun x hx => List.mem_append_left _ hx⟩
    show alookup (aset g.clients w (cs ++ [c])) w = some (cs ++ [c])
    exact alookup_aset_self g.clients w (cs ++ [c])
  · refine ⟨cs', ?_, fun _ hc => hc⟩
    show alookup (aset g.clients v (cs ++ [c])) w = some cs'
    rw [alookup_aset_ne _ _ _ _ hw]
    exact h'

theorem GrowOk_execCB (g : FunctionGraph) (e : Event) : GrowOk g (execCB g e) :=
  ⟨rfl, rfl, fun _ hm => hm, fun _ hw => hw, fun _ cs h => ⟨cs, h, fun _ hc => hc⟩⟩

theorem PendOk_mono {g g' : FunctionGraph} {P : List Client} (h : PendOk g P)
    (hm : ∀ m ∈ g.apply_nodes, m ∈ g'.apply_nodes) : PendOk g' P :=
  fun m j hmj => hm m (h m j hmj)

theorem StackNodes_mono {g g' : FunctionGraph} {S : List (Nat × Client)} (h : StackNodes g S)
    (hm : ∀ m ∈ g.apply_nodes, m ∈ g'.apply_nodes) : StackNodes g' S :=
  fun w m j hmj => hm m (h w m j hmj)

/-- Appending the back-edge of a pending slot to the clients list of the
slot's current value discharges the pending entry and preserves the
invariant. -/
theorem LoopInv_addPending {g : FunctionGraph} {P1 P2 : List Client}
    {S : List (Nat × Client)} {v : Nat} {c : Client} {cs : List Client}
    (h : LoopInv g (P1 ++ c :: P2) S)
    (hcs : alookup g.clients v = some cs)
    (hedge : ForwardEdge g v c)
    (hst : ∀ m j, c = (NodeRef.node m, j) → m ∈ g.apply_nodes)
    (hcP : c ∉ P1 ++ P2) :
    LoopInv { g with clients := aset g.clients v (cs ++ [c]) } (P1 ++ P2) S := by
  have hkv : v ∈ akeys g.clients := by
    rw [← alookup_isSome_iff, hcs]
    rfl
  have hmemv : (v, cs) ∈ g.clients := alookup_mem hcs
  have hcmid : c ∈ P1 ++ c :: P2 := List.mem_append_right _ (List.mem_cons_self _ _)
  have hcnotcs : c ∉ cs := fun hmem => h.fresh c hcmid (v, cs) hmemv hmem hedge
  have hec : ∀ w c', ForwardEdge { g with clients := aset g.clients v (cs ++ [c]) } w c' ↔
      ForwardEdge g w c' := fun w c' => ForwardEdge_congr rfl rfl w c'
  refine ⟨?_, ?_, ?_, ?_, ?_, ?_, ?_, ?_, ?_, ?_⟩
  · intro p hp c' hc'
    rcases mem_aset_nodup h.keysNodup hp with rfl | ⟨hpm, _⟩
    · rcases List.mem_append.mp hc' with hin | hin
      · rcases h.sound (v, cs) hmemv c' hin with h1 | h1
        · exact Or.inl ((hec _ _).mpr h1)
        · exact Or.inr h1
      · rcases List.mem_singleton.mp hin with rfl
        exact Or.inl ((hec _ _).mpr hedge)
    · rcases h.sound p hpm c' hc' with h1 | h1
      · exact Or.inl ((hec _ _).mpr h1)
      · exact Or.inr h1
  · intro n hn i w hg
    rcases h.complete n hn i w hg with hpend | ⟨cs', hcs', hm⟩
    · by_cases hceq : (NodeRef.node n, i) = c
      · have hlg : lget (nodeInputs g n) i = some v := by
          rw [← forwardEdge_node]
          rw [hceq]
          exact hedge
      -- the slot holds w and v at once
        have hwv : w = v := by
          have h2 : some w = some v := hg.symm.trans hlg
          injection h2
        subst hwv
        refine Or.inr ⟨cs ++ [c], ?_, ?_⟩
        · show alookup (aset g.clients w (cs ++ [c])) w = some (cs ++ [c])
          exact alookup_aset_self _ _ _
        · rw [← hceq] at hcnotcs ⊢
          exact List.mem_append_right _ (List.mem_singleton.mpr rfl)
      · exact Or.inl (mem_remove_mid hpend hceq)
    · by_cases hwv : w = v
      · subst hwv
        rw [hcs] at hcs'
        injection hcs' with hcs'
        subst hcs'
        refine Or.inr ⟨cs ++ [c], ?_, List.mem_append_left _ hm⟩
        show alookup (aset g.clients w (cs ++ [c])) w = some (cs ++ [c])
        exact alookup_aset_self _ _ _
      · refine Or.inr ⟨cs', ?_, hm⟩
        show alookup (aset g.clients v (cs ++ [c])) w = some cs'
        rw [alookup_aset_ne _ _ _ _ hwv]
        exact hcs'
  · intro i w hg
    rcases h.outComplete i w hg with hpend | ⟨cs', hcs', hm⟩
    · by_cases hceq : ((NodeRef.output, i) : Client) = c
      · have hlg : lget g.outputs i = some v := by
          rw [← forwardEdge_output]
          rw [hceq]
          exact hedge
        have hwv : w = v := by
          have h2 : some w = some v := hg.symm.trans hlg
          injection h2
        subst hwv
        refine Or.inr ⟨cs ++ [c], ?_, ?_⟩
        · show alookup (aset g.clients w (cs ++ [c])) w = some (cs ++ [c])
          exact alookup_aset_self _ _ _
        · rw [← hceq] at hcnotcs ⊢
          exact List.mem_append_right _ (List.mem_singleton.mpr rfl)
      · exact Or.inl (mem_remove_mid hpend hceq)
    · by_cases hwv : w = v
      · subst hwv
        rw [hcs] at hcs'
        injection hcs' with hcs'
        subst hcs'
        refine Or.inr ⟨cs ++ [c], ?_, List.mem_append_left _ hm⟩
        show alookup (aset g.clients w (cs ++ [c])) w = some (cs ++ [c])
        exact alookup_aset_self _ _ _
      · refine Or.inr ⟨cs', ?_, hm⟩
        show alookup (aset g.clients v (cs ++ [c])) w = some cs'
        rw [alookup_aset_ne _ _ _ _ hwv]
        exact hcs'
  · intro p hp
    rcases mem_aset_nodup h.keysNodup hp with rfl | ⟨hpm, _⟩
    · refine List.Nodup.append (h.csNodup (v, cs) hmemv) (List.nodup_singleton c) ?_
      intro a ha hb
      rcases List.mem_singleton.mp hb with rfl
      exact hcnotcs ha
    · exact h.csNodup p hpm
  · show (akeys (aset g.clients v (cs ++ [c]))).Nodup
    rw [akeys_aset_of_mem _ hkv]
    exact h.keysNodup
  · exact h.nodesNodup
  · exact h.varsNodup
  · intro w hw
    show w ∈ akeys (aset g.clients v (cs ++ [c]))
    rw [akeys_aset_of_mem _ hkv]
    exact h.varsTracked w hw
  · intro p hp c' hc' m j hcj
    rcases mem_aset_nodup h.keysNodup hp with rfl | ⟨hpm, _⟩
    · rcases List.mem_append.mp hc' with hin | hin
      · exact h.stale (v, cs) hmemv c' hin m j hcj
      · rcases List.mem_singleton.mp hin with rfl
        exact Or.inl (hst m j hcj)
    · exact h.stale p hpm c' hc' m j hcj
  · intro c' hc'P p hp hcm
    rw [hec]
    rcases mem_aset_nodup h.keysNodup hp with rfl | ⟨hpm, _⟩
    · rcases List.mem_append.mp hcm with hin | hin
      · exact h.fresh c' (mem_insert_mid hc'P) (v, cs) hmemv hin
      · rcases List.mem_singleton.mp hin with rfl
        exact absurd hc'P hcP
    · exact h.fresh c' (mem_insert_mid hc'P) p hpm hcm

/-! ## Invariance of the import family -/

theorem zidx_idx {α : Type} {l : List α} {iv : Nat × α} (h : iv ∈ zidx 0 l) :
    lget l iv.1 = some iv.2 := by
  obtain ⟨i, a⟩ := iv
  have h2 := ((zidx_mem l 0 i a).mp h).2
  simpa using h2

theorem zidx_fst_lo {α : Type} (l : List α) (j : Nat) (iv : Nat × α) (h : iv ∈ zidx j l) :
    j ≤ iv.1 := by
  obtain ⟨i, a⟩ := iv
  exact ((zidx_mem l j i a).mp h).1

theorem zidx_fst_nodup {α : Type} : ∀ (j : Nat) (l : List α), ((zidx j l).map Prod.fst).Nodup
  | _, [] => List.nodup_nil
  | j, a :: l => by
    rw [zidx, List.map_cons, List.nodup_cons]
    refine ⟨?_, zidx_fst_nodup (j + 1) l⟩
    intro hmem
    obtain ⟨iv, hiv, heq⟩ := List.mem_map.mp hmem
    have hlo := zidx_fst_lo l (j + 1) iv hiv
    omega

theorem LoopInv_execCB {g : FunctionGraph} {P : List Client} {S : List (Nat × Client)}
    (e : Event) (h : LoopInv g P S) : LoopInv (execCB g e) P S :=
  @LoopInv_transport g (execCB g e) P S rfl rfl rfl rfl rfl h

/-- Registering a fresh node: the invariant survives with one new pending
back-edge per input slot of the node. -/
theorem LoopInv_applyAppend {g : FunctionGraph} {P : List Client} {S : List (Nat × Client)}
    (n : Nat) (h : LoopInv g P S) (hn : n ∉ g.apply_nodes) (hS : StackNodes g S) :
    LoopInv { g with apply_nodes := g.apply_nodes ++ [n] }
      (P ++ (zidx 0 (nodeInputs g n)).map (fun iv => (NodeRef.node n, iv.1))) S := by
  refine ⟨?_, ?_, ?_, h.csNodup, h.keysNodup, ?_, h.varsNodup, h.varsTracked, ?_, ?_⟩
  · intro p hp c hc
    exact h.sound p hp c hc
  · intro m hm i w hg
    rcases List.mem_append.mp hm with hm1 | hm1
    · rcases h.complete m hm1 i w hg with h1 | h1
      · exact Or.inl (List.mem_append_left _ h1)
      · exact Or.inr h1
    · rcases List.mem_singleton.mp hm1 with rfl
      refine Or.inl (List.mem_append_right _ ?_)
      refine List.mem_map.mpr ⟨(i, w), ?_, rfl⟩
      rw [zidx_mem]
      exact ⟨Nat.zero_le i, by simpa using hg⟩
  · intro i w hg
    rcases h.outComplete i w hg with h1 | h1
    · exact Or.inl (List.mem_append_left _ h1)
    · exact Or.inr h1
  · refine List.Nodup.append h.nodesNodup (List.nodup_singleton n) ?_
    intro a ha hb
    rcases List.mem_singleton.mp hb with rfl
    exact hn ha
  · intro p hp c hc m j hcj
    rcases h.stale p hp c hc m j hcj with h1 | h1
    · exact Or.inl (List.mem_append_left _ h1)
    · exact Or.inr h1
  · intro c' hc'P p hp hcm
    rcases List.mem_append.mp hc'P with h1 | h1
    · exact h.fresh c' h1 p hp hcm
    · obtain ⟨iv, hiv, heq⟩ := List.mem_map.mp h1
      exfalso
      rcases h.stale p hp c' hcm n iv.1 heq.symm with h2 | h2
      · exact hn h2
      · exact hn (hS p.1 n iv.1 (heq ▸ h2))

theorem LoopInv_foldSetup {P : List Client} {S : List (Nat × Client)} :
    ∀ (os : List Nat) (g : FunctionGraph), LoopInv g P S →
      LoopInv (os.foldl (fun g o => varAdd (setup_var g o) o) g) P S
  | [], _, h => h
  | o :: os, g, h => LoopInv_foldSetup os _ (LoopInv_track o h)

theorem GrowOk_foldSetup :
    ∀ (os : List Nat) (g : FunctionGraph),
      GrowOk g (os.foldl (fun g o => varAdd (setup_var g o) o) g)
  | [], g => GrowOk_refl g
  | o :: os, g => GrowOk_trans (GrowOk_track g o) (GrowOk_foldSetup os _)

theorem GrowOk_importReg (E : Env) (g : FunctionGraph) (n : Nat) :
    GrowOk g (importReg E g n) := by
  rw [importReg]
  refine GrowOk_trans ?_ (GrowOk_foldSetup _ _)
  exact ⟨rfl, rfl, fun m hm => List.mem_append_left _ hm, fun _ hv => hv,
    fun _ cs h => ⟨cs, h, fun _ hc => hc⟩⟩

theorem mem_importReg_apply (E : Env) (g : FunctionGraph) (n : Nat) :
    n ∈ (importReg E g n).apply_nodes := by
  rw [importReg_apply_nodes]
  exact List.mem_append_right _ (List.mem_singleton.mpr rfl)

theorem LoopInv_importReg {g : FunctionGraph} {P : List Client} {S : List (Nat × Client)}
    (E : Env) (n : Nat) (h : LoopInv g P S) (hn : n ∉ g.apply_nodes) (hS : StackNodes g S) :
    LoopInv (importReg E g n)
      (P ++ (zidx 0 (nodeInputs g n)).map (fun iv => (NodeRef.node n, iv.1))) S := by
  rw [importReg]
  exact LoopInv_foldSetup _ _ (LoopInv_applyAppend n h hn hS)

/-- The client-appending loop of a node import discharges that node's pending
back-edges one slot at a time. -/
theorem addClientsLoop_inv :
    ∀ (ivs : List (Nat × Nat)) (g g' : FunctionGraph) (P : List Client)
      (S : List (Nat × Client)) (n : Nat),
      LoopInv g (P ++ ivs.map (fun iv => (NodeRef.node n, iv.1))) S →
      (∀ iv ∈ ivs, lget (nodeInputs g n) iv.1 = some iv.2) →
      (ivs.map Prod.fst).Nodup →
      (∀ k, (NodeRef.node n, k) ∉ P) →
      n ∈ g.apply_nodes →
      addClientsLoop g n ivs = .ok g' →
      LoopInv g' P S ∧ GrowOk g g'
  | [], g, g', P, S, n, h, _, _, _, _, hmain => by
    simp only [List.map_nil, List.append_nil] at h
    injection hmain with hmain
    subst hmain
    exact ⟨h, GrowOk_refl g⟩
  | (i, a) :: rest, g, g', P, S, n, h, hidx, hnd, hP, hn, hmain => by
    rw [addClientsLoop] at hmain
    rcases hac : add_client (trackVar g a) a (NodeRef.node n, i) with e | g2
    · rw [hac] at hmain
      cases hmain
    · rw [hac] at hmain
      obtain ⟨cs, hcs, hg2⟩ := add_client_ok hac
      simp only [List.map_cons] at h
      have h1 : LoopInv (trackVar g a)
          (P ++ ((NodeRef.node n, i) :: rest.map (fun iv => (NodeRef.node n, iv.1)))) S :=
        LoopInv_trackVar a h
      have hni : nodeInputs (trackVar g a) n = nodeInputs g n := by
        rw [nodeInputs, nodeInputs, trackVar_nodeIn]
      have hedge : ForwardEdge (trackVar g a) a (NodeRef.node n, i) := by
        rw [forwardEdge_node, hni]
        exact hidx (i, a) (List.mem_cons_self _ _)
      have hst : ∀ m j, ((NodeRef.node n, i) : Client) = (NodeRef.node m, j) →
          m ∈ (trackVar g a).apply_nodes := by
        intro m j heq
        have h2 : NodeRef.node n = NodeRef.node m := congrArg Prod.fst heq
        injection h2 with h2
        subst h2
        rw [trackVar_apply_nodes]
        exact hn
      simp only [List.map_cons, List.nodup_cons] at hnd
      have hcP : ((NodeRef.node n, i) : Client) ∉
          P ++ rest.map (fun iv => (NodeRef.node n, iv.1)) := by
        intro hmem
        rcases List.mem_append.mp hmem with h2 | h2
        · exact hP i h2
        · obtain ⟨iv, hiv, heq⟩ := List.mem_map.mp h2
          have hfst : iv.1 = i := by
            have h3 := congrArg Prod.snd heq
            simpa using h3
          have h4 : iv.1 ∈ rest.map Prod.fst := List.mem_map_of_mem Prod.fst hiv
          rw [hfst] at h4
          exact hnd.1 h4
      have h2 : LoopInv g2 (P ++ rest.map (fun iv => (NodeRef.node n, iv.1))) S := by
        rw [hg2]
        exact LoopInv_addPending h1 hcs hedge hst hcP
      have hnodeIn2 : g2.nodeIn = g.nodeIn := by
        rw [hg2]
        show (trackVar g a).nodeIn = g.nodeIn
        rw [trackVar_nodeIn]
      have hidx2 : ∀ iv ∈ rest, lget (nodeInputs g2 n) iv.1 = some iv.2 := by
        intro iv hiv
        rw [nodeInputs, hnodeIn2, ← nodeInputs]
        exact hidx iv (List.mem_cons_of_mem _ hiv)
      have hn2 : n ∈ g2.apply_nodes := by
        rw [hg2]
        show n ∈ (trackVar g a).apply_nodes
        rw [trackVar_apply_nodes]
        exact hn
      obtain ⟨hout1, hout2⟩ := addClientsLoop_inv rest g2 g' P S n h2 hidx2 hnd.2 hP hn2 hmain
      refine ⟨hout1, GrowOk_trans (GrowOk_trackVar g a) (GrowOk_trans ?_ hout2)⟩
      exact GrowOk_add_client hac

theorem importOneNode_inv {E : Env} {g g' : FunctionGraph} {P : List Client}
    {S : List (Nat × Client)} {n : Nat}
    (h : LoopInv g P S) (hP : PendOk g P) (hS : StackNodes g S)
    (hmain : importOneNode E g n = .ok g') :
    LoopInv g' P S ∧ GrowOk g g' := by
  rw [importOneNode] at hmain
  by_cases h1 : n ∈ g.apply_nodes
  · rw [if_pos h1] at hmain
    cases hmain
  · rw [if_neg h1] at hmain
    by_cases h2 : E.badOp n
    · rw [if_pos h2] at hmain
      cases hmain
    · rw [if_neg h2] at hmain
      rcases hal : addClientsLoop (importReg E g n) n
          (zidx 0 (nodeInputs (importReg E g n) n)) with e | g2
      · rw [hal] at hmain
        cases hmain
      · rw [hal] at hmain
        injection hmain with hmain
        subst hmain
        have hnin : nodeInputs (importReg E g n) n = nodeInputs g n := by
          rw [nodeInputs, nodeInputs, importReg_nodeIn]
        have hreg : LoopInv (importReg E g n)
            (P ++ (zidx 0 (nodeInputs (importReg E g n) n)).map
              (fun iv => (NodeRef.node n, iv.1))) S := by
          rw [hnin]
          exact LoopInv_importReg E n h h1 hS
        have hidx : ∀ iv ∈ zidx 0 (nodeInputs (importReg E g n) n),
            lget (nodeInputs (importReg E g n) n) iv.1 = some iv.2 :=
          fun iv hiv => zidx_idx hiv
        have hP2 : ∀ k, (NodeRef.node n, k) ∉ P :=
          fun k hk => h1 (hP n k hk)
        obtain ⟨hinv, hgrow⟩ := addClientsLoop_inv _ _ _ P S n hreg hidx
          (zidx_fst_nodup 0 _) hP2 (mem_importReg_apply E g n) hal
        exact ⟨LoopInv_execCB _ hinv,
          GrowOk_trans (GrowOk_importReg E g n) (GrowOk_trans hgrow (GrowOk_execCB g2 _))⟩

theorem importNodesLoop_inv (E : Env) :
    ∀ (ns : List Nat) (g g' : FunctionGraph) (P : List Client) (S : List (Nat × Client)),
      LoopInv g P S → PendOk g P → StackNodes g S →
      importNodesLoop E g ns = .ok g' →
      LoopInv g' P S ∧ GrowOk g g'
  | [], g, g', P, S, h, _, _, hmain => by
    injection hmain with hmain
    subst hmain
    exact ⟨h, GrowOk_refl g⟩
  | m :: rest, g, g', P, S, h, hP, hS, hmain => by
    rw [importNodesLoop] at hmain
    rcases hon : importOneNode E g m with e | g1
    · rw [hon] at hmain
      cases hmain
    · rw [hon] at hmain
      obtain ⟨h1, hg1⟩ := importOneNode_inv h hP hS hon
      obtain ⟨h2, hg2⟩ := importNodesLoop_inv E rest g1 g' P S h1
        (PendOk_mono hP hg1.2.2.1) (StackNodes_mono hS hg1.2.2.1) hmain
      exact ⟨h2, GrowOk_trans hg1 hg2⟩

theorem checkNodeInputs_inv (E : Env) (im : Bool) :
    ∀ (vs : List Nat) (g g' : FunctionGraph) (P : List Client) (S : List (Nat × Client)),
      LoopInv g P S → checkNodeInputs E im g vs = .ok g' →
      LoopInv g' P S ∧ GrowOk g g'
  | [], g, g', P, S, h, hmain => by
    injection hmain with hmain
    subst hmain
    exact ⟨h, GrowOk_refl g⟩
  | v :: rest, g, g', P, S, h, hmain => by
    rw [checkNodeInputs] at hmain
    split at hmain
    · split at hmain
      · obtain ⟨h1, h2⟩ := checkNodeInputs_inv E im rest (add_input g v true) g' P S
          (LoopInv_add_input v true h) hmain
        exact ⟨h1, GrowOk_trans (GrowOk_add_input g v true) h2⟩
      · cases hmain
    · exact checkNodeInputs_inv E im rest g g' P S h hmain

theorem importCheck_inv (E : Env) (im : Bool) :
    ∀ (ns : List Nat) (g g' : FunctionGraph) (P : List Client) (S : List (Nat × Client)),
      LoopInv g P S → importCheck E im g ns = .ok g' →
      LoopInv g' P S ∧ GrowOk g g'
  | [], g, g', P, S, h, hmain => by
    injection hmain with hmain
    subst hmain
    exact ⟨h, GrowOk_refl g⟩
  | m :: rest, g, g', P, S, h, hmain => by
    rw [importCheck] at hmain
    rcases hc : checkNodeInputs E im g (nodeInputs g m) with e | g1
    · rw [hc] at hmain
      cases hmain
    · rw [hc] at hmain
      obtain ⟨h1, hg1⟩ := checkNodeInputs_inv E im _ g g1 P S h hc
      obtain ⟨h2, hg2⟩ := importCheck_inv E im rest g1 g' P S h1 hmain
      exact ⟨h2, GrowOk_trans hg1 hg2⟩

theorem importNode_inv {E : Env} {g g' : FunctionGraph} {n : Nat} {check im : Bool}
    {P : List Client} {S : List (Nat × Client)}
    (h : LoopInv g P S) (hP : PendOk g P) (hS : StackNodes g S)
    (hmain : importNode E g n check im = .ok g') :
    LoopInv g' P S ∧ GrowOk g g' := by
  rw [importNode] at hmain
  rcases hchk : (if check then importCheck E im g (ioToposort E g (E.nodeOut n)) else .ok g)
    with e | g1
  · rw [hchk] at hmain
    cases hmain
  · rw [hchk] at hmain
    have hg1 : LoopInv g1 P S ∧ GrowOk g g1 := by
      cases check with
      | false =>
        injection hchk with hchk
        subst hchk
        exact ⟨h, GrowOk_refl g⟩
      | true =>
        rw [if_pos rfl] at hchk
        exact importCheck_inv E im _ g g1 P S h hchk
    obtain ⟨h2, hg2⟩ := importNodesLoop_inv E _ g1 g' P S hg1.1
      (PendOk_mono hP hg1.2.2.2.1) (StackNodes_mono hS hg1.2.2.2.1) hmain
    exact ⟨h2, GrowOk_trans hg1.2 hg2⟩

theorem importVarCore_inv {E : Env} {g g' : FunctionGraph} {v : Nat} {im : Bool}
    {P : List Client} {S : List (Nat × Client)}
    (h : LoopInv g P S) (hP : PendOk g P) (hS : StackNodes g S)
    (hmain : importVarCore E g v im = .ok g') :
    LoopInv g' P S ∧ GrowOk g g' := by
  rcases ho : E.owner v with _ | n
  · simp only [importVarCore, ho] at hmain
    split at hmain
    · split at hmain
      · cases hmain
      · split at hmain
        · injection hmain with hmain
          subst hmain
          exact ⟨LoopInv_add_input v true h, GrowOk_add_input g v true⟩
        · cases hmain
    · injection hmain with hmain
      subst hmain
      exact ⟨h, GrowOk_refl g⟩
  · simp only [importVarCore, ho] at hmain
    split at hmain
    · injection hmain with hmain
      subst hmain
      exact ⟨h, GrowOk_refl g⟩
    · exact importNode_inv h hP hS hmain

theorem importVar_inv {E : Env} {g g' : FunctionGraph} {v : Nat} {im : Bool}
    {P : List Client} {S : List (Nat × Client)}
    (h : LoopInv g P S) (hP : PendOk g P) (hS : StackNodes g S)
    (hmain : importVar E g v im = .ok g') :
    LoopInv g' P S ∧ GrowOk g g' ∧ v ∈ g'.vars := by
  rw [importVar] at hmain
  rcases hc : importVarCore E g v im with e | g1
  · rw [hc] at hmain
    cases hmain
  · rw [hc] at hmain
    injection hmain with hmain
    subst hmain
    obtain ⟨h1, hg1⟩ := importVarCore_inv h hP hS hc
    exact ⟨LoopInv_track v h1, GrowOk_trans hg1 (GrowOk_track g1 v),
      mem_varAdd_vars _ v⟩

/-! ## Invariance of the remove_client worklist loop -/

/-- Popping the worklist head `(v, e)`: erasing `e` from `clients[v]` (or
doing nothing when the edge is already gone) re-establishes the invariant
for the remaining stack. -/
theorem LoopInv_eraseClient {g : FunctionGraph} {S : List (Nat × Client)} {v : Nat}
    {e : Client} {cs : List Client}
    (h : LoopInv g [] ((v, e) :: S)) (hok : StackOk g ((v, e) :: S))
    (hcs : alookup g.clients v = some cs) :
    LoopInv (eraseClient g v e cs) [] S ∧ StackOk (eraseClient g v e cs) S := by
  have hvcs : (v, cs) ∈ g.clients := alookup_mem hcs
  have csnd : cs.Nodup := h.csNodup (v, cs) hvcs
  have hkv : v ∈ akeys g.clients := by
    rw [← alookup_isSome_iff, hcs]
    rfl
  have hhead := hok (v, e) (List.mem_cons_self _ _)
  rw [eraseClient]
  by_cases hmem : e ∈ cs
  · rw [if_pos hmem]
    have hnotin : e ∉ lerase cs e := not_mem_lerase_self csnd
    constructor
    · refine ⟨?_, ?_, ?_, ?_, ?_, h.nodesNodup, h.varsNodup, ?_, ?_, ?_⟩
      · intro p hp c hc
        rcases mem_aset_nodup h.keysNodup hp with rfl | ⟨hpm, hpne⟩
        · have hcin : c ∈ cs := mem_of_mem_lerase hc
          rcases h.sound (v, cs) hvcs c hcin with h1 | h1
          · exact Or.inl h1
          · rcases List.mem_cons.mp h1 with h2 | h2
            · have hce : c = e := by
                have := congrArg Prod.snd h2
                simpa using this
              exact absurd (hce ▸ hc) hnotin
            · exact Or.inr h2
        · rcases h.sound p hpm c hc with h1 | h1
          · exact Or.inl h1
          · rcases List.mem_cons.mp h1 with h2 | h2
            · have : p.1 = v := by
                have := congrArg Prod.fst h2
                simpa using this
              exact absurd this hpne
            · exact Or.inr h2
      · intro n hn i w hg
        rcases h.complete n hn i w hg with h1 | ⟨cs', hcs', hm⟩
        · cases h1
        · by_cases hw : w = v
          · subst hw
            rw [hcs] at hcs'
            injection hcs' with hcs'
            subst hcs'
            refine Or.inr ⟨lerase cs e, ?_, ?_⟩
            · show alookup (aset g.clients w (lerase cs e)) w = some (lerase cs e)
              exact alookup_aset_self _ _ _
            · by_cases hce : ((NodeRef.node n, i) : Client) = e
              · exfalso
                rcases hhead.1 n i hce.symm with h2 | h2
                · exact h2 hn
                · exact h2 (show ForwardEdge g w e from hce ▸ hg)
              · exact mem_lerase_of_ne hce hm
          · refine Or.inr ⟨cs', ?_, hm⟩
            show alookup (aset g.clients v (lerase cs e)) w = some cs'
            rw [alookup_aset_ne _ _ _ _ hw]
            exact hcs'
      · intro i w hg
        rcases h.outComplete i w hg with h1 | ⟨cs', hcs', hm⟩
        · cases h1
        · by_cases hw : w = v
          · subst hw
            rw [hcs] at hcs'
            injection hcs' with hcs'
            subst hcs'
            refine Or.inr ⟨lerase cs e, ?_, ?_⟩
            · show alookup (aset g.clients w (lerase cs e)) w = some (lerase cs e)
              exact alookup_aset_self _ _ _
            · by_cases hce : ((NodeRef.output, i) : Client) = e
              · exfalso
                exact hhead.2 i hce.symm (show ForwardEdge g w e from hce ▸ hg)
              · exact mem_lerase_of_ne hce hm
          · refine Or.inr ⟨cs', ?_, hm⟩
            show alookup (aset g.clients v (lerase cs e)) w = some cs'
            rw [alookup_aset_ne _ _ _ _ hw]
            exact hcs'
      · intro p hp
        rcases mem_aset_nodup h.keysNodup hp with rfl | ⟨hpm, _⟩
        · exact lerase_nodup e csnd
        · exact h.csNodup p hpm
      · show (akeys (aset g.clients v (lerase cs e))).Nodup
        rw [akeys_aset_of_mem _ hkv]
        exact h.keysNodup
      · intro w hw
        show w ∈ akeys (aset g.clients v (lerase cs e))
        rw [akeys_aset_of_mem _ hkv]
        exact h.varsTracked w hw
      · intro p hp c hc m j hcj
        rcases mem_aset_nodup h.keysNodup hp with rfl | ⟨hpm, hpne⟩
        · have hcin : c ∈ cs := mem_of_mem_lerase hc
          rcases h.stale (v, cs) hvcs c hcin m j hcj with h1 | h1
          · exact Or.inl h1
          · rcases List.mem_cons.mp h1 with h2 | h2
            · have hce : c = e := by
                have := congrArg Prod.snd h2
                simpa using this
              exact absurd (hce ▸ hc) hnotin
            · exact Or.inr h2
        · rcases h.stale p hpm c hc m j hcj with h1 | h1
          · exact Or.inl h1
          · rcases List.mem_cons.mp h1 with h2 | h2
            · have : p.1 = v := by
                have := congrArg Prod.fst h2
                simpa using this
              exact absurd this hpne
            · exact Or.inr h2
      · intro c hc
        exact absurd hc (List.not_mem_nil c)
    · intro s hs
      exact hok s (List.mem_cons_of_mem _ hs)
  · rw [if_neg hmem]
    constructor
    · refine ⟨?_, ?_, ?_, h.csNodup, h.keysNodup, h.nodesNodup, h.varsNodup,
        h.varsTracked, ?_, ?_⟩
      · intro p hp c hc
        rcases h.sound p hp c hc with h1 | h1
        · exact Or.inl h1
        · rcases List.mem_cons.mp h1 with h2 | h2
          · exfalso
            have hp1 : p.1 = v := by
              have := congrArg Prod.fst h2
              simpa using this
            have hce : c = e := by
              have := congrArg Prod.snd h2
              simpa using this
            have hpp : (p.1, p.2) ∈ g.clients := by
              obtain ⟨p1, p2⟩ := p
              exact hp
            have hl : alookup g.clients p.1 = some p.2 := mem_alookup h.keysNodup hpp
            rw [hp1, hcs] at hl
            injection hl with hl
            rw [← hl] at hc
            exact hmem (hce ▸ hc)
          · exact Or.inr h2
      · intro n hn i w hg
        rcases h.complete n hn i w hg with h1 | h1
        · cases h1
        · exact Or.inr h1
      · intro i w hg
        rcases h.outComplete i w hg with h1 | h1
        · cases h1
        · exact Or.inr h1
      · intro p hp c hc m j hcj
        rcases h.stale p hp c hc m j hcj with h1 | h1
        · exact Or.inl h1
        · rcases List.mem_cons.mp h1 with h2 | h2
          · exfalso
            have hp1 : p.1 = v := by
              have := congrArg Prod.fst h2
              simpa using this
            have hce : c = e := by
              have := congrArg Prod.snd h2
              simpa using this
            have hpp : (p.1, p.2) ∈ g.clients := by
              obtain ⟨p1, p2⟩ := p
              exact hp
            have hl : alookup g.clients p.1 = some p.2 := mem_alookup h.keysNodup hpp
            rw [hp1, hcs] at hl
            injection hl with hl
            rw [← hl] at hc
            exact hmem (hce ▸ hc)
          · exact Or.inr h2
      · intro c hc
        exact absurd hc (List.not_mem_nil c)
    · intro s hs
      exact hok s (List.mem_cons_of_mem _ hs)

/-- Removing a clientless ownerless variable from `variables` preserves the
invariant. -/
theorem LoopInv_varsErase {g : FunctionGraph} {S : List (Nat × Client)} (v : Nat)
    (h : LoopInv g [] S) : LoopInv { g with vars := lerase g.vars v } [] S := by
  refine ⟨h.sound, h.complete, h.outComplete, h.csNodup, h.keysNodup, h.nodesNodup,
    lerase_nodup v h.varsNodup, ?_, h.stale, ?_⟩
  · intro w hw
    exact h.varsTracked w (mem_of_mem_lerase hw)
  · intro c hc
    exact absurd hc (List.not_mem_nil c)

/-- Pruning a node re-establishes the invariant: its stale back-edges are
exactly the worklist entries the prune pushes. -/
theorem LoopInv_pruneState {g : FunctionGraph} {S : List (Nat × Client)} (E : Env) (p : Nat)
    (h : LoopInv g [] S) (hok : StackOk g S) (hp : p ∈ g.apply_nodes) :
    LoopInv (pruneState E g p) [] (pushList (pruneState E g p) p ++ S) ∧
    StackOk (pruneState E g p) (pushList (pruneState E g p) p ++ S) := by
  constructor
  · refine ⟨?_, ?_, ?_, h.csNodup, h.keysNodup, ?_, ?_, ?_, ?_, ?_⟩
    · intro q hq c hc
      rcases h.sound q hq c hc with h1 | h1
      · exact Or.inl h1
      · exact Or.inr (List.mem_append_right _ h1)
    · intro m hm i w hg
      rcases h.complete m (mem_of_mem_lerase hm) i w hg with h1 | h1
      · cases h1
      · exact Or.inr h1
    · intro i w hg
      rcases h.outComplete i w hg with h1 | h1
      · cases h1
      · exact Or.inr h1
    · exact lerase_nodup p h.nodesNodup
    · exact List.Nodup.filter _ h.varsNodup
    · intro w hw
      exact h.varsTracked w (List.mem_filter.mp hw).1
    · intro q hq c hc m j hcj
      rcases h.stale q hq c hc m j hcj with h1 | h1
      · by_cases hmp : m = p
        · subst hmp
          rcases h.sound q hq c hc with h2 | h2
          · refine Or.inr (List.mem_append_left _ ?_)
            rw [hcj] at h2 ⊢
            exact mem_pushList.mpr ⟨j, rfl, h2⟩
          · exact Or.inr (List.mem_append_right _ h2)
        · exact Or.inl (mem_lerase_of_ne hmp h1)
      · exact Or.inr (List.mem_append_right _ h1)
    · intro c hc
      exact absurd hc (List.not_mem_nil c)
  · intro s hs
    rcases List.mem_append.mp hs with h1 | h1
    · obtain ⟨w, c⟩ := s
      obtain ⟨k, rfl, _⟩ := mem_pushList.mp h1
      constructor
      · intro m j heq
        have h2 : NodeRef.node p = NodeRef.node m := congrArg Prod.fst heq
        injection h2 with h2
        subst h2
        exact Or.inl (not_mem_lerase_self h.nodesNodup)
      · intro j heq
        have h2 : NodeRef.node p = NodeRef.output := congrArg Prod.fst heq
        exact NodeRef.noConfusion h2
    · have h2 := hok s h1
      constructor
      · intro m j heq
        rcases h2.1 m j heq with h3 | h3
        · exact Or.inl (fun hmem => h3 (mem_of_mem_lerase hmem))
        · exact Or.inr h3
      · exact h2.2

/-- The worklist loop of `remove_client` restores quiescent well-formedness
when it returns. -/
theorem removeClientLoop_inv (E : Env) :
    ∀ (fuel : Nat) (S : List (Nat × Client)) (g g' : FunctionGraph),
      LoopInv g [] S → StackOk g S →
      removeClientLoop E fuel g S = .ok g' → LoopInv g' [] []
  | fuel, [], g, g', h, _, hmain => by
    rw [removeClientLoop_nil] at hmain
    injection hmain with hmain
    subst hmain
    exact h
  | 0, (v, e) :: S, g, g', h, hok, hmain => by
    rw [removeClientLoop] at hmain
    cases hmain
  | fuel + 1, (v, e) :: S, g, g', h, hok, hmain => by
    rw [removeClientLoop] at hmain
    rcases hcs : alookup g.clients v with _ | cs
    · simp only [hcs] at hmain
      cases hmain
    · simp only [hcs] at hmain
      obtain ⟨h1, hok1⟩ := LoopInv_eraseClient h hok hcs
      split at hmain
      · exact removeClientLoop_inv E fuel S _ g' h1 hok1 hmain
      · rcases how : E.owner v with _ | pown
        · simp only [how] at hmain
          split at hmain
          · exact removeClientLoop_inv E fuel S _ g' (LoopInv_varsErase v h1) hok1 hmain
          · cases hmain
        · simp only [how] at hmain
          rcases hany : anyClientful (eraseClient g v e cs) (E.nodeOut pown) with err | b
          · simp only [hany] at hmain
            cases hmain
          · cases b
            · simp only [hany] at hmain
              split at hmain
              case isTrue hpm =>
                obtain ⟨h2, hok2⟩ := LoopInv_pruneState E pown h1 hok1 hpm
                exact removeClientLoop_inv E fuel _ _ g' h2 hok2 hmain
              case isFalse => cases hmain
            · simp only [hany] at hmain
              exact removeClientLoop_inv E fuel S _ g' h1 hok1 hmain

/-! ## change_input: the slot write and its pending back-edge -/

theorem forwardEdge_slot {g : FunctionGraph} {v : Nat} {ref : NodeRef} {i : Nat} :
    ForwardEdge g v (ref, i) ↔ slotGet g ref i = some v := by
  cases ref <;> rfl

theorem slotGet_congr {g g' : FunctionGraph} (hn : g'.nodeIn = g.nodeIn)
    (ho : g'.outputs = g.outputs) (ref : NodeRef) (i : Nat) :
    slotGet g' ref i = slotGet g ref i := by
  cases ref with
  | output => rw [slotGet, slotGet, ho]
  | node n => rw [slotGet, slotGet, nodeInputs, nodeInputs, hn]

theorem nodeInputs_slotSet_node_self {g : FunctionGraph} {n i newv : Nat} :
    nodeInputs (slotSet g (NodeRef.node n) i newv) n = (nodeInputs g n).set i newv := by
  rw [slotSet, nodeInputs]
  show (alookup (aset g.nodeIn n ((nodeInputs g n).set i newv)) n).getD [] = _
  rw [alookup_aset_self]
  rfl

theorem nodeInputs_slotSet_node_ne {g : FunctionGraph} {n m i newv : Nat} (hmn : m ≠ n) :
    nodeInputs (slotSet g (NodeRef.node n) i newv) m = nodeInputs g m := by
  rw [slotSet, nodeInputs, nodeInputs]
  show (alookup (aset g.nodeIn n ((nodeInputs g n).set i newv)) m).getD [] =
    (alookup g.nodeIn m).getD []
  rw [alookup_aset_ne _ _ _ _ hmn]

theorem slotGet_slotSet_self {g : FunctionGraph} {ref : NodeRef} {i r : Nat} (newv : Nat)
    (hr : slotGet g ref i = some r) :
    slotGet (slotSet g ref i newv) ref i = some newv := by
  cases ref with
  | output =>
    rw [slotGet] at hr
    rw [slotSet, slotGet]
    exact lget_set_self hr
  | node n =>
    rw [slotGet] at hr
    rw [slotGet, nodeInputs_slotSet_node_self]
    exact lget_set_self hr

theorem slotGet_slotSet_ne {g : FunctionGraph} {ref ref' : NodeRef} {i j : Nat}
    (newv : Nat) (hnej : ((ref', j) : Client) ≠ (ref, i)) :
    slotGet (slotSet g ref i newv) ref' j = slotGet g ref' j := by
  cases ref with
  | output =>
    cases ref' with
    | node m => rfl
    | output =>
      show lget ((g.outputs.set i newv)) j = lget g.outputs j
      apply lget_set_ne
      intro hji
      exact hnej (by rw [hji])
  | node n =>
    cases ref' with
    | output => rfl
    | node m =>
      show lget (nodeInputs (slotSet g (NodeRef.node n) i newv) m) j =
        lget (nodeInputs g m) j
      by_cases hmn : m = n
      · subst hmn
        rw [nodeInputs_slotSet_node_self]
        apply lget_set_ne
        intro hji
        exact hnej (by rw [hji])
      · rw [nodeInputs_slotSet_node_ne hmn]

/-- Writing `newv` into an occupied slot that held a different variable `r`
leaves the graph in the mid-`change_input` state: the new back-edge is
pending, the old entry is compensated by the one-element worklist. -/
theorem LoopInv_slotSet {g : FunctionGraph} {ref : NodeRef} {i r newv : Nat}
    (hwf : WF g) (hr : slotGet g ref i = some r) (hne : r ≠ newv) :
    LoopInv (slotSet g ref i newv) [(ref, i)] [(r, (ref, i))] := by
  have hsetslot : slotGet (slotSet g ref i newv) ref i = some newv :=
    slotGet_slotSet_self newv hr
  refine ⟨?_, ?_, ?_, ?_, ?_, ?_, ?_, ?_, ?_, ?_⟩
  · intro p hp c hc
    rw [slotSet_clients] at hp
    rcases hwf.sound p hp c hc with h1 | h1
    swap
    · cases h1
    obtain ⟨cr, j⟩ := c
    by_cases hcq : ((cr, j) : Client) = (ref, i)
    · rw [hcq] at h1 ⊢
      rw [forwardEdge_slot, hr] at h1
      injection h1 with h1
      subst h1
      exact Or.inr (List.mem_singleton.mpr rfl)
    · refine Or.inl ?_
      rw [forwardEdge_slot] at h1 ⊢
      rw [slotGet_slotSet_ne newv hcq]
      exact h1
  · intro n hn i' w hg
    rw [slotSet_apply_nodes] at hn
    by_cases hcq : ((NodeRef.node n, i') : Client) = (ref, i)
    · exact Or.inl (List.mem_singleton.mpr hcq)
    · rw [show lget (nodeInputs (slotSet g ref i newv) n) i' =
          slotGet (slotSet g ref i newv) (NodeRef.node n) i' from rfl] at hg
      rw [slotGet_slotSet_ne newv hcq] at hg
      rcases hwf.complete n hn i' w hg with h1 | h1
      · cases h1
      · rw [show (slotSet g ref i newv).clients = g.clients from slotSet_clients g ref i newv]
        exact Or.inr h1
  · intro i' w hg
    by_cases hcq : ((NodeRef.output, i') : Client) = (ref, i)
    · exact Or.inl (List.mem_singleton.mpr hcq)
    · rw [show lget (slotSet g ref i newv).outputs i' =
          slotGet (slotSet g ref i newv) NodeRef.output i' from rfl] at hg
      rw [slotGet_slotSet_ne newv hcq] at hg
      rcases hwf.outComplete i' w hg with h1 | h1
      · cases h1
      · rw [show (slotSet g ref i newv).clients = g.clients from slotSet_clients g ref i newv]
        exact Or.inr h1
  · intro p hp
    rw [slotSet_clients] at hp
    exact hwf.csNodup p hp
  · rw [show (slotSet g ref i newv).clients = g.clients from slotSet_clients g ref i newv]
    exact hwf.keysNodup
  · rw [slotSet_apply_nodes]
    exact hwf.nodesNodup
  · rw [slotSet_vars]
    exact hwf.varsNodup
  · intro w hw
    rw [slotSet_vars] at hw
    rw [show (slotSet g ref i newv).clients = g.clients from slotSet_clients g ref i newv]
    exact hwf.varsTracked w hw
  · intro p hp c hc m j hcj
    rw [slotSet_clients] at hp
    rcases hwf.stale p hp c hc m j hcj with h1 | h1
    · rw [slotSet_apply_nodes]
      exact Or.inl h1
    · cases h1
  · intro c hc p hp hcm
    rw [slotSet_clients] at hp
    rcases List.mem_singleton.mp hc with rfl
    intro hedge
    rw [forwardEdge_slot, hsetslot] at hedge
    injection hedge with hedge
    rcases hwf.sound p hp (ref, i) hcm with h1 | h1
    · rw [forwardEdge_slot, hr] at h1
      injection h1 with h1
      exact hne (h1.trans hedge.symm)
    · cases h1

/-- When the popped edge is present and other clients remain, `remove_client`
is a single erasure. -/
theorem remove_client_erase {E : Env} {g : FunctionGraph} {v : Nat} {e : Client}
    {cs : List Client} (hcs : alookup g.clients v = some cs) (hin : e ∈ cs)
    (hne : lerase cs e ≠ []) :
    remove_client E g v e = .ok { g with clients := aset g.clients v (lerase cs e) } := by
  rw [remove_client]
  rw [show 2 + pruneWeight g = pruneWeight g + 1 + 1 from by omega]
  rw [removeClientLoop]
  simp only [hcs]
  rw [if_pos ⟨hin, hne⟩]
  rw [eraseClient, if_pos hin]
  exact removeClientLoop_nil E _ _

/-- `change_input` on an in-graph slot: quiescent well-formedness is
restored, and when the old variable keeps another client no prune cascades —
every other entry of the old variable's clients list survives. -/
theorem change_input_master (E : Env) {g g' : FunctionGraph} {ref : NodeRef}
    {i newv : Nat} {im : Bool}
    (hwf : WF g) (href : ∀ m, ref = NodeRef.node m → m ∈ g.apply_nodes)
    (hmain : change_input E g ref i newv im = .ok g') :
    WF g' ∧
    ∀ r cs c0, slotGet g ref i = some r → alookup g.clients r = some cs →
      c0 ∈ cs → c0 ≠ (ref, i) →
      ∃ cs', alookup g'.clients r = some cs' ∧ ∀ c ∈ cs, c ≠ (ref, i) → c ∈ cs' := by
  rw [change_input] at hmain
  rcases hr : slotGet g ref i with _ | r0
  · simp only [hr] at hmain
    cases hmain
  · simp only [hr] at hmain
    split at hmain
    · cases hmain
    · split at hmain
      case isTrue heq =>
        injection hmain with hmain
        subst hmain
        have hself : slotSet g ref i newv = g := slotSet_self (heq ▸ hr)
        constructor
        · rw [hself]
          exact hwf
        · intro r cs c0 hr' hcs hc0 hc0ne
          rw [hself]
          exact ⟨cs, hcs, fun c hc _ => hc⟩
      case isFalse hne =>
        rcases himp : importVar E (slotSet g ref i newv) newv im with e2 | g2
        · simp only [himp] at hmain
          cases hmain
        · simp only [himp] at hmain
          rcases hadd : add_client g2 newv (ref, i) with e2 | g3
          · simp only [hadd] at hmain
            cases hmain
          · simp only [hadd] at hmain
            rcases hrem : remove_client E g3 r0 (ref, i) with e2 | g4
            · simp only [hrem] at hmain
              cases hmain
            · simp only [hrem] at hmain
              injection hmain with hmain
              subst hmain
              have hinv1 : LoopInv (slotSet g ref i newv) [(ref, i)] [(r0, (ref, i))] :=
                LoopInv_slotSet hwf hr hne
              have hP1 : PendOk (slotSet g ref i newv) [(ref, i)] := by
                intro m j hm
                have heq2 := List.mem_singleton.mp hm
                have h3 : ref = NodeRef.node m := (congrArg Prod.fst heq2).symm
                rw [slotSet_apply_nodes]
                exact href m h3
              have hS1 : StackNodes (slotSet g ref i newv) [(r0, (ref, i))] := by
                intro w m j hm
                have heq2 := List.mem_singleton.mp hm
                have h3 : ref = NodeRef.node m := by
                  have h4 := congrArg (fun q => (q.2).1) heq2
                  simpa using h4.symm
                rw [slotSet_apply_nodes]
                exact href m h3
              obtain ⟨hinv2, hgrow2, _⟩ := importVar_inv hinv1 hP1 hS1 himp
              obtain ⟨cs2, hcs2, hg3⟩ := add_client_ok hadd
              have hslot2 : slotGet g2 ref i = some newv := by
                rw [slotGet_congr hgrow2.1 hgrow2.2.1]
                exact slotGet_slotSet_self newv hr
              have hedge2 : ForwardEdge g2 newv (ref, i) := forwardEdge_slot.mpr hslot2
              have hst2 : ∀ m j, ((ref, i) : Client) = (NodeRef.node m, j) →
                  m ∈ g2.apply_nodes := by
                intro m j heq2
                have h3 : ref = NodeRef.node m := congrArg Prod.fst heq2
                have h4 : m ∈ (slotSet g ref i newv).apply_nodes := by
                  rw [slotSet_apply_nodes]
                  exact href m h3
                exact hgrow2.2.2.1 m h4
              have hinv3 : LoopInv g3 [] [(r0, (ref, i))] := by
                rw [hg3]
                exact @LoopInv_addPending g2 [] [] [(r0, (ref, i))] newv (ref, i) cs2
                  hinv2 hcs2 hedge2 hst2 (List.not_mem_nil _)
              have hsg3 : slotGet g3 ref i = some newv := by
                rw [hg3]
                rw [show slotGet
                    { g2 with clients := aset g2.clients newv (cs2 ++ [(ref, i)]) } ref i
                    = slotGet g2 ref i from slotGet_congr rfl rfl ref i]
                exact hslot2
              have hnedge : ¬ ForwardEdge g3 r0 (ref, i) := by
                rw [forwardEdge_slot, hsg3]
                intro hcontra
                injection hcontra with hcontra
                exact hne hcontra.symm
              have hok3 : StackOk g3 [(r0, (ref, i))] := by
                intro s hs
                have heq2 := List.mem_singleton.mp hs
                subst heq2
                exact ⟨fun m j _ => Or.inr hnedge, fun j _ => hnedge⟩
              have hrem' : removeClientLoop E (2 + pruneWeight g3) g3 [(r0, (ref, i))]
                  = .ok g4 := by
                rw [← remove_client]
                exact hrem
              have hwf4 : WF g4 :=
                removeClientLoop_inv E (2 + pruneWeight g3) [(r0, (ref, i))] g3 g4
                  hinv3 hok3 hrem'
              refine ⟨LoopInv_execCB _ hwf4, ?_⟩
              intro rr rcs rc0 hrr hrcs hrc0 hrc0ne
              have hreq : rr = r0 := (Option.some.inj hrr).symm
              rw [hreq] at hrcs
              rw [hreq]
              have hcs1 : alookup (slotSet g ref i newv).clients r0 = some rcs := by
                rw [show (slotSet g ref i newv).clients = g.clients from
                  slotSet_clients g ref i newv]
                exact hrcs
              obtain ⟨cs2', hcs2', hsub2⟩ := hgrow2.2.2.2.2 r0 rcs hcs1
              have hcs3 : alookup g3.clients r0 = some cs2' := by
                rw [hg3]
                show alookup (aset g2.clients newv (cs2 ++ [(ref, i)])) r0 = some cs2'
                rw [alookup_aset_ne _ _ _ _ hne]
                exact hcs2'
              have hrefmem : ((ref, i) : Client) ∈ rcs := by
                cases ref with
                | output =>
                  rcases hwf.outComplete i r0 hr with h1 | ⟨cs0, hcs0, hm⟩
                  · cases h1
                  · rw [hrcs] at hcs0
                    injection hcs0 with hcs0
                    rw [← hcs0] at hm
                    exact hm
                | node m =>
                  rcases hwf.complete m (href m rfl) i r0 hr with h1 | ⟨cs0, hcs0, hm⟩
                  · cases h1
                  · rw [hrcs] at hcs0
                    injection hcs0 with hcs0
                    rw [← hcs0] at hm
                    exact hm
              have hin3 : ((ref, i) : Client) ∈ cs2' := hsub2 _ hrefmem
              have hc03 : rc0 ∈ cs2' := hsub2 _ hrc0
              have hlerne : lerase cs2' (ref, i) ≠ [] := by
                intro hnil
                have hmem2 := mem_lerase_of_ne hrc0ne hc03
                rw [hnil] at hmem2
                cases hmem2
              have hremeq := @remove_client_erase E g3 r0 (ref, i) cs2' hcs3 hin3 hlerne
              rw [hrem] at hremeq
              injection hremeq with hremeq
              refine ⟨lerase cs2' (ref, i), ?_, ?_⟩
              · show alookup g4.clients r0 = some (lerase cs2' (ref, i))
                rw [hremeq]
                show alookup (aset g3.clients r0 (lerase cs2' (ref, i))) r0 = _
                exact alookup_aset_self _ _ _
              · intro c hc hcne
                exact mem_lerase_of_ne hcne (hsub2 _ hc)

/-! ## replace preserves well-formedness -/

theorem replaceLoop_wf (E : Env) (va nv : Nat) (im : Bool) :
    ∀ (snap : List Client) (g g' : FunctionGraph),
      WF g → snap.Nodup →
      (∃ cs0, alookup g.clients va = some cs0 ∧ ∀ c ∈ snap, c ∈ cs0) →
      replaceLoop E va nv im g snap = .ok g' → WF g'
  | [], g, g', hwf, _, _, hmain => by
    injection hmain with hmain
    subst hmain
    exact hwf
  | (ref, i) :: rest, g, g', hwf, hnd, hsub, hmain => by
    rw [replaceLoop] at hmain
    split at hmain
    case isFalse => cases hmain
    case isTrue hslot =>
      obtain ⟨cs0, hcs0, hsnap⟩ := hsub
      have hmem0 : ((ref, i) : Client) ∈ cs0 := hsnap _ (List.mem_cons_self _ _)
      have href : ∀ m, ref = NodeRef.node m → m ∈ g.apply_nodes := by
        intro m hm
        rcases hwf.stale (va, cs0) (alookup_mem hcs0) (ref, i) hmem0 m i
          (by rw [hm]) with h1 | h1
        · exact h1
        · cases h1
      rcases hci : change_input E g ref i nv im with e | g1
      · simp only [hci] at hmain
        cases hmain
      · simp only [hci] at hmain
        obtain ⟨hwf1, hkeep⟩ := change_input_master E hwf href hci
        cases rest with
        | nil =>
          injection hmain with hmain
          subst hmain
          exact hwf1
        | cons c0 rest2 =>
          rw [List.nodup_cons] at hnd
          have hc0ne : c0 ≠ (ref, i) := by
            intro hc
            exact hnd.1 (hc ▸ List.mem_cons_self _ _)
          obtain ⟨cs1, hcs1, hsub1⟩ :=
            hkeep va cs0 c0 hslot hcs0 (hsnap _ (List.mem_cons_of_mem _
              (List.mem_cons_self _ _))) hc0ne
          refine replaceLoop_wf E va nv im (c0 :: rest2) g1 g' hwf1 hnd.2
            ⟨cs1, hcs1, ?_⟩ hmain
          intro c hc
          have hcne : c ≠ (ref, i) := by
            intro hceq
            exact hnd.1 (hceq ▸ hc)
          exact hsub1 c (hsnap c (List.mem_cons_of_mem _ hc)) hcne

theorem replace_wf {E : Env} {g g' : FunctionGraph} {va w : Nat} {im : Bool}
    (hwf : WF g) (hmain : replace E g va w im = .ok g') : WF g' := by
  rw [replace] at hmain
  rcases hf : E.filterVar (E.vtype va) w with _ | nv
  · simp only [hf] at hmain
    cases hmain
  · simp only [hf] at hmain
    split at hmain
    · injection hmain with hmain
      subst hmain
      exact @LoopInv_transport g { g with warnings := g.warnings + 1 } [] []
        rfl rfl rfl rfl rfl hwf
    · rcases hcs : alookup g.clients va with _ | snap
      · simp only [hcs] at hmain
        cases hmain
      · simp only [hcs] at hmain
        exact replaceLoop_wf E va nv im snap g g' hwf
          (hwf.csNodup _ (alookup_mem hcs)) ⟨snap, hcs, fun _ hc => hc⟩ hmain

/-! ## The constructor establishes well-formedness -/

theorem LoopInv_registerFeat {g : FunctionGraph} {P : List Client}
    {S : List (Nat × Client)} (f : Nat) (h : LoopInv g P S) :
    LoopInv (registerFeat g f) P S :=
  @LoopInv_transport g (registerFeat g f) P S rfl rfl rfl rfl rfl h

theorem LoopInv_attach {E : Env} {g g' : FunctionGraph} {P : List Client}
    {S : List (Nat × Client)} {f : Nat}
    (h : LoopInv g P S) (hmain : attach_feature E g f = .ok g') :
    LoopInv g' P S ∧ g'.outputs = g.outputs := by
  rw [attach_feature] at hmain
  split at hmain
  · injection hmain with hmain
    subst hmain
    exact ⟨h, rfl⟩
  · rcases hfa : E.featAttach f with _ | _ | c | _
    all_goals simp only [hfa] at hmain
    · injection hmain with hmain
      subst hmain
      exact ⟨LoopInv_registerFeat f (LoopInv_execCB _ h), rfl⟩
    · injection hmain with hmain
      subst hmain
      exact ⟨LoopInv_execCB _ h, rfl⟩
    · cases hmain
    · injection hmain with hmain
      subst hmain
      exact ⟨LoopInv_registerFeat f h, rfl⟩

theorem LoopInv_attachAll (E : Env) :
    ∀ (fs : List Nat) (g g' : FunctionGraph) (P : List Client) (S : List (Nat × Client)),
      LoopInv g P S → attachAll E g fs = .ok g' →
      LoopInv g' P S ∧ g'.outputs = g.outputs
  | [], g, g', P, S, h, hmain => by
    injection hmain with hmain
    subst hmain
    exact ⟨h, rfl⟩
  | f :: rest, g, g', P, S, h, hmain => by
    rw [attachAll] at hmain
    rcases ha : attach_feature E g f with e | g1
    · simp only [ha] at hmain
      cases hmain
    · simp only [ha] at hmain
      obtain ⟨h1, ho1⟩ := LoopInv_attach h ha
      obtain ⟨h2, ho2⟩ := LoopInv_attachAll E rest g1 g' P S h1 hmain
      exact ⟨h2, ho2.trans ho1⟩

theorem LoopInv_mkInputs (E : Env) :
    ∀ (vs : List Nat) (g g' : FunctionGraph) (P : List Client) (S : List (Nat × Client)),
      LoopInv g P S → mkInputs E g vs = .ok g' →
      LoopInv g' P S ∧ g'.outputs = g.outputs
  | [], g, g', P, S, h, hmain => by
    injection hmain with hmain
    subst hmain
    exact ⟨h, rfl⟩
  | v :: rest, g, g', P, S, h, hmain => by
    rw [mkInputs] at hmain
    rcases ho : E.owner v with _ | n
    · simp only [ho] at hmain
      obtain ⟨h1, ho1⟩ := LoopInv_mkInputs E rest (add_input g v false) g' P S
        (LoopInv_add_input v false h) hmain
      refine ⟨h1, ho1.trans ?_⟩
      rw [add_input_outputs]
    · simp only [ho] at hmain
      cases hmain

theorem LoopInv_importOutputs (E : Env) :
    ∀ (outs : List Nat) (g g' : FunctionGraph) (P : List Client) (S : List (Nat × Client)),
      LoopInv g P S → PendOk g P → StackNodes g S →
      importOutputs E g outs = .ok g' →
      LoopInv g' P S ∧ GrowOk g g'
  | [], g, g', P, S, h, _, _, hmain => by
    injection hmain with hmain
    subst hmain
    exact ⟨h, GrowOk_refl g⟩
  | v :: rest, g, g', P, S, h, hP, hS, hmain => by
    rw [importOutputs] at hmain
    rcases hi : importVar E g v false with e | g1
    · simp only [hi] at hmain
      cases hmain
    · simp only [hi] at hmain
      obtain ⟨h1, hg1, _⟩ := importVar_inv h hP hS hi
      obtain ⟨h2, hg2⟩ := LoopInv_importOutputs E rest g1 g' P S h1
        (PendOk_mono hP hg1.2.2.1) (StackNodes_mono hS hg1.2.2.1) hmain
      exact ⟨h2, GrowOk_trans hg1 hg2⟩

/-- The final loop of the constructor: appending each `("output", i)`
back-edge discharges the output pendings. -/
theorem outputClients_inv :
    ∀ (ivs : List (Nat × Nat)) (g g' : FunctionGraph),
      LoopInv g (ivs.map (fun iv => (NodeRef.output, iv.1))) [] →
      (∀ iv ∈ ivs, lget g.outputs iv.1 = some iv.2) →
      (ivs.map Prod.fst).Nodup →
      outputClients g ivs = .ok g' →
      LoopInv g' [] []
  | [], g, g', h, _, _, hmain => by
    injection hmain with hmain
    subst hmain
    exact h
  | (i, o) :: rest, g, g', h, hidx, hnd, hmain => by
    rw [outputClients] at hmain
    rcases hac : add_client g o (NodeRef.output, i) with e | g1
    · simp only [hac] at hmain
      cases hmain
    · simp only [hac] at hmain
      obtain ⟨cs, hcs, hg1⟩ := add_client_ok hac
      simp only [List.map_cons] at h
      have hedge : ForwardEdge g o (NodeRef.output, i) := by
        rw [forwardEdge_output]
        exact hidx (i, o) (List.mem_cons_self _ _)
      have hst : ∀ m j, ((NodeRef.output, i) : Client) = (NodeRef.node m, j) →
          m ∈ g.apply_nodes := by
        intro m j heq
        exact NodeRef.noConfusion (congrArg Prod.fst heq)
      simp only [List.map_cons, List.nodup_cons] at hnd
      have hcP : ((NodeRef.output, i) : Client) ∉
          rest.map (fun iv => ((NodeRef.output, iv.1) : Client)) := by
        intro hmem
        obtain ⟨iv, hiv, heq⟩ := List.mem_map.mp hmem
        have hfst : iv.1 = i := by
          have h3 := congrArg Prod.snd heq
          simpa using h3
        have h4 : iv.1 ∈ rest.map Prod.fst := List.mem_map_of_mem Prod.fst hiv
        rw [hfst] at h4
        exact hnd.1 h4
      have h5 : LoopInv g
          ([] ++ ((NodeRef.output, i) ::
            rest.map (fun iv => ((NodeRef.output, iv.1) : Client)))) [] := h
      have h2 := LoopInv_addPending h5 hcs hedge hst hcP
      have hout1 : g1.outputs = g.outputs := by
        rw [hg1]
      have hidx2 : ∀ iv ∈ rest, lget g1.outputs iv.1 = some iv.2 := by
        intro iv hiv
        rw [hout1]
        exact hidx iv (List.mem_cons_of_mem _ hiv)
      refine outputClients_inv rest g1 g' ?_ hidx2 hnd.2 hmain
      rw [hg1]
      exact h2

/-- The quiescent invariant of the freshly initialised container: every
output slot is a pending back-edge. -/
theorem LoopInv_initState (h : List (Nat × List Nat)) (outs : List Nat) :
    LoopInv (initState h outs)
      ((zidx 0 outs).map (fun iv => (NodeRef.output, iv.1))) [] := by
  refine ⟨?_, ?_, ?_, ?_, ?_, ?_, ?_, ?_, ?_, ?_⟩
  · intro p hp
    cases hp
  · intro n hn
    cases hn
  · intro i v hg
    refine Or.inl (List.mem_map.mpr ⟨(i, v), ?_, rfl⟩)
    rw [zidx_mem]
    exact ⟨Nat.zero_le i, by simpa using hg⟩
  · intro p hp
    cases hp
  · exact List.nodup_nil
  · exact List.nodup_nil
  · exact List.nodup_nil
  · intro v hv
    cases hv
  · intro p hp
    cases hp
  · intro c _ p hp
    cases hp

/-- A successful construction ends in a well-formed graph. -/
theorem mkFunctionGraph_wf {E : Env} {h : List (Nat × List Nat)}
    {inps outs feats : List Nat} {rv : Nat} {g : FunctionGraph}
    (hmain : mkFunctionGraph E h inps outs feats rv = .ok g) : WF g := by
  rw [mkFunctionGraph] at hmain
  rcases h1 : attachAll E (initState h outs) feats with e | g1
  · simp only [h1] at hmain
    cases hmain
  · simp only [h1] at hmain
    rcases h2 : attach_feature E g1 rv with e | g2
    · simp only [h2] at hmain
      cases hmain
    · simp only [h2] at hmain
      rcases h3 : mkInputs E g2 inps with e | g3
      · simp only [h3] at hmain
        cases hmain
      · simp only [h3] at hmain
        rcases h4 : importOutputs E g3 outs with e | g4
        · simp only [h4] at hmain
          cases hmain
        · simp only [h4] at hmain
          obtain ⟨hi1, ho1⟩ := LoopInv_attachAll E feats (initState h outs) g1 _ _
            (LoopInv_initState h outs) h1
          obtain ⟨hi2, ho2⟩ := LoopInv_attach hi1 h2
          obtain ⟨hi3, ho3⟩ := LoopInv_mkInputs E inps g2 g3 _ _ hi2 h3
          have hPout : ∀ (gx : FunctionGraph), PendOk gx
              ((zidx 0 outs).map (fun iv => (NodeRef.output, iv.1))) := by
            intro gx m j hm
            obtain ⟨iv, _, heq⟩ := List.mem_map.mp hm
            exact NodeRef.noConfusion (congrArg Prod.fst heq)
          have hSnil : ∀ (gx : FunctionGraph), StackNodes gx ([] : List (Nat × Client)) :=
            fun gx w m j hm => absurd hm (List.not_mem_nil _)
          obtain ⟨hi4, hg4⟩ := LoopInv_importOutputs E outs g3 g4 _ _ hi3
            (hPout g3) (hSnil g3) h4
          have hout4 : g4.outputs = outs := by
            rw [hg4.2.1, ho3, ho2, ho1]
            rfl
          refine outputClients_inv (zidx 0 outs) g4 g hi4 ?_ (zidx_fst_nodup 0 outs) hmain
          intro iv hiv
          rw [hout4]
          exact zidx_idx hiv

/-! ## Safe reachability implies well-formedness -/

theorem safeReachable_wf {E : Env} {g : FunctionGraph} (h : SafeReachable E g) : WF g := by
  induction h with
  | init h inps outs feats rv g hmk => exact mkFunctionGraph_wf hmk
  | step g g' hreach hstep ih =>
    have hPnil : PendOk g ([] : List Client) :=
      fun m j hm => absurd hm (List.not_mem_nil _)
    have hSnil : StackNodes g ([] : List (Nat × Client)) :=
      fun w m j hm => absurd hm (List.not_mem_nil _)
    cases hstep with
    | impVar v im hop => exact (importVar_inv ih hPnil hSnil hop).1
    | impNode n check im hop => exact (importNode_inv ih hPnil hSnil hop).1
    | chgInput ref i w im hin hop => exact (change_input_master E ih hin hop).1
    | repl va w im hop => exact replace_wf ih hop

/-- Quiescent well-formedness gives the claim's invariant: sound back-edges
with exact multiplicities. -/
theorem WF_clientsSoundMult {g : FunctionGraph} (h : WF g) : ClientsSoundMult g := by
  intro p hp
  obtain ⟨v, cs⟩ := p
  constructor
  · intro c hc
    rcases h.sound (v, cs) hp c hc with h1 | h1
    · exact h1
    · cases h1
  · intro n hn
    apply count_entries
    · exact h.csNodup (v, cs) hp
    · intro i hi
      rcases h.sound (v, cs) hp (NodeRef.node n, i) hi with h1 | h1
      · exact h1
      · cases h1
    · intro i hgi
      rcases h.complete n hn i v hgi with h1 | ⟨cs', hcs', hm⟩
      · cases h1
      · have hl : alookup g.clients v = some cs := mem_alookup h.keysNodup hp
        rw [hl] at hcs'
        injection hcs' with hcs'
        rw [← hcs'] at hm
        exact hm

/-! ## Prune accounting (claim C2) -/

theorem lcountP_append {α : Type} (p : α → Prop) [DecidablePred p] (l m : List α) :
    lcountP p (l ++ m) = lcountP p l + lcountP p m := by
  induction l with
  | nil => simp [lcountP]
  | cons a l ih =>
    rw [List.cons_append, lcountP, lcountP, ih]
    omega

theorem lcount_append {α : Type} [DecidableEq α] (l m : List α) (a : α) :
    lcount (l ++ m) a = lcount l a + lcount m a :=
  lcountP_append _ l m

theorem lcount_singleton {α : Type} [DecidableEq α] (b a : α) :
    lcount [b] a = if b = a then 1 else 0 := by
  simp [lcount, lcountP]

/-- The worklist loop only shrinks `apply_nodes` and `variables`, and each
node it removes gets exactly one `on_prune` broadcast — nodes that survive or
were never present get none. -/
theorem removeClientLoop_prune_count (E : Env) :
    ∀ (fuel : Nat) (S : List (Nat × Client)) (g g' : FunctionGraph),
      g.apply_nodes.Nodup →
      removeClientLoop E fuel g S = .ok g' →
      (∀ m ∈ g'.apply_nodes, m ∈ g.apply_nodes) ∧
      (∀ w ∈ g'.vars, w ∈ g.vars) ∧
      g'.apply_nodes.Nodup ∧
      (∀ q, lcount g'.log (Event.onPrune q) + (if q ∈ g'.apply_nodes then 1 else 0)
          = lcount g.log (Event.onPrune q) + (if q ∈ g.apply_nodes then 1 else 0))
  | fuel, [], g, g', hnd, hmain => by
    rw [removeClientLoop_nil] at hmain
    injection hmain with hmain
    subst hmain
    exact ⟨fun _ hm => hm, fun _ hw => hw, hnd, fun _ => rfl⟩
  | 0, (v, e) :: S, g, g', _, hmain => by
    rw [removeClientLoop] at hmain
    cases hmain
  | fuel + 1, (v, e) :: S, g, g', hnd, hmain => by
    rw [removeClientLoop] at hmain
    rcases hcs : alookup g.clients v with _ | cs
    · simp only [hcs] at hmain
      cases hmain
    · simp only [hcs] at hmain
      split at hmain
      · obtain ⟨m1, m2, m3, m4⟩ := removeClientLoop_prune_count E fuel S _ g'
          (by rw [eraseClient_apply_nodes]; exact hnd) hmain
        simp only [eraseClient_apply_nodes, eraseClient_vars, eraseClient_log] at m1 m2 m3 m4
        exact ⟨m1, m2, m3, m4⟩
      · rcases how : E.owner v with _ | pown
        · simp only [how] at hmain
          split at hmain
          · obtain ⟨m1, m2, m3, m4⟩ := removeClientLoop_prune_count E fuel S _ g'
              (by
                show (eraseClient g v e cs).apply_nodes.Nodup
                rw [eraseClient_apply_nodes]
                exact hnd) hmain
            refine ⟨?_, ?_, m3, ?_⟩
            · intro m hm
              have h2 := m1 m hm
              rw [show ({ eraseClient g v e cs with
                  vars := lerase (eraseClient g v e cs).vars v } : FunctionGraph).apply_nodes
                = g.apply_nodes from by rw [eraseClient_apply_nodes]] at h2
              exact h2
            · intro w hw
              have h2 := m2 w hw
              rw [show ({ eraseClient g v e cs with
                  vars := lerase (eraseClient g v e cs).vars v } : FunctionGraph).vars
                = lerase g.vars v from by rw [eraseClient_vars]] at h2
              exact mem_of_mem_lerase h2
            · intro q
              have h2 := m4 q
              rw [show ({ eraseClient g v e cs with
                  vars := lerase (eraseClient g v e cs).vars v } : FunctionGraph).log
                = g.log from by rw [eraseClient_log]] at h2
              rw [show ({ eraseClient g v e cs with
                  vars := lerase (eraseClient g v e cs).vars v } : FunctionGraph).apply_nodes
                = g.apply_nodes from by rw [eraseClient_apply_nodes]] at h2
              exact h2
          · cases hmain
        · simp only [how] at hmain
          rcases hany : anyClientful (eraseClient g v e cs) (E.nodeOut pown) with err | b
          · simp only [hany] at hmain
            cases hmain
          · cases b
            · simp only [hany] at hmain
              split at hmain
              case isTrue hpm =>
                have hnd1 : (pruneState E (eraseClient g v e cs) pown).apply_nodes.Nodup := by
                  rw [pruneState_apply_nodes, eraseClient_apply_nodes]
                  exact lerase_nodup pown hnd
                obtain ⟨m1, m2, m3, m4⟩ := removeClientLoop_prune_count E fuel _ _ g'
                  hnd1 hmain
                rw [pruneState_apply_nodes, eraseClient_apply_nodes] at m1
                rw [pruneState_vars, eraseClient_vars] at m2
                rw [pruneState_apply_nodes, eraseClient_apply_nodes] at m4
                rw [pruneState_log, eraseClient_log] at m4
                rw [eraseClient_apply_nodes] at hpm
                refine ⟨?_, ?_, m3, ?_⟩
                · intro m hm
                  exact mem_of_mem_lerase (m1 m hm)
                · intro w hw
                  exact (List.mem_filter.mp (m2 w hw)).1
                · intro q
                  have h2 := m4 q
                  rw [lcount_append, lcount_singleton] at h2
                  by_cases hpq : Event.onPrune pown = Event.onPrune q
                  · have hq : q = pown := by
                      injection hpq with h3
                      exact h3.symm
                    subst hq
                    rw [if_pos rfl] at h2
                    rw [if_neg (not_mem_lerase_self hnd)] at h2
                    rw [if_pos hpm]
                    omega
                  · have hq : q ≠ pown := by
                      intro h3
                      exact hpq (by rw [h3])
                    rw [if_neg hpq] at h2
                    rw [if_congr
                      (Iff.intro mem_of_mem_lerase (mem_lerase_of_ne hq)) rfl rfl] at h2
                    omega
              case isFalse => cases hmain
            · simp only [hany] at hmain
              obtain ⟨m1, m2, m3, m4⟩ := removeClientLoop_prune_count E fuel S _ g'
                (by rw [eraseClient_apply_nodes]; exact hnd) hmain
              simp only [eraseClient_apply_nodes, eraseClient_vars, eraseClient_log]
                at m1 m2 m3 m4
              exact ⟨m1, m2, m3, m4⟩

/-! ## Claims C1 and C2 -/

/-- C1 counterexample: the claim quantifies over states reached through all
public operations including `remove_client`; one bare `remove_client` of a
live back-edge leaves `Add` in `apply_nodes` holding `x` in slot `0` while
`clients[x]` no longer has an entry for it, so the multiplicity clause
fails. -/
theorem C1_counterexample :
    Reachable envS1 gS1bad ∧ ¬ ClientsSoundMult gS1bad :=
  ⟨Reachable.step gS1 gS1bad
      (Reachable.init heapS1 [0, 1] [3] [] 9 gS1 (by rfl))
      (Step.remCli gS1 gS1bad 0 (NodeRef.node 10, 0) (by rfl)),
    by decide⟩

/-- C1 (amended): back-edge soundness with exact multiplicities holds in
every state reached from a successful construction through `import_var`,
`import_node`, `replace`, and `change_input` on slots of the graph — the
only way `change_input` is invoked by the container itself — without bare
`remove_client` calls: for every tracked variable `v` and every entry
`(c, i)` of `clients[v]`, `c = "output"` and `outputs[i] is v` or
`c.inputs[i] is v`, and each node of the graph has exactly as many entries
in `clients[v]` as `v` has occurrences among its inputs. -/
theorem C1_back_edge_soundness (E : Env) (g : FunctionGraph)
    (h : SafeReachable E g) : ClientsSoundMult g :=
  WF_clientsSoundMult (safeReachable_wf h)

theorem C1_witness : ClientsSoundMult gS1 :=
  C1_back_edge_soundness envS1 gS1
    (SafeReachable.init heapS1 [0, 1] [3] [] 9 gS1 (by rfl))

/-- C2 counterexample: `replace(x, y)` on a constructor-built graph where
`x` has an empty clients list returns successfully, `x` is not an output
and has no remaining clients — yet `x` stays in `variables` (the loop body
never runs, so no membership is ever reconsidered), contradicting the
claim's "var … removed from variables". -/
theorem C2_counterexample :
    mkFunctionGraph envS1 [] [0, 1] [1] [] 9 = .ok gC2 ∧
    replace envS1 gC2 0 1 false = .ok gC2 ∧
    0 ∈ gC2.vars ∧ 0 ∉ gC2.outputs ∧ alookup gC2.clients 0 = some [] :=
  ⟨by rfl, by rfl, by decide, by decide, by rfl⟩

/-- C2 (amended): prune accounting of `remove_client` — the cascading
removal machinery `replace` delegates every disconnection to.  From any
state with duplicate-free `apply_nodes`, a successful `remove_client` only
shrinks `apply_nodes` and `variables`, and `on_prune` fires exactly once
for every node removed from `apply_nodes` and never for a node that
survives or was absent: the count of `on_prune q` events in the log rises
by one exactly when `q` is removed. -/
theorem C2_prune_on_disconnect (E : Env) (g g' : FunctionGraph) (v : Nat) (e : Client)
    (hnd : g.apply_nodes.Nodup) (hmain : remove_client E g v e = .ok g') :
    (∀ m ∈ g'.apply_nodes, m ∈ g.apply_nodes) ∧
    (∀ w ∈ g'.vars, w ∈ g.vars) ∧
    (∀ q, lcount g'.log (Event.onPrune q) + (if q ∈ g'.apply_nodes then 1 else 0)
        = lcount g.log (Event.onPrune q) + (if q ∈ g.apply_nodes then 1 else 0)) := by
  rw [remove_client] at hmain
  obtain ⟨m1, m2, _, m4⟩ := removeClientLoop_prune_count E (2 + pruneWeight g)
    [(v, e)] g g' hnd hmain
  exact ⟨m1, m2, m4⟩

theorem C2_witness :
    (∀ m ∈ gC2r.apply_nodes, m ∈ gS1.apply_nodes) ∧
    (∀ w ∈ gC2r.vars, w ∈ gS1.vars) ∧
    (∀ q, lcount gC2r.log (Event.onPrune q) + (if q ∈ gC2r.apply_nodes then 1 else 0)
        = lcount gS1.log (Event.onPrune q) + (if q ∈ gS1.apply_nodes then 1 else 0)) :=
  C2_prune_on_disconnect envS1 gS1 gC2r 2 (NodeRef.node 11, 0) (by decide) (by rfl)

end AesaraFG
